import Mathlib

/-!
# mate-panel run dialog (`panel-run-dialog.c`): history, matching, program list, running,
field codes, completion

A shallow embedding of the pure parts of the run dialog.

* C strings are `String`s (never `NULL` unless wrapped in `Option`), compared by content as
  `strcmp` / `g_strcmp0` do.
* The GSettings keys read and written by the history code are the fields of `Settings`.
* A one-column `GtkListStore` holding strings is the list of its rows in display order.
* The stack array `items` of `_panel_run_save_recent_programs_list` is a list of `Ptr` slots,
  so that reading a slot that was never written, or running off the end of the array, is visible
  in the model (the result is `none`).
* Row counts come from `gtk_tree_model_iter_n_children`, a `gint`, so the `guint` expression
  `items_added + 1` cannot wrap; counters are natural numbers.
* The program list store is the list of its rows; the tree view displays the rows whose
  `COLUMN_VISIBLE` is set, in the same order. The global accelerator hash table is a list of
  bindings with distinct keys.
* The menu tree is a finite tree of items; GLib, GIO and the desktop (collation, sorting,
  shell parsing, program lookup, spawning, showing a URI) enter as arguments.
* The loop of `remove_parameters` need not end, so it runs on fuel: `none` says that the
  fuel ran out, and a result is proved for every fuel above the length of the string.
* The file system of the completion code (directory listings, file tests, the home
  directory) is the record `CompletionEnv`; the hash table `dir_hash` is the list of its
  keys; a failed `g_assert` is the result `none`.
* The global `static_dialog` is an `Option`, the global accelerator map a field of the
  dialog it belongs to.
-/

namespace PanelRunDialog

/-! ## History store -/

/-- The three GSettings keys of schema `org.mate.panel` used by the history code:
`history-mate-run`, `history-max-size-mate-run` and `history-reverse-mate-run`. -/
structure Settings where
  history : List String
  history_max_size : Nat
  history_reverse : Bool
  deriving DecidableEq, Repr

/-- One `gchar *` slot of a C array: never written, `NULL`, or pointing to a string. -/
inductive Ptr where
  | uninit : Ptr
  | null : Ptr
  | str : String → Ptr
  deriving DecidableEq, Repr

/-- The loop `for (i = 0; i < history_max_size && items[i]; i++)` of
`_panel_run_get_recent_programs_list`. The second argument is the part of the
`NULL`-terminated vector `items` from index `i` on, the third the list store built so far:
`gtk_list_store_prepend` adds a row in front, `gtk_list_store_append` at the end. -/
def get_loop (history_max_size : Nat) (history_reverse : Bool) :
    Nat → List String → List String → List String
  | _, [], list => list
  | i, item :: rest, list =>
    if i < history_max_size then
      get_loop history_max_size history_reverse (i + 1) rest
        (if history_reverse then item :: list else list ++ [item])
    else list

/-- The model `_panel_run_get_recent_programs_list` returns: the rows of the new list store. -/
def _panel_run_get_recent_programs_list (settings : Settings) : List String :=
  get_loop settings.history_max_size settings.history_reverse 0 settings.history []

/-- The `do ... while (gtk_tree_model_iter_next (model, &iter))` loop of
`_panel_run_save_recent_programs_list` over the rows of the model, guarded by
`gtk_tree_model_get_iter_first`. The state is `(items, items_added)`. -/
def fill_loop (lastcommand : String) : List String → List Ptr × Nat → List Ptr × Nat
  | [], st => st
  | command :: rest, (items, items_added) =>
    if command = lastcommand then
      fill_loop lastcommand rest (items, items_added)
    else
      fill_loop lastcommand rest
        (items.set (items_added + 1) (Ptr.str command), items_added + 1)

/-- The body of the reversal loop: exchange `items[pos + 1]` and `items[items_added - pos]`. -/
def swap_step (items_added : Nat) (items : List Ptr) (pos : Nat) : List Ptr :=
  let tmp := items.getD (pos + 1) Ptr.uninit
  let items1 := items.set (pos + 1) (items.getD (items_added - pos) Ptr.uninit)
  items1.set (items_added - pos) tmp

/-- The loop `for (pos = 0; pos < items_added / 2; pos++)`. -/
def reverse_loop (items_added : Nat) (items : List Ptr) : List Ptr :=
  (List.range (items_added / 2)).foldl (swap_step items_added) items

/-- What `g_settings_set_strv` reads from a `NULL`-terminated vector: the strings before the
first `NULL`. Reading an unwritten slot or past the end of the array has no defined result. -/
def strv_read : List Ptr → Option (List String)
  | [] => none
  | Ptr.uninit :: _ => none
  | Ptr.null :: _ => some []
  | Ptr.str s :: rest => (strv_read rest).map (fun l => s :: l)

/-- The value `_panel_run_save_recent_programs_list` writes to the key `history-mate-run`,
given the rows `model` of the combo box and the command just run.
`g_settings_set_strv (..., NULL)` sets the key to the empty array. -/
def _panel_run_save_recent_programs_list (settings : Settings) (model : List String)
    (lastcommand : String) : Option (List String) :=
  if settings.history_max_size = 0 then
    some []
  else
    let items0 := (List.replicate (model.length + 2) Ptr.uninit).set 0 (Ptr.str lastcommand)
    let st := fill_loop lastcommand model (items0, 0)
    let items_added := st.2
    let items1 := if settings.history_reverse then reverse_loop items_added st.1 else st.1
    let items2 :=
      if settings.history_max_size < items_added + 1 then
        items1.set settings.history_max_size Ptr.null
      else
        items1.set (items_added + 1) Ptr.null
    strv_read items2

/-- One dialog session that ends in a successful run of `command`:
`panel_run_dialog_setup_entry` fills the combo box from
`_panel_run_get_recent_programs_list`, and `panel_run_dialog_execute` records the command
with `_panel_run_save_recent_programs_list`. The result is the settings afterwards. -/
def record_session (settings : Settings) (command : String) : Option Settings :=
  (_panel_run_save_recent_programs_list settings
      (_panel_run_get_recent_programs_list settings) command).map
    (fun h => { settings with history := h })

/-- Successive dialog sessions, one per command, oldest first. -/
def record_sessions : Settings → List String → Option Settings
  | settings, [] => some settings
  | settings, command :: rest =>
    match record_session settings command with
    | none => none
    | some settings1 => record_sessions settings1 rest

/-! ## Command matching -/

/-- The pieces of a non-empty string between single spaces, as `g_strsplit` cuts them:
a piece ends at each `' '`, and what follows the last one is the final piece. -/
def split_on_space : List Char → List (List Char)
  | [] => [[]]
  | c :: cs =>
    if c = ' ' then [] :: split_on_space cs
    else
      match split_on_space cs with
      | [] => [[c]]
      | t :: ts => (c :: t) :: ts

/-- GLib `g_strsplit (string, " ", -1)`: the empty string gives the empty vector, any other
string its pieces between spaces (a limit of -1 means no limit on the number of pieces). -/
def g_strsplit (string : String) : List String :=
  if string = "" then [] else (split_on_space string.data).map String.mk

/-- GLib `g_path_get_basename` (Unix): `"."` for the empty string, `"/"` for a string of
slashes only, otherwise the component after the last slash once trailing slashes are
dropped. -/
def g_path_get_basename (file_name : String) : String :=
  if file_name = "" then "."
  else
    let stripped := file_name.data.reverse.dropWhile (fun c => c = '/')
    if stripped = [] then "/"
    else String.mk (stripped.takeWhile (fun c => c ≠ '/')).reverse

/-- The function `fuzzy_command_match (cmd1, cmd2, &fuzzy)`. The third argument is the value
of `*fuzzy` before the call; the result is the returned `gboolean` and `*fuzzy` afterwards.
With a `NULL` argument `g_return_val_if_fail` returns `TRUE` and leaves `*fuzzy` alone. -/
def fuzzy_command_match (cmd1 cmd2 : Option String) (fuzzy : Bool) : Bool × Bool :=
  match cmd1, cmd2 with
  | some cmd1, some cmd2 =>
    if cmd1 = cmd2 then (true, false)
    else
      match g_strsplit cmd1 with
      | [] => (false, false)
      | token1 :: _ =>
        let word1 := g_path_get_basename token1
        match g_strsplit cmd2 with
        | [] => (false, false)
        | token2 :: _ =>
          let word2 := g_path_get_basename token2
          if word1 = word2 then (true, true) else (false, false)
  | _, _ => (true, fuzzy)

/-- The text before the first space of a command (the whole command if it has no space). -/
def text_before_first_space (s : String) : String :=
  String.mk (s.data.takeWhile (fun c => c ≠ ' '))

/-- The first whitespace-delimited token in the words of the specification: the text
before the first whitespace character; the empty string has no token. -/
def first_whitespace_token (s : String) : Option String :=
  if s = "" then none
  else some (String.mk (s.data.takeWhile (fun c => !c.isWhitespace)))

/-! ## Program list -/

/-- A `GIcon *` that is not `NULL`, identified by its icon name. -/
abbrev GIcon := String

/-- One row of `program_list_store`, with the columns the matching code reads and writes. -/
structure ProgramRow where
  gicon : Option GIcon
  name : Option String
  accelerator_mask : Nat
  accelerator_key_value : Nat
  comment : Option String
  exec : Option String
  visible : Bool
  deriving DecidableEq, Repr

def GDK_MOD1_MASK : Nat := 8
def GDK_KEY_0 : Nat := 0x30
def GDK_KEY_1 : Nat := 0x31
def GDK_KEY_2 : Nat := 0x32
def GDK_KEY_3 : Nat := 0x33
def GDK_KEY_4 : Nat := 0x34
def GDK_KEY_5 : Nat := 0x35
def GDK_KEY_6 : Nat := 0x36
def GDK_KEY_7 : Nat := 0x37
def GDK_KEY_8 : Nat := 0x38
def GDK_KEY_9 : Nat := 0x39

structure AcceleratorKeyMapping where
  list_item_idx : Nat
  modifier : Nat
  key_id : Nat
  deriving DecidableEq, Repr

def accelerator_key_mapping : List AcceleratorKeyMapping :=
  [ ⟨0, GDK_MOD1_MASK, GDK_KEY_1⟩,
    ⟨1, GDK_MOD1_MASK, GDK_KEY_2⟩,
    ⟨2, GDK_MOD1_MASK, GDK_KEY_3⟩,
    ⟨3, GDK_MOD1_MASK, GDK_KEY_4⟩,
    ⟨4, GDK_MOD1_MASK, GDK_KEY_5⟩,
    ⟨5, GDK_MOD1_MASK, GDK_KEY_6⟩,
    ⟨6, GDK_MOD1_MASK, GDK_KEY_7⟩,
    ⟨7, GDK_MOD1_MASK, GDK_KEY_8⟩,
    ⟨8, GDK_MOD1_MASK, GDK_KEY_9⟩,
    ⟨9, GDK_MOD1_MASK, GDK_KEY_0⟩ ]

/-- A `GHashTable` with direct keys and values, as the list of its bindings. -/
abbrev KeyMap := List (Nat × Nat)

/-- The call `g_hash_table_insert`: a binding of the same key is replaced. -/
def KeyMap.insert (m : KeyMap) (key value : Nat) : KeyMap :=
  (key, value) :: m.filter (fun b => b.1 ≠ key)

/-- The call `g_hash_table_lookup_extended`. -/
def KeyMap.lookup (m : KeyMap) (key : Nat) : Option Nat :=
  (m.find? (fun b => b.1 = key)).map (fun b => b.2)

/-- The part of the dialog that `panel_run_dialog_find_command_idle` touches:
the list store, `dialog->item_name`, the icon last handed to `panel_run_dialog_set_icon`,
and the global `accelerator_keys_to_tree_iter_map`. -/
structure Dialog where
  program_list_store : List ProgramRow
  item_name : Option String
  set_icon_arg : Option GIcon
  accelerator_keys_to_tree_iter_map : KeyMap
  deriving DecidableEq, Repr

/-- The local variables of `panel_run_dialog_find_command_idle` that live across rows. -/
structure FindState where
  fuzzy : Bool
  found_icon : Option GIcon
  found_name : Option String
  visible_program_idx : Nat
  map : KeyMap
  deriving DecidableEq, Repr

/-- One pass through the body of the `do ... while` loop of
`panel_run_dialog_find_command_idle` for one row; the result is the state and the row as
updated. `strstrcase haystack needle` says whether `panel_g_utf8_strstrcase` (from
`panel-util.c`) finds the needle. The condition of the first `if` is evaluated left to
right, so `fuzzy_command_match` runs only when `fuzzy` is unset and the row has both
an exec string and an icon. -/
def find_command_step (strstrcase : Option String → String → Bool) (text : String)
    (st : FindState) (row : ProgramRow) : FindState × ProgramRow :=
  let m : Bool × Bool :=
    if !st.fuzzy && row.exec.isSome && row.gicon.isSome then
      fuzzy_command_match (some text) row.exec st.fuzzy
    else (false, st.fuzzy)
  let st1 : FindState :=
    if m.1 then { st with fuzzy := m.2, found_icon := row.gicon, found_name := row.name }
    else { st with fuzzy := m.2 }
  let visible : Bool :=
    if m.1 then true
    else if strstrcase row.exec text || strstrcase row.name text ||
        strstrcase row.comment text then true
    else false
  if visible && decide (st1.visible_program_idx < accelerator_key_mapping.length) then
    let a := accelerator_key_mapping.getD st1.visible_program_idx ⟨0, 0, 0⟩
    ({ st1 with
        map := st1.map.insert a.key_id st1.visible_program_idx,
        visible_program_idx := st1.visible_program_idx + 1 },
     { row with visible := visible, accelerator_mask := a.modifier,
                accelerator_key_value := a.key_id })
  else
    (st1, { row with visible := visible, accelerator_mask := 0, accelerator_key_value := 0 })

/-- The `do ... while (gtk_tree_model_iter_next (model, &iter))` loop over the rows. -/
def find_command_loop (strstrcase : Option String → String → Bool) (text : String) :
    FindState → List ProgramRow → FindState × List ProgramRow
  | st, [] => (st, [])
  | st, row :: rest =>
    let r := find_command_step strstrcase text st row
    let q := find_command_loop strstrcase text r.1 rest
    (q.1, r.2 :: q.2)

/-- The function `panel_run_dialog_find_command_idle`, `text` being the text of the
entry. With an empty list store it only resets the icon and returns. -/
def panel_run_dialog_find_command_idle (strstrcase : Option String → String → Bool)
    (text : String) (dialog : Dialog) : Dialog :=
  match dialog.program_list_store with
  | [] => { dialog with set_icon_arg := none }
  | rows =>
    let r := find_command_loop strstrcase text ⟨false, none, none, 0, []⟩ rows
    { program_list_store := r.2,
      item_name := r.1.found_name,
      set_icon_arg := r.1.found_icon,
      accelerator_keys_to_tree_iter_map := r.1.map }

/-- Rows that can become the match: those with an exec string and an icon. -/
def ProgramRow.selectable (row : ProgramRow) : Bool :=
  row.exec.isSome && row.gicon.isSome

/-- The exec string of the row equals the text. -/
def ProgramRow.exact_match (text : String) (row : ProgramRow) : Bool :=
  decide (row.exec = some text)

/-- The exec string of the row differs from the text and matches it by basename. -/
def ProgramRow.basename_match (text : String) (row : ProgramRow) : Bool :=
  match row.exec with
  | none => false
  | some e => decide (fuzzy_command_match (some text) (some e) false = (true, true))

/-- The exec string of the row matches the text exactly or by basename. -/
def ProgramRow.exec_match (text : String) (row : ProgramRow) : Bool :=
  match row.exec with
  | none => false
  | some e => (fuzzy_command_match (some text) (some e) false).1

/-- The row the specification names as the match: the first row in list order whose exec
string matches the text exactly or by basename. -/
def first_exec_match (text : String) (rows : List ProgramRow) : Option ProgramRow :=
  rows.find? (ProgramRow.exec_match text)

/-- The row whose icon and name the loop ends with: the first selectable row that matches
by basename only, and without one the last selectable row that matches exactly. -/
def selected_row (text : String) (rows : List ProgramRow) : Option ProgramRow :=
  match (rows.filter ProgramRow.selectable).find? (ProgramRow.basename_match text) with
  | some row => some row
  | none => ((rows.filter ProgramRow.selectable).filter (ProgramRow.exact_match text)).getLast?

/-! ## Visibility and accelerators -/

/-- Whether the characters of the needle stand at the start of the haystack. -/
def chars_start_with : List Char → List Char → Bool
  | _, [] => true
  | [], _ :: _ => false
  | h :: hs, n :: ns => h == n && chars_start_with hs ns

/-- Whether the characters of the needle occur in the haystack as one block. -/
def chars_contain : List Char → List Char → Bool
  | [], needle => chars_start_with [] needle
  | h :: hs, needle => chars_start_with (h :: hs) needle || chars_contain hs needle

/-- Modelled from the spec: `panel_g_utf8_strstrcase` lives in `panel-util.c`, which is not
among the sources; the specification calls it a case-insensitive substring test. Here it
says whether the needle occurs in the haystack once both are put in lower case; a `NULL`
haystack contains nothing. The search loop below takes the test as an argument, this
definition serves where a concrete test is needed. -/
def panel_g_utf8_strstrcase (haystack : Option String) (needle : String) : Bool :=
  match haystack with
  | none => false
  | some h => chars_contain (h.data.map Char.toLower) (needle.data.map Char.toLower)

/-- The third matching rule: the text is found in the exec string, the name or the comment
of the row (the `else if` of the search loop). -/
def ProgramRow.substring_match (strstrcase : Option String → String → Bool) (text : String)
    (row : ProgramRow) : Bool :=
  strstrcase row.exec text || strstrcase row.name text || strstrcase row.comment text

/-- A row matches the text by one of the three rules of the specification: the exec string
equals the text or matches it by basename, or the text is found in the exec string, the
name or the comment. -/
def ProgramRow.three_rule_match (strstrcase : Option String → String → Bool) (text : String)
    (row : ProgramRow) : Bool :=
  row.exec_match text || row.substring_match strstrcase text

/-- Some row of the list has an exec string and an icon and matches the text by basename
only; from that row on the loop variable `fuzzy` is set. -/
def fuzzy_found (text : String) (rows : List ProgramRow) : Bool :=
  rows.any (fun r => r.selectable && r.basename_match text)

/-- The key of slot `i` of `accelerator_key_mapping` (0 past the end of the table). -/
def accel_key (i : Nat) : Nat :=
  (accelerator_key_mapping.getD i ⟨0, 0, 0⟩).key_id

/-- The hash table after the keys of slots `0 .. n - 1` were inserted in this order, each
bound to its slot. -/
def accel_bindings (n : Nat) : KeyMap :=
  ((List.range n).map (fun i => (accel_key i, i))).reverse

/-- The rows of the filter model on `COLUMN_VISIBLE`, which `program_list` displays. -/
def visible_rows (rows : List ProgramRow) : List ProgramRow :=
  rows.filter (fun r => r.visible)

/-- Every value of the accelerator map is the index of a displayed row. -/
def accel_map_in_range (dialog : Dialog) : Prop :=
  ∀ b ∈ dialog.accelerator_keys_to_tree_iter_map,
    b.2 < (visible_rows dialog.program_list_store).length

instance (dialog : Dialog) : Decidable (accel_map_in_range dialog) :=
  inferInstanceAs (Decidable (∀ b ∈ dialog.accelerator_keys_to_tree_iter_map,
    b.2 < (visible_rows dialog.program_list_store).length))

/-- Twelve rows that all match the text `term`, for concrete checks. -/
def twelve_matches : List ProgramRow :=
  List.replicate 12 ⟨some "utilities-terminal", some "MATE Terminal", 0, 0,
    some "Use the command line", some "mate-terminal", false⟩

/-- The callback `panel_run_dialog_accelerator_key_pressed`: `cursor` is the index of the
row of `program_list` that holds the cursor, if any; the result is the cursor afterwards.
`gtk_tree_path_new_from_indices (index, -1)` addresses a row of the displayed model. -/
def panel_run_dialog_accelerator_key_pressed (dialog : Dialog) (cursor : Option Nat)
    (keyval : Nat) : Option Nat :=
  match dialog.accelerator_keys_to_tree_iter_map.lookup keyval with
  | none => cursor
  | some index_of_entry => some index_of_entry

/-- GLib `g_ascii_isspace`: space, tab, line feed, form feed and carriage return. -/
def g_ascii_isspace (c : Char) : Bool :=
  c = ' ' || c = '\t' || c = '\n' || c = Char.ofNat 12 || c = '\r'

/-- The loop over the rows in the blank-text branch of `combobox_changed`: every row is
made visible, the first ten get the accelerators of the table, the others
`GDK_MOD1_MASK` with key 0. The state is the counter `i` and the hash table. -/
def show_all_loop : Nat → KeyMap → List ProgramRow → (Nat × KeyMap) × List ProgramRow
  | i, map, [] => ((i, map), [])
  | i, map, row :: rest =>
    if i < accelerator_key_mapping.length then
      let a := accelerator_key_mapping.getD i ⟨0, 0, 0⟩
      let q := show_all_loop (i + 1) (map.insert a.key_id i) rest
      (q.1, { row with visible := true, accelerator_mask := a.modifier,
                       accelerator_key_value := a.key_id } :: q.2)
    else
      let q := show_all_loop i map rest
      (q.1, { row with visible := true, accelerator_mask := GDK_MOD1_MASK,
                       accelerator_key_value := 0 } :: q.2)

/-- The handler `combobox_changed`, on the fields of `Dialog`: `text` is the text of the
entry, `enable_program_list` the value of `panel_profile_get_enable_program_list ()`.
With text left after the leading white space the handler only schedules
`panel_run_dialog_find_command_idle`, which runs later. -/
def combobox_changed (enable_program_list use_program_list : Bool) (text : String)
    (dialog : Dialog) : Dialog :=
  let start := text.data.dropWhile g_ascii_isspace
  let dialog1 := if use_program_list then dialog else { dialog with item_name := none }
  if start = [] then
    if enable_program_list then
      let r := show_all_loop 0 [] dialog1.program_list_store
      { dialog1 with program_list_store := r.2,
                     accelerator_keys_to_tree_iter_map := r.1.2 }
    else dialog1
  else dialog1

/-! ## Application index -/

/-- A `MateMenuTreeEntry` with what the code asks of its `GDesktopAppInfo`:
`g_app_info_get_name`, `g_app_info_get_display_name` (the `X-GNOME-FullName` of the
desktop file when it has one, else the name), the description, the command line and the
icon. -/
structure MenuEntry where
  name : String
  display_name : Option String
  description : Option String
  commandline : Option String
  icon : Option GIcon
  deriving DecidableEq, Repr

mutual
/-- An item of a menu directory, by the type `matemenu_tree_iter_next` reports. -/
inductive MenuItem where
  | entry : MenuEntry → MenuItem
  | directory : MenuDirectory → MenuItem
  | alias_item : MenuAlias → MenuItem
  | separator : MenuItem
  | header : MenuItem
/-- A `MateMenuTreeAlias`, by the type of the aliased item. -/
inductive MenuAlias where
  | entry : MenuEntry → MenuAlias
  | directory : MenuDirectory → MenuAlias
  | other : MenuAlias
/-- A `MateMenuTreeDirectory`: its items in the order the iterator yields them. -/
inductive MenuDirectory where
  | nil : MenuDirectory
  | cons : MenuItem → MenuDirectory → MenuDirectory
end

mutual
/-- The function `get_all_applications_from_alias`; `g_slist_append` adds at the end. -/
def get_all_applications_from_alias : MenuAlias → List MenuEntry → List MenuEntry
  | MenuAlias.entry item, list => list ++ [item]
  | MenuAlias.directory item, list => get_all_applications_from_dir item list
  | MenuAlias.other, list => list
/-- The `switch (type)` in the loop of `get_all_applications_from_dir`, for one item. -/
def get_all_applications_from_item : MenuItem → List MenuEntry → List MenuEntry
  | MenuItem.entry item, list => list ++ [item]
  | MenuItem.directory item, list => get_all_applications_from_dir item list
  | MenuItem.alias_item item, list => get_all_applications_from_alias item list
  | MenuItem.separator, list => list
  | MenuItem.header, list => list
/-- The function `get_all_applications_from_dir`: the `while` loop over the iterator. -/
def get_all_applications_from_dir : MenuDirectory → List MenuEntry → List MenuEntry
  | MenuDirectory.nil, list => list
  | MenuDirectory.cons item rest, list =>
    get_all_applications_from_dir rest (get_all_applications_from_item item list)
end

mutual
/-- The application entries reachable from an alias, in depth-first order. -/
def MenuAlias.reachable_entries : MenuAlias → List MenuEntry
  | MenuAlias.entry e => [e]
  | MenuAlias.directory d => d.reachable_entries
  | MenuAlias.other => []
/-- The application entries reachable from an item, in depth-first order. -/
def MenuItem.reachable_entries : MenuItem → List MenuEntry
  | MenuItem.entry e => [e]
  | MenuItem.directory d => d.reachable_entries
  | MenuItem.alias_item a => a.reachable_entries
  | MenuItem.separator => []
  | MenuItem.header => []
/-- The application entries reachable from a directory, depth first and left to right. -/
def MenuDirectory.reachable_entries : MenuDirectory → List MenuEntry
  | MenuDirectory.nil => []
  | MenuDirectory.cons item rest => item.reachable_entries ++ rest.reachable_entries
end

/-- The function `compare_applications`; `collate` stands for `g_utf8_collate`. -/
def compare_applications (collate : String → String → Int) (a b : MenuEntry) : Int :=
  collate a.name b.name

/-- GLib `g_slist_sort`, documented as a stable sort: elements are put in non-decreasing
order of the comparison function, and elements that compare equal keep their order. -/
def g_slist_sort (compare : MenuEntry → MenuEntry → Int) (list : List MenuEntry) :
    List MenuEntry :=
  List.insertionSort (fun a b => compare a b ≤ 0) list

/-- The function `get_all_applications`; the argument is the root directory of the menu
tree, `none` when the tree does not load or has no root. -/
def get_all_applications (collate : String → String → Int) (root : Option MenuDirectory) :
    List MenuEntry :=
  match root with
  | none => []
  | some root =>
    g_slist_sort (compare_applications collate) (get_all_applications_from_dir root [])

/-- The loop under `/* Strip duplicates */` in `panel_run_dialog_add_items_idle`: the
first argument is `prev_name`, the second the part of the list from `l` on, the result what
is left of that part. -/
def strip_duplicates : Option String → List MenuEntry → List MenuEntry
  | _, [] => []
  | prev_name, entry :: next =>
    match prev_name, entry.display_name with
    | some p, some entry_name =>
      if entry_name = p then strip_duplicates prev_name next
      else entry :: strip_duplicates entry.display_name next
    | _, _ => entry :: strip_duplicates entry.display_name next

/-- The loop of `panel_run_dialog_add_items_idle` that appends one row per application. -/
def add_items_loop : Nat → KeyMap → List MenuEntry → (Nat × KeyMap) × List ProgramRow
  | i, map, [] => ((i, map), [])
  | i, map, entry :: rest =>
    if i < accelerator_key_mapping.length then
      let a := accelerator_key_mapping.getD i ⟨0, 0, 0⟩
      let q := add_items_loop (i + 1) (map.insert a.key_id i) rest
      (q.1, { gicon := entry.icon, name := entry.display_name,
              accelerator_mask := a.modifier, accelerator_key_value := a.key_id,
              comment := entry.description, exec := entry.commandline,
              visible := true } :: q.2)
    else
      let q := add_items_loop i map rest
      (q.1, { gicon := entry.icon, name := entry.display_name,
              accelerator_mask := GDK_MOD1_MASK, accelerator_key_value := 0,
              comment := entry.description, exec := entry.commandline,
              visible := true } :: q.2)

/-- The applications `panel_run_dialog_add_items_idle` puts in the list store: those of
`get_all_applications` after the duplicate stripping. -/
def stripped_applications (collate : String → String → Int) (root : Option MenuDirectory) :
    List MenuEntry :=
  strip_duplicates none (get_all_applications collate root)

/-- The function `panel_run_dialog_add_items_idle`, on the fields of `Dialog`. -/
def panel_run_dialog_add_items_idle (collate : String → String → Int)
    (root : Option MenuDirectory) (dialog : Dialog) : Dialog :=
  let r := add_items_loop 0 [] (stripped_applications collate root)
  { dialog with program_list_store := r.2, accelerator_keys_to_tree_iter_map := r.1.2 }

/-- Two neighbours of the list carry the same display name, and it is not `NULL`. -/
def same_display_name (a b : MenuEntry) : Prop :=
  a.display_name.isSome = true ∧ a.display_name = b.display_name

instance (a b : MenuEntry) : Decidable (same_display_name a b) :=
  inferInstanceAs (Decidable (a.display_name.isSome = true ∧ a.display_name = b.display_name))

/-- The order of the code points of two character lists, as `strcmp` reports it:
negative, zero or positive. -/
def compare_chars : List Char → List Char → Int
  | [], [] => 0
  | [], _ :: _ => -1
  | _ :: _, [] => 1
  | a :: as, b :: bs =>
    if a.toNat < b.toNat then -1
    else if b.toNat < a.toNat then 1
    else compare_chars as bs

/-- A collation for concrete lists: the order of the code points, which is what
`g_utf8_collate` gives in the C locale. -/
def codepoint_collate (a b : String) : Int :=
  compare_chars a.data b.data

/-! ## Running a command -/

/-- What the run code asks of GLib, of the desktop and of the file system.
`home_path` is the string `g_build_filename (g_get_home_dir (), "/", NULL)` returns: the
home directory with a `/` at the end. `is_executable` and `is_regular` are `g_file_test`
with `G_FILE_TEST_IS_EXECUTABLE` and `G_FILE_TEST_IS_REGULAR`; `g_spawn_async` says
whether the child was started; `panel_show_uri` stands for the calls
`panel_util_get_file_optional_homedir`, `g_file_get_uri` and `panel_show_uri` on the
command and says whether the URI was shown. -/
structure RunEnv where
  g_locale_from_utf8 : String → Option String
  g_uri_parse_scheme : String → Option String
  g_path_is_absolute : String → Bool
  g_shell_parse_argv : String → Option (List String)
  home_path : String
  g_find_program_in_path : String → Option String
  is_executable : String → Bool
  is_regular : String → Bool
  terminal_checkbox : Bool
  mate_desktop_prepend_terminal_to_vector : List String → List String
  g_spawn_async : List String → Bool
  panel_show_uri : String → Bool

/-- The call `g_regex_replace_literal` with the pattern `^~/` and the literal replacement
`home_path`: only a `~/` at the very start of the argument is replaced. -/
def replace_leading_tilde (home_path : String) (arg : String) : String :=
  match arg.data with
  | '~' :: '/' :: rest => home_path ++ String.mk rest
  | _ => arg

/-- The loop `for (gsize i = 0; i < argv_len; i++)` of `command_is_executable`. -/
def expand_argv (home_path : String) (argv : List String) : List String :=
  argv.map (replace_leading_tilde home_path)

/-- What `command_is_executable` did: its result, the vector it hands back in `*argvp`,
the argument it gave to `g_find_program_in_path` and the path it gave to `g_file_test`. -/
structure ExecutableCheck where
  result : Bool
  argv : List String
  resolved : Option String
  tested : Option String
  deriving DecidableEq, Repr

/-- The function `command_is_executable`. With an empty vector `argv[0]` is `NULL` and
`g_find_program_in_path` finds nothing. -/
def command_is_executable (env : RunEnv) (command : String) : ExecutableCheck :=
  match env.g_shell_parse_argv command with
  | none => ⟨false, [], none, none⟩
  | some parsed =>
    let argv := expand_argv env.home_path parsed
    match argv with
    | [] => ⟨false, [], none, none⟩
    | argv0 :: _ =>
      match env.g_find_program_in_path argv0 with
      | none => ⟨false, [], some argv0, none⟩
      | some path =>
        if !env.is_executable path || !env.is_regular path then
          ⟨false, [], some argv0, some path⟩
        else ⟨true, argv, some argv0, some path⟩

/-- What the run code does that can be seen from outside, in the order it happens. -/
inductive RunEvent where
  | launch_command : String → RunEvent
  | spawn : List String → RunEvent
  | child_watch : RunEvent
  | error_dialog : String → RunEvent
  | show_uri : String → RunEvent
  | save_history : String → RunEvent
  | destroy_dialog : RunEvent
  deriving DecidableEq, Repr

/-- The function `panel_run_dialog_launch_command`: its result and what it did after
the call itself. -/
def panel_run_dialog_launch_command (env : RunEnv) (locale_command : String) :
    Bool × List RunEvent :=
  let check := command_is_executable env locale_command
  if !check.result then (false, [])
  else
    let argv :=
      if env.terminal_checkbox then env.mate_desktop_prepend_terminal_to_vector check.argv
      else check.argv
    let result := env.g_spawn_async argv
    if !result then
      (false, [RunEvent.spawn argv, RunEvent.error_dialog "cannot_spawn_command"])
    else (true, [RunEvent.spawn argv, RunEvent.child_watch])

/-- GLib `g_strchug`: the string without its leading white space. -/
def g_strchug (string : String) : String :=
  String.mk (string.data.dropWhile g_ascii_isspace)

/-- The outcome of `panel_run_dialog_execute`: what it did, the value written to the
history key when `_panel_run_save_recent_programs_list` ran, and whether the dialog was
destroyed. -/
structure RunOutcome where
  events : List RunEvent
  history_written : Option (List String)
  destroyed : Bool
  deriving DecidableEq, Repr

/-- The function `panel_run_dialog_execute`: `text` is the text of the entry, `model` the
rows of the combo box. -/
def panel_run_dialog_execute (env : RunEnv) (settings : Settings) (model : List String)
    (text : String) : RunOutcome :=
  let command := g_strchug text
  if command = "" then ⟨[], none, false⟩
  else
    match env.g_locale_from_utf8 command with
    | none => ⟨[RunEvent.error_dialog "cannot_convert_command_from_utf8"], none, false⟩
    | some disk =>
      let scheme := env.g_uri_parse_scheme disk
      let launch : Bool × List RunEvent :=
        if env.g_path_is_absolute disk || scheme.isNone then
          let r := panel_run_dialog_launch_command env disk
          (r.1, RunEvent.launch_command disk :: r.2)
        else (false, [])
      let shown : Bool × List RunEvent :=
        if !launch.1 then (env.panel_show_uri command, [RunEvent.show_uri command])
        else (true, [])
      if shown.1 then
        ⟨launch.2 ++ shown.2 ++ [RunEvent.save_history command, RunEvent.destroy_dialog],
          _panel_run_save_recent_programs_list settings model command, true⟩
      else ⟨launch.2 ++ shown.2, none, false⟩

/-- An environment for concrete runs: a UTF-8 locale, no text has a URI scheme, paths
starting with `/` are absolute, a command without spaces or quotes is its own single
argument, the home directory is `/home/user`, every program is found where it is named and
is a regular executable file, the terminal box is not ticked; `spawn_ok` and `show_ok` say
whether spawning and showing succeed. -/
def sample_env (spawn_ok show_ok : Bool) : RunEnv where
  g_locale_from_utf8 := fun s => some s
  g_uri_parse_scheme := fun _ => none
  g_path_is_absolute := fun s => s.data.head? = some '/'
  g_shell_parse_argv := fun s => some [s]
  home_path := "/home/user/"
  g_find_program_in_path := fun s => some s
  is_executable := fun _ => true
  is_regular := fun _ => true
  terminal_checkbox := false
  mate_desktop_prepend_terminal_to_vector := fun argv => "mate-terminal" :: "-x" :: argv
  g_spawn_async := fun _ => spawn_ok
  panel_show_uri := fun _ => show_ok

/-- The sample environment for runs with several arguments: a command that is not empty is
cut at its single spaces, which is what `g_shell_parse_argv` gives for a command without
quotes, escapes and doubled spaces; the empty command is a parse error. -/
def sample_words_env : RunEnv :=
  { sample_env true true with
    g_shell_parse_argv := fun s => if s = "" then none else some (g_strsplit s) }

/-! ## Field codes of an Exec string -/

/-- The letters of the `case` labels of `remove_parameters` that erase two characters. -/
def is_field_code (c : Char) : Bool :=
  c = 'U' || c = 'F' || c = 'N' || c = 'D' || c = 'f' || c = 'u' || c = 'd' || c = 'n' ||
    c = 'm' || c = 'i' || c = 'c' || c = 'k' || c = 'v'

/-- One evaluation of the condition and the body of the `while` loop of
`remove_parameters`: `none` when `strstr (str->str, "%")` finds nothing, else the string
after the `switch`. After the first `%` comes `p[1]`: a second `%` erases one character,
a field code erases two, anything else (the end of the string included) erases nothing. -/
def remove_parameters_step (str : List Char) : Option (List Char) :=
  match str.dropWhile (fun c => c ≠ '%') with
  | [] => none
  | _ :: after =>
    match after with
    | [] => some str
    | c :: rest =>
      if c = '%' then some (str.takeWhile (fun c => c ≠ '%') ++ after)
      else if is_field_code c then some (str.takeWhile (fun c => c ≠ '%') ++ rest)
      else some str

/-- The `while` loop of `remove_parameters`, run for at most `fuel` evaluations of its
condition: `none` when the loop is still running after that. -/
def remove_parameters_loop : Nat → List Char → Option (List Char)
  | 0, _ => none
  | fuel + 1, str =>
    match remove_parameters_step str with
    | none => some str
    | some str1 => remove_parameters_loop fuel str1

/-- The function `remove_parameters`, with the number of loop rounds it may use. -/
def remove_parameters (fuel : Nat) (exec : String) : Option String :=
  (remove_parameters_loop fuel exec.data).map String.mk

/-- Every `%` of the string is immediately followed by a field-code letter. -/
def codes_well_formed : List Char → Bool
  | [] => true
  | c :: rest =>
    if c = '%' then
      match rest with
      | [] => false
      | code :: rest1 => is_field_code code && codes_well_formed rest1
    else codes_well_formed rest

/-- The string without its two-character field codes, all other characters in order. -/
def without_field_codes : List Char → List Char
  | [] => []
  | [c] => [c]
  | c :: code :: rest =>
    if c = '%' && is_field_code code then without_field_codes rest
    else c :: without_field_codes (code :: rest)

/-! ## Appending a file name to the entry -/

/-- The test of the loop of `quote_string`: a letter, a digit or one of `-_./=:`. -/
def quote_string_plain (c : Char) : Bool :=
  (decide ('a'.toNat ≤ c.toNat) && decide (c.toNat ≤ 'z'.toNat)) ||
  (decide ('A'.toNat ≤ c.toNat) && decide (c.toNat ≤ 'Z'.toNat)) ||
  (decide ('0'.toNat ≤ c.toNat) && decide (c.toNat ≤ '9'.toNat)) ||
  decide (c ∈ ['-', '_', '.', '/', '=', ':'])

/-- The loop `for (p = s; *p != '\0'; p++)` of `quote_string`, from `p` on. -/
def quote_string_loop (g_shell_quote : String → String) (s : String) : List Char → String
  | [] => s
  | p :: rest =>
    if quote_string_plain p then quote_string_loop g_shell_quote s rest
    else g_shell_quote s

/-- The function `quote_string`; `g_shell_quote` is the GLib function. -/
def quote_string (g_shell_quote : String → String) (s : String) : String :=
  quote_string_loop g_shell_quote s s.data

/-- The function `panel_run_dialog_append_file_utf8`: `text` is the text of the entry
before, the result the text after. -/
def panel_run_dialog_append_file_utf8 (g_shell_quote : String → String)
    (file : Option String) (text : String) : String :=
  match file with
  | none => text
  | some file =>
    if file = "" || file.data.head? = some '-' then text
    else
      let quoted := quote_string g_shell_quote file
      if text ≠ "" then text ++ " " ++ quoted else quoted

/-- GLib `g_shell_quote`: the string between single quotes, each single quote of the string
written as quote, backslash, quote, quote. -/
def g_shell_quote (unquoted_string : String) : String :=
  String.mk ([Char.ofNat 39] ++
    unquoted_string.data.flatMap (fun c =>
      if c = Char.ofNat 39 then [Char.ofNat 39, Char.ofNat 92, Char.ofNat 39, Char.ofNat 39]
      else [c]) ++
    [Char.ofNat 39])

/-- The characters the specification lets pass unquoted: ASCII letters, digits and
`- _ . / = :`. -/
def spec_plain_char (c : Char) : Bool :=
  c.isAlpha || c.isDigit || decide (c ∈ ['-', '_', '.', '/', '=', ':'])

/-! ## Completion -/

/-- GLib `g_path_get_dirname` (Unix): `"."` for a name without a slash, otherwise the name
up to its last slash, without that slash and the slashes right in front of it, and `"/"`
when nothing but slashes comes before. -/
def g_path_get_dirname (file_name : String) : String :=
  if '/' ∈ file_name.data then
    let kept := (file_name.data.reverse.dropWhile (fun c => c ≠ '/')).dropWhile
      (fun c => c = '/')
    if kept = [] then "/" else String.mk kept.reverse
  else "."

/-- What the completion code asks of GLib and of the file system. `readdir` gives the
entries of a directory, each with the outcome of the directory test of `fill_files_from`
(`d_type` or `g_file_test`), and `none` when `opendir` fails; `is_regular` and
`is_executable` are `g_file_test`. -/
structure CompletionEnv where
  home_dir : String
  g_build_filename : List String → String
  readdir : String → Option (List (String × Bool))
  is_regular : String → Bool
  is_executable : String → Bool

/-- The function `fill_files_from`; `dirpfx` and `pfx` are its arguments `dirprefix` and
`prefix`. Items are prepended, directories get the element `"/"` at the end. -/
def fill_files_from (env : CompletionEnv) (dirname dirpfx : String) (pfx : Char)
    (_existing_items : List String) : List String :=
  match env.readdir dirname with
  | none => []
  | some dents =>
    dents.foldl (fun list dent =>
      if dent.1.data.head? ≠ some pfx then list
      else env.g_build_filename
        (if dent.2 then [dirpfx, dent.1, "/"] else [dirpfx, dent.1]) :: list) []

/-- The loop of `fill_executables` from `l` on, with the list built so far; a basename
that is already among the existing items makes the function return `NULL` at once. -/
def fill_executables_loop (env : CompletionEnv) (existing_items : List String)
    (pfx : Char) : List String → List String → List String
  | [], list => list
  | filename :: rest, list =>
    if (g_path_get_basename filename).data.head? = some pfx && env.is_regular filename &&
        env.is_executable filename then
      if g_path_get_basename filename ∈ existing_items then []
      else fill_executables_loop env existing_items pfx rest
        (g_path_get_basename filename :: list)
    else fill_executables_loop env existing_items pfx rest list

/-- The function `fill_executables`. -/
def fill_executables (env : CompletionEnv) (possible_executables existing_items : List String)
    (pfx : Char) : List String :=
  fill_executables_loop env existing_items pfx possible_executables []

/-- The fields of the dialog the completion code uses: the keys of `dir_hash`, the two
lists, and the list last given to `completion_add_items`. -/
structure CompletionState where
  dir_hash : List String
  possible_executables : List String
  completion_items : List String
  completion_model : Option (List String)
  deriving DecidableEq, Repr

/-- The condition of the `g_assert` of `panel_run_dialog_update_completion`. -/
def completion_assertion (text : String) : Bool :=
  match text.data with
  | [] => false
  | c :: _ => !g_ascii_isspace c

/-- The variable `prefix` of `panel_run_dialog_update_completion`: the first character of
the basename of the text. -/
def completion_pfx (text : String) : Char :=
  (g_path_get_basename text).data.headD (Char.ofNat 0)

/-- The variable `dirprefix` of `panel_run_dialog_update_completion`. -/
def completion_dirpfx (text : String) : String :=
  if text.data.head? = some '/' then g_path_get_dirname text
  else if '/' ∈ text.data then g_path_get_dirname text
  else ""

/-- The cache key `g_strdup_printf ("%s%c%c", dirprefix, G_DIR_SEPARATOR, prefix)`. -/
def completion_key (dirpfx : String) (pfx : Char) : String :=
  String.mk (dirpfx.data ++ ['/', pfx])

/-- The outcome of one call of `panel_run_dialog_update_completion`: the dialog afterwards
and the arguments `dirname`, `dirprefix`, `prefix` of the call of `fill_files_from`, if
there was one. -/
structure CompletionStep where
  state : CompletionState
  listed : Option (String × String × Char)
  deriving DecidableEq, Repr

/-- The function `panel_run_dialog_update_completion`; `none` when the assertion at its
start fails and the program aborts. -/
def panel_run_dialog_update_completion (env : CompletionEnv) (dialog : CompletionState)
    (text : String) : Option CompletionStep :=
  if !completion_assertion text then none
  else if completion_pfx text = '/' || completion_pfx text = '.' then some ⟨dialog, none⟩
  else
    let executables :=
      if text.data.head? ≠ some '/' && decide ('/' ∉ text.data) then
        fill_executables env dialog.possible_executables dialog.completion_items
          (text.data.headD (Char.ofNat 0))
      else []
    let dirpfx := completion_dirpfx text
    let dirname :=
      if text.data.head? = some '/' then g_path_get_dirname text
      else env.g_build_filename [env.home_dir, dirpfx]
    let key := completion_key dirpfx (completion_pfx text)
    let found := decide (key ∈ dialog.dir_hash)
    let dir_hash := if found then dialog.dir_hash else key :: dialog.dir_hash
    let list :=
      (if found then []
       else fill_files_from env dirname dirpfx (completion_pfx text) dialog.completion_items)
        ++ executables
    let listed := if found then none else some (dirname, dirpfx, completion_pfx text)
    if list = [] then some ⟨{ dialog with dir_hash := dir_hash }, listed⟩
    else
      some ⟨{ dialog with dir_hash := dir_hash, completion_model := some list,
                          completion_items := dialog.completion_items ++ list }, listed⟩

/-- The calls of `fill_files_from` made by successive calls of
`panel_run_dialog_update_completion` in one session, one call per text, in order. A
failed assertion ends the session. -/
def session_listings (env : CompletionEnv) : CompletionState → List String →
    List (String × String × Char)
  | _, [] => []
  | dialog, text :: rest =>
    match panel_run_dialog_update_completion env dialog text with
    | none => []
    | some step => step.listed.toList ++ session_listings env step.state rest

/-- A `GdkEventKey`, with what `entry_event` reads of it. -/
structure GdkEventKey where
  is_key_press : Bool
  keyval : Nat
  length : Int
  string : String
  deriving DecidableEq, Repr

/-- The entry as `entry_event` sees it: its text, the selection bounds `pos` and `tmp`
(in characters) and the flag `completion_started` of the dialog. -/
structure EntryState where
  text : String
  pos : Nat
  tmp : Nat
  completion_started : Bool
  deriving DecidableEq, Repr

def GDK_KEY_Tab : Nat := 0xff09

/-- The handler `entry_event`: its return value and the text it gives to
`panel_run_dialog_update_completion`, if it calls it. `strlen` counts bytes. -/
def entry_event (enable_autocompletion : Bool) (entry : EntryState) (event : GdkEventKey) :
    Bool × Option String :=
  if !event.is_key_press then (false, none)
  else if !enable_autocompletion then (false, none)
  else if event.keyval = GDK_KEY_Tab then
    if entry.completion_started && entry.pos ≠ entry.tmp && entry.pos ≠ 1 &&
        entry.tmp = entry.text.utf8ByteSize then (true, none)
    else (false, none)
  else if 0 < event.length then
    let typed : Option String :=
      if entry.completion_started && entry.pos ≠ entry.tmp && entry.pos ≠ 0 &&
          entry.tmp = entry.text.utf8ByteSize then
        some (String.mk (entry.text.data.take entry.pos) ++ event.string)
      else if entry.pos = entry.tmp && entry.tmp = entry.text.utf8ByteSize then
        some (entry.text ++ event.string)
      else none
    match typed with
    | none => (false, none)
    | some typed_text =>
      match typed_text.data.dropWhile g_ascii_isspace with
      | [] => (false, none)
      | c :: rest => (false, some (String.mk (c :: rest)))
  else (false, none)

/-- A file system for concrete runs: the home directory holds `bin`, `books` and
`notes.txt`; every file is regular and executable; path elements are joined with `/`. -/
def sample_completion_env : CompletionEnv where
  home_dir := "/home/user"
  g_build_filename := fun elements =>
    String.mk (elements.foldl (fun acc e =>
      if e = "" then acc
      else if acc = [] || acc.getLast? = some '/' || e = "/" then acc ++ e.data
      else acc ++ '/' :: e.data) [])
  readdir := fun dirname =>
    if dirname = "/home/user" then some [("bin", true), ("books", true), ("notes.txt", false)]
    else none
  is_regular := fun _ => true
  is_executable := fun _ => true

/-! ## Presenting the dialog -/

/-- The function `panel_run_dialog_present`, on the global `static_dialog` (`none` is
`NULL`) and the global accelerator map, which the model keeps in the field
`accelerator_keys_to_tree_iter_map`. The first statement binds the global to a new empty
table, whatever the lockdown setting and `static_dialog` are; an open dialog is then only
raised. `panel_run_dialog_new` returns a dialog with an empty list store, for which
`panel_run_dialog_add_items_idle` runs later. -/
def panel_run_dialog_present (disable_command_line : Bool) (static_dialog : Option Dialog) :
    Option Dialog :=
  match static_dialog with
  | some dialog => some { dialog with accelerator_keys_to_tree_iter_map := [] }
  | none => if disable_command_line then none else some ⟨[], none, none, []⟩

/-- The accelerator columns and the accelerator map agree: every row of the list store
that displays a non-zero accelerator key is visible and the map sends that key to the
index of the row among the displayed rows. -/
def accelerators_agree (dialog : Dialog) : Prop :=
  ∀ k : Fin dialog.program_list_store.length,
    (dialog.program_list_store.get k).accelerator_key_value ≠ 0 →
      (dialog.program_list_store.get k).visible = true ∧
      dialog.accelerator_keys_to_tree_iter_map.lookup
          (dialog.program_list_store.get k).accelerator_key_value =
        some (visible_rows (dialog.program_list_store.take k)).length

instance (dialog : Dialog) : Decidable (accelerators_agree dialog) :=
  inferInstanceAs (Decidable (∀ k : Fin dialog.program_list_store.length,
    (dialog.program_list_store.get k).accelerator_key_value ≠ 0 →
      (dialog.program_list_store.get k).visible = true ∧
      dialog.accelerator_keys_to_tree_iter_map.lookup
          (dialog.program_list_store.get k).accelerator_key_value =
        some (visible_rows (dialog.program_list_store.take k)).length))

/-- A menu with the one application `MATE Terminal`, for concrete checks. -/
def terminal_menu : MenuDirectory :=
  MenuDirectory.cons (MenuItem.entry ⟨"MATE Terminal", some "MATE Terminal", some "Use the command line",
    some "mate-terminal", some "utilities-terminal"⟩) MenuDirectory.nil

/-! ### Lemmas on the history loops -/

theorem get_loop_append (n i : Nat) (items list : List String) :
    get_loop n false i items list = list ++ items.take (n - i) := by
  induction items generalizing i list with
  | nil => simp [get_loop]
  | cons item rest ih =>
    unfold get_loop
    by_cases h : i < n
    · have e : n - i = (n - (i + 1)) + 1 := by omega
      simp [h, ih, e]
    · have e : n - i = 0 := by omega
      simp [h, e]

theorem get_loop_prepend (n i : Nat) (items list : List String) :
    get_loop n true i items list = (items.take (n - i)).reverse ++ list := by
  induction items generalizing i list with
  | nil => simp [get_loop]
  | cons item rest ih =>
    unfold get_loop
    by_cases h : i < n
    · have e : n - i = (n - (i + 1)) + 1 := by omega
      simp [h, ih, e]
    · have e : n - i = 0 := by omega
      simp [h, e]

theorem get_eq (settings : Settings) :
    _panel_run_get_recent_programs_list settings =
      if settings.history_reverse then (settings.history.take settings.history_max_size).reverse
      else settings.history.take settings.history_max_size := by
  unfold _panel_run_get_recent_programs_list
  cases h : settings.history_reverse
  · simp [get_loop_append]
  · simp [get_loop_prepend]

theorem set_length_append_replicate (pre : List Ptr) (k : Nat) (x : Ptr) :
    (pre ++ List.replicate (k + 1) Ptr.uninit).set pre.length x =
      (pre ++ [x]) ++ List.replicate k Ptr.uninit := by
  induction pre with
  | nil => simp [List.replicate_succ]
  | cons a pre ih => simpa using ih

theorem fill_loop_spec (c : String) (rows : List String) (pre : List Ptr) (k a : Nat)
    (hk : rows.length ≤ k) (ha : pre.length = a + 1) :
    fill_loop c rows (pre ++ List.replicate (k + 1) Ptr.uninit, a) =
      (pre ++ (rows.filter (fun x => x ≠ c)).map Ptr.str ++
          List.replicate (k + 1 - (rows.filter (fun x => x ≠ c)).length) Ptr.uninit,
        a + (rows.filter (fun x => x ≠ c)).length) := by
  induction rows generalizing pre k a with
  | nil => simp [fill_loop]
  | cons command rest ih =>
    simp only [List.length_cons] at hk
    unfold fill_loop
    by_cases h : command = c
    · simp only [h, if_true]
      rw [ih pre k a (by omega) ha]
      simp
    · obtain ⟨k1, rfl⟩ : ∃ k1, k = k1 + 1 := ⟨k - 1, by omega⟩
      simp only [h, if_false]
      rw [← ha, set_length_append_replicate, ih (pre ++ [Ptr.str command]) k1 (pre.length)
        (by omega) (by simp)]
      have hl := List.length_filter_le (fun x => decide (x ≠ c)) rest
      simp [h, List.filter_cons]
      omega

theorem swap_step_length (n : Nat) (A : List Ptr) (pos : Nat) :
    (swap_step n A pos).length = A.length := by
  simp [swap_step]

theorem swap_steps_length (n : Nat) (A : List Ptr) (k : Nat) :
    ((List.range k).foldl (swap_step n) A).length = A.length := by
  induction k with
  | zero => simp
  | succ k ih => simp [List.range_succ, List.foldl_append, swap_step_length, ih]

theorem getD_getElem? (A : List Ptr) (i : Nat) (h : i < A.length) :
    some (A.getD i Ptr.uninit) = A[i]? := by
  simp [List.getD, List.getElem?_eq_getElem h]

/-- After `k` rounds of the reversal loop the outer `k` slots on either side of
`items[1 .. items_added]` are exchanged and every other slot is as before. -/
theorem swap_steps_getElem? (n : Nat) (A : List Ptr) (hn : n < A.length) (k : Nat)
    (hk : k ≤ n / 2) (j : Nat) :
    ((List.range k).foldl (swap_step n) A)[j]? =
      if (1 ≤ j ∧ j ≤ k) ∨ (n - k < j ∧ j ≤ n) then A[n + 1 - j]? else A[j]? := by
  induction k generalizing j with
  | zero =>
    have : ¬ ((1 ≤ j ∧ j ≤ 0) ∨ (n - 0 < j ∧ j ≤ n)) := by omega
    rw [if_neg this]
    simp
  | succ k ih =>
    have hk1 : k ≤ n / 2 := by omega
    have hlen := swap_steps_length n A k
    rw [List.range_succ, List.foldl_append]
    simp only [List.foldl_cons, List.foldl_nil]
    generalize hB : (List.range k).foldl (swap_step n) A = B at hlen ih
    have ih1 := ih hk1
    have e1 : B[k + 1]? = A[k + 1]? := by
      rw [ih1]
      have : ¬ ((1 ≤ k + 1 ∧ k + 1 ≤ k) ∨ (n - k < k + 1 ∧ k + 1 ≤ n)) := by omega
      rw [if_neg this]
    have e2 : B[n - k]? = A[n - k]? := by
      rw [ih1]
      have : ¬ ((1 ≤ n - k ∧ n - k ≤ k) ∨ (n - k < n - k ∧ n - k ≤ n)) := by omega
      rw [if_neg this]
    unfold swap_step
    simp only [List.getElem?_set, List.length_set]
    have b1 : k + 1 < B.length := by omega
    have b2 : n - k < B.length := by omega
    by_cases c1 : n - k = j
    · subst c1
      have : (1 ≤ n - k ∧ n - k ≤ k + 1) ∨ (n - (k + 1) < n - k ∧ n - k ≤ n) := by omega
      simp only [this, if_true, b2]
      rw [getD_getElem? B _ b1, e1]
      congr 1
      omega
    · by_cases c2 : k + 1 = j
      · subst c2
        have : (1 ≤ k + 1 ∧ k + 1 ≤ k + 1) ∨ (n - (k + 1) < k + 1 ∧ k + 1 ≤ n) := by omega
        simp only [this, if_true, c1, if_false, b1]
        rw [getD_getElem? B _ b2, e2]
        congr 1
        omega
      · simp only [c1, c2, if_false]
        rw [ih1]
        by_cases c3 : (1 ≤ j ∧ j ≤ k) ∨ (n - k < j ∧ j ≤ n)
        · have : (1 ≤ j ∧ j ≤ k + 1) ∨ (n - (k + 1) < j ∧ j ≤ n) := by omega
          rw [if_pos c3, if_pos this]
        · have : ¬ ((1 ≤ j ∧ j ≤ k + 1) ∨ (n - (k + 1) < j ∧ j ≤ n)) := by omega
          rw [if_neg c3, if_neg this]

/-- The reversal loop reverses `items[1 .. items_added]` in place. -/
theorem reverse_loop_spec (h : Ptr) (L R : List Ptr) :
    reverse_loop L.length (h :: (L ++ R)) = h :: (L.reverse ++ R) := by
  apply List.ext_getElem?
  intro j
  unfold reverse_loop
  rw [swap_steps_getElem? L.length (h :: (L ++ R)) (by simp; omega) (L.length / 2)
    (Nat.le_refl _) j]
  rcases j with _ | j
  · simp
  · by_cases c : j < L.length
    · have e : L.length + 1 - (j + 1) = (L.length - 1 - j) + 1 := by omega
      have m : j < L.length - L.length / 2 → L.length - 1 - j = j ∨ j < L.length / 2 := by
        omega
      have r1 : (L.reverse ++ R)[j]? = L[L.length - 1 - j]? := by
        rw [List.getElem?_append_left (by simpa using c), List.getElem?_reverse c]
      have r2 : (L ++ R)[L.length - 1 - j]? = L[L.length - 1 - j]? :=
        List.getElem?_append_left (by omega)
      simp only [List.getElem?_cons_succ, r1]
      split
      · rw [e, List.getElem?_cons_succ, r2]
      · rename_i hc
        have : L.length - 1 - j = j := by omega
        rw [List.getElem?_append_left c, this]
    · have : ¬ ((1 ≤ j + 1 ∧ j + 1 ≤ L.length / 2) ∨
          (L.length - L.length / 2 < j + 1 ∧ j + 1 ≤ L.length)) := by omega
      simp only [this, if_false, List.getElem?_cons_succ]
      rw [List.getElem?_append_right (by omega), List.getElem?_append_right (by simp; omega)]
      simp

theorem strv_read_strs (X : List String) (rest : List Ptr) :
    strv_read (X.map Ptr.str ++ Ptr.null :: rest) = some X := by
  induction X with
  | nil => simp [strv_read]
  | cons x X ih => simp [strv_read, ih]

theorem set_null_strs (X : List String) (rest : List Ptr) (i : Nat) (hi : i < X.length) :
    (X.map Ptr.str ++ rest).set i Ptr.null =
      (X.take i).map Ptr.str ++ Ptr.null :: ((X.drop (i + 1)).map Ptr.str ++ rest) := by
  induction X generalizing i with
  | nil => simp at hi
  | cons x X ih =>
    rcases i with _ | i
    · simp
    · simp only [List.length_cons] at hi
      simpa using ih i (by omega)

theorem set_null_after_strs (X : List String) (k : Nat) :
    (X.map Ptr.str ++ List.replicate (k + 1) Ptr.uninit).set X.length Ptr.null =
      X.map Ptr.str ++ Ptr.null :: List.replicate k Ptr.uninit := by
  have := set_length_append_replicate (X.map Ptr.str) k Ptr.null
  simpa using this

/-- The history written by `_panel_run_save_recent_programs_list` when the maximum is not 0. -/
theorem save_eq (settings : Settings) (model : List String) (c : String)
    (hmax : settings.history_max_size ≠ 0) :
    _panel_run_save_recent_programs_list settings model c =
      some ((c :: (if settings.history_reverse then (model.filter (fun x => x ≠ c)).reverse
                   else model.filter (fun x => x ≠ c))).take settings.history_max_size) := by
  unfold _panel_run_save_recent_programs_list
  simp only [hmax, if_false]
  have h0 : (List.replicate (model.length + 2) Ptr.uninit).set 0 (Ptr.str c) =
      [Ptr.str c] ++ List.replicate (model.length + 1) Ptr.uninit := by
    simp [List.replicate_succ]
  rw [h0, fill_loop_spec c model [Ptr.str c] model.length 0 (Nat.le_refl _) (by simp)]
  generalize hF : model.filter (fun x => decide (x ≠ c)) = F
  have hFl : F.length ≤ model.length := by
    rw [← hF]; exact List.length_filter_le _ _
  obtain ⟨m, hm⟩ : ∃ m, model.length + 1 - F.length = m + 1 :=
    ⟨model.length - F.length, by omega⟩
  simp only [hm, Nat.zero_add]
  -- the array after the optional reversal
  have key : ∀ X : List String, X.length = F.length + 1 →
      strv_read (if settings.history_max_size < F.length + 1 then
          (X.map Ptr.str ++ List.replicate (m + 1) Ptr.uninit).set
            settings.history_max_size Ptr.null
        else (X.map Ptr.str ++ List.replicate (m + 1) Ptr.uninit).set (F.length + 1) Ptr.null)
        = some (X.take settings.history_max_size) := by
    intro X hX
    by_cases hlt : settings.history_max_size < F.length + 1
    · rw [if_pos hlt, set_null_strs X _ _ (by omega), strv_read_strs]
    · rw [if_neg hlt, ← hX, set_null_after_strs, strv_read_strs,
        List.take_of_length_le (by omega)]
  cases hr : settings.history_reverse
  · have := key (c :: F) (by simp)
    simpa using this
  · have hrev : reverse_loop F.length
        ([Ptr.str c] ++ F.map Ptr.str ++ List.replicate (m + 1) Ptr.uninit) =
        (c :: F.reverse).map Ptr.str ++ List.replicate (m + 1) Ptr.uninit := by
      have := reverse_loop_spec (Ptr.str c) (F.map Ptr.str) (List.replicate (m + 1) Ptr.uninit)
      simpa using this
    have := key (c :: F.reverse) (by simp)
    simp only [if_true, hrev]
    simpa using this

/-- A session stores the same list under either order setting: the command, then the
first `history_max_size` entries of the old history without the command, cut to the maximum. -/
theorem record_session_eq (settings : Settings) (c : String)
    (hmax : settings.history_max_size ≠ 0) :
    record_session settings c =
      some { settings with
        history := (c :: ((settings.history.take settings.history_max_size).filter
          (fun x => x ≠ c))).take settings.history_max_size } := by
  unfold record_session
  rw [save_eq settings _ c hmax, get_eq]
  cases hr : settings.history_reverse <;> simp [List.filter_reverse]

theorem take_append_take (A B : List String) (n : Nat) :
    (A ++ B.take n).take n = (A ++ B).take n := by
  rw [List.take_append_eq_append_take, List.take_append_eq_append_take, List.take_take]
  congr 2
  omega

theorem filter_ne_of_not_mem (c : String) (S : List String) (h : c ∉ S) :
    S.filter (fun x => x ≠ c) = S := by
  rw [List.filter_eq_self]
  intro a ha
  have : a ≠ c := fun e => h (e ▸ ha)
  simpa using this

/-- Recording pairwise distinct new commands stacks them in front of the history, most
recent first, and cuts the list to the maximum. -/
theorem record_sessions_fresh (n : Nat) (r : Bool) (hn : n ≠ 0) (cs S : List String)
    (hnd : cs.Nodup) (hfresh : ∀ c ∈ cs, c ∉ S) (hS : S.length ≤ n) :
    record_sessions ⟨S, n, r⟩ cs = some ⟨(cs.reverse ++ S).take n, n, r⟩ := by
  induction cs generalizing S with
  | nil => simp [record_sessions, List.take_of_length_le hS]
  | cons c rest ih =>
    have hc : c ∉ S := hfresh c (by simp)
    rw [List.nodup_cons] at hnd
    unfold record_sessions
    rw [record_session_eq ⟨S, n, r⟩ c hn]
    simp only [List.take_of_length_le hS, filter_ne_of_not_mem c S hc]
    rw [ih ((c :: S).take n) hnd.2 ?_ (by simp)]
    · simp only [List.reverse_cons, List.append_assoc, List.singleton_append]
      rw [take_append_take]
    · intro x hx hmem
      have hx2 := List.mem_of_mem_take hmem
      rcases List.mem_cons.mp hx2 with e | e
      · exact hnd.1 (e ▸ hx)
      · exact hfresh x (by simp [hx]) e

/-! ### Lemmas on command matching -/

theorem split_on_space_head (cs : List Char) :
    ∃ rest, split_on_space cs = cs.takeWhile (fun c => c ≠ ' ') :: rest := by
  induction cs with
  | nil => exact ⟨[], rfl⟩
  | cons c cs ih =>
    obtain ⟨rest, hrest⟩ := ih
    unfold split_on_space
    by_cases h : c = ' '
    · exact ⟨split_on_space cs, by simp [h]⟩
    · exact ⟨rest, by simp [h, hrest]⟩

theorem g_strsplit_empty : g_strsplit "" = [] := by
  simp [g_strsplit]

theorem g_strsplit_head (s : String) (h : s ≠ "") :
    ∃ rest, g_strsplit s = text_before_first_space s :: rest := by
  obtain ⟨rest, hrest⟩ := split_on_space_head s.data
  exact ⟨rest.map String.mk, by simp [g_strsplit, h, hrest, text_before_first_space]⟩

/-- The result of `fuzzy_command_match` on two different strings. -/
theorem fuzzy_command_match_ne (T E : String) (f0 : Bool) (hne : T ≠ E) :
    fuzzy_command_match (some T) (some E) f0 =
      if T = "" ∨ E = "" then (false, false)
      else if g_path_get_basename (text_before_first_space T) =
          g_path_get_basename (text_before_first_space E) then (true, true)
      else (false, false) := by
  unfold fuzzy_command_match
  simp only [hne, if_false]
  by_cases hT : T = ""
  · simp [hT, g_strsplit_empty]
  · obtain ⟨r1, h1⟩ := g_strsplit_head T hT
    by_cases hE : E = ""
    · simp [hE, g_strsplit_empty, h1]
    · obtain ⟨r2, h2⟩ := g_strsplit_head E hE
      simp [hT, hE, h1, h2]

theorem fuzzy_command_match_self (T : String) (f0 : Bool) :
    fuzzy_command_match (some T) (some T) f0 = (true, false) := by
  simp [fuzzy_command_match]

/-- The three possible results on non-`NULL` strings: an exact match exactly for equal
strings, and otherwise a fuzzy match or none. -/
theorem fuzzy_command_match_cases (T E : String) (f0 : Bool) :
    (T = E ∧ fuzzy_command_match (some T) (some E) f0 = (true, false)) ∨
    (T ≠ E ∧ fuzzy_command_match (some T) (some E) f0 = (true, true)) ∨
    (T ≠ E ∧ fuzzy_command_match (some T) (some E) f0 = (false, false)) := by
  by_cases h : T = E
  · left
    exact ⟨h, by rw [h]; exact fuzzy_command_match_self E f0⟩
  · right
    rw [fuzzy_command_match_ne T E f0 h]
    split
    · right; exact ⟨h, rfl⟩
    · split
      · left; exact ⟨h, rfl⟩
      · right; exact ⟨h, rfl⟩

/-! ### Lemmas on the search loop -/

/-- The variables `fuzzy`, `found_icon` and `found_name` after one row. -/
theorem find_command_step_found (strstrcase : Option String → String → Bool) (text : String)
    (st : FindState) (row : ProgramRow) (m : Bool × Bool)
    (hm : m = if !st.fuzzy && row.exec.isSome && row.gicon.isSome then
        fuzzy_command_match (some text) row.exec st.fuzzy else (false, st.fuzzy)) :
    (find_command_step strstrcase text st row).1.fuzzy = m.2 ∧
    (find_command_step strstrcase text st row).1.found_icon =
      (if m.1 then row.gicon else st.found_icon) ∧
    (find_command_step strstrcase text st row).1.found_name =
      (if m.1 then row.name else st.found_name) := by
  unfold find_command_step
  simp only [← hm]
  split_ifs <;> simp_all

/-- Once `fuzzy` is set no later row changes the match. -/
theorem find_command_loop_fuzzy (strstrcase : Option String → String → Bool) (text : String)
    (rows : List ProgramRow) (st : FindState) (hf : st.fuzzy = true) :
    (find_command_loop strstrcase text st rows).1.fuzzy = true ∧
    (find_command_loop strstrcase text st rows).1.found_icon = st.found_icon ∧
    (find_command_loop strstrcase text st rows).1.found_name = st.found_name := by
  induction rows generalizing st with
  | nil => simp [find_command_loop, hf]
  | cons row rest ih =>
    obtain ⟨h1, h2, h3⟩ := find_command_step_found strstrcase text st row _ rfl
    simp only [hf, Bool.not_true, Bool.false_and, Bool.false_eq_true, if_false] at h1 h2 h3
    unfold find_command_loop
    obtain ⟨i1, i2, i3⟩ := ih (find_command_step strstrcase text st row).1 h1
    exact ⟨i1, i2.trans h2, i3.trans h3⟩

theorem selected_row_skip (text : String) (row : ProgramRow) (rest : List ProgramRow)
    (h : row.selectable = false ∨
      (row.basename_match text = false ∧ row.exact_match text = false)) :
    selected_row text (row :: rest) = selected_row text rest := by
  unfold selected_row
  rcases h with h | ⟨h1, h2⟩
  · simp [List.filter_cons, h]
  · cases hs : row.selectable
    · simp [List.filter_cons, hs]
    · simp [List.filter_cons, hs, List.find?_cons, h1, h2]

theorem selected_row_basename (text : String) (row : ProgramRow) (rest : List ProgramRow)
    (hs : row.selectable = true) (hb : row.basename_match text = true) :
    selected_row text (row :: rest) = some row := by
  unfold selected_row
  simp [List.filter_cons, hs, List.find?_cons, hb]

theorem selected_row_exact (text : String) (row : ProgramRow) (rest : List ProgramRow)
    (hs : row.selectable = true) (hb : row.basename_match text = false)
    (he : row.exact_match text = true) :
    selected_row text (row :: rest) =
      match selected_row text rest with
      | some r => some r
      | none => some row := by
  unfold selected_row
  simp only [List.filter_cons, hs, if_true, List.find?_cons, hb, he]
  cases hfind : List.find? (ProgramRow.basename_match text)
      (List.filter ProgramRow.selectable rest) with
  | some r => rfl
  | none =>
    simp only []
    generalize List.filter (ProgramRow.exact_match text)
      (List.filter ProgramRow.selectable rest) = l
    cases l with
    | nil => rfl
    | cons a l =>
      rw [List.getLast?_cons_cons, List.getLast?_eq_getLast _ (List.cons_ne_nil a l)]

/-- The match the loop ends with when it starts with `fuzzy` unset. -/
theorem find_command_loop_selected (strstrcase : Option String → String → Bool)
    (text : String) (rows : List ProgramRow) (st : FindState) (hf : st.fuzzy = false) :
    ((find_command_loop strstrcase text st rows).1.found_icon,
     (find_command_loop strstrcase text st rows).1.found_name) =
      match selected_row text rows with
      | some r => (r.gicon, r.name)
      | none => (st.found_icon, st.found_name) := by
  induction rows generalizing st with
  | nil => simp [find_command_loop, selected_row]
  | cons row rest ih =>
    obtain ⟨h1, h2, h3⟩ := find_command_step_found strstrcase text st row _ rfl
    unfold find_command_loop
    simp only []
    by_cases hs : row.selectable = true
    · have hs2 := hs
      simp only [ProgramRow.selectable, Bool.and_eq_true] at hs2
      obtain ⟨e, he⟩ := Option.isSome_iff_exists.mp hs2.1
      simp only [hf, hs2.1, hs2.2, Bool.not_false, Bool.and_self, if_true, he] at h1 h2 h3
      rcases fuzzy_command_match_cases text e false with ⟨heq, hm⟩ | ⟨hne, hm⟩ | ⟨hne, hm⟩
      · -- exact match: the row becomes the match and the search goes on
        rw [hm] at h1 h2 h3
        simp at h1 h2 h3
        have hb : row.basename_match text = false := by
          simp [ProgramRow.basename_match, he, hm]
        have hx : row.exact_match text = true := by
          simp [ProgramRow.exact_match, he, heq]
        rw [ih _ h1, selected_row_exact text row rest hs hb hx, h2, h3]
        cases selected_row text rest <;> rfl
      · -- basename match: the row becomes the match and the search stops
        rw [hm] at h1 h2 h3
        simp at h1 h2 h3
        have hb : row.basename_match text = true := by
          simp [ProgramRow.basename_match, he, hm]
        obtain ⟨_, i2, i3⟩ := find_command_loop_fuzzy strstrcase text rest _ h1
        rw [selected_row_basename text row rest hs hb, i2, i3, h2, h3]
      · -- no match
        rw [hm] at h1 h2 h3
        simp at h1 h2 h3
        have hb : row.basename_match text = false := by
          simp [ProgramRow.basename_match, he, hm]
        have hx : row.exact_match text = false := by
          simp [ProgramRow.exact_match, he]
          exact fun h => hne h.symm
        rw [ih _ h1, selected_row_skip text row rest (Or.inr ⟨hb, hx⟩), h2, h3]
    · have hs1 : row.selectable = false := by simpa using hs
      have hc : (!st.fuzzy && row.exec.isSome && row.gicon.isSome) = false := by
        simp only [ProgramRow.selectable] at hs1
        simp [hf, hs1]
      simp only [hc, Bool.false_eq_true, if_false] at h1 h2 h3
      rw [ih _ (h1.trans hf), selected_row_skip text row rest (Or.inl hs1), h2, h3]

/-! ## The history store: claims -/

/-- C1: for every maximum `n ≥ 1`, every combo-box model `M` and every command `c`,
`_panel_run_save_recent_programs_list` stores exactly the first `n` elements of `c :: M'`,
where `M'` is `M` without the entries equal to `c`, reversed when the reverse setting is
on. -/
theorem C1_save_stores_first_n (settings : Settings) (model : List String) (c : String)
    (hn : 1 ≤ settings.history_max_size) :
    _panel_run_save_recent_programs_list settings model c =
      some ((c :: (if settings.history_reverse then (model.filter (fun x => x ≠ c)).reverse
                   else model.filter (fun x => x ≠ c))).take settings.history_max_size) :=
  save_eq settings model c (by omega)

/-- C1 at maximum 2, reverse on, model `a b c d e` and command `c`: stored is `c e`. -/
theorem C1_save_stores_first_n_witness :
    1 ≤ (Settings.mk [] 2 true).history_max_size ∧
    _panel_run_save_recent_programs_list (Settings.mk [] 2 true) ["a", "b", "c", "d", "e"] "c"
      = some ["c", "e"] :=
  ⟨by decide, C1_save_stores_first_n (Settings.mk [] 2 true) ["a", "b", "c", "d", "e"] "c"
    (by decide)⟩

/-- C2: in append mode, for a stored history `H` without duplicates and no longer than
the maximum, and a command `c` of `H`, loading `H` and recording `c` stores `c` followed by
the other entries of `H` in their previous order, and the stored list is a rearrangement of
`H` (nothing is evicted). With maximum 3, recording `a`, `b`, `c`, `a` from the empty
history stores `a c b`. -/
theorem C2_rerun_moves_to_front (H : List String) (n : Nat) (c : String)
    (hnd : H.Nodup) (hlen : H.length ≤ n) (hc : c ∈ H) :
    record_session ⟨H, n, false⟩ c = some ⟨c :: H.filter (fun x => x ≠ c), n, false⟩ ∧
    List.Perm (c :: H.filter (fun x => x ≠ c)) H ∧
    record_sessions ⟨[], 3, false⟩ ["a", "b", "c", "a"] = some ⟨["a", "c", "b"], 3, false⟩ := by
  have hperm : List.Perm (c :: H.filter (fun x => x ≠ c)) H := by
    have e : H.filter (fun x => x ≠ c) = H.erase c := by
      rw [hnd.erase_eq_filter]
      apply List.filter_congr
      intro x _
      by_cases hx : x = c <;> simp [hx]
    rw [e]
    exact (List.perm_cons_erase hc).symm
  have hpos : 0 < H.length := List.length_pos_of_mem hc
  refine ⟨?_, hperm, by decide⟩
  rw [record_session_eq ⟨H, n, false⟩ c (by simp; omega)]
  simp only [List.take_of_length_le hlen]
  rw [List.take_of_length_le (by rw [hperm.length_eq]; exact hlen)]

/-- C2 at the last step of the example: history `c b a`, maximum 3, command `a`. -/
theorem C2_rerun_moves_to_front_witness :
    (["c", "b", "a"] : List String).Nodup ∧ (["c", "b", "a"] : List String).length ≤ 3 ∧
    "a" ∈ (["c", "b", "a"] : List String) ∧
    record_session ⟨["c", "b", "a"], 3, false⟩ "a" = some ⟨["a", "c", "b"], 3, false⟩ :=
  ⟨by decide, by decide, by decide,
    (C2_rerun_moves_to_front ["c", "b", "a"] 3 "a" (by decide) (by decide) (by decide)).1⟩

/-- C3: with maximum 0, `_panel_run_save_recent_programs_list` stores the empty history
for every command, every model and every previous history. -/
theorem C3_max_zero_clears (history model : List String) (reverse : Bool) (c : String) :
    _panel_run_save_recent_programs_list ⟨history, 0, reverse⟩ model c = some [] := by
  simp [_panel_run_save_recent_programs_list]

/-- C4: for every maximum, reverse setting, command and model of any length, the history
`_panel_run_save_recent_programs_list` stores has at most as many entries as the maximum. -/
theorem C4_stored_length_le_max (settings : Settings) (model : List String) (c : String) :
    ∃ stored, _panel_run_save_recent_programs_list settings model c = some stored ∧
      stored.length ≤ settings.history_max_size := by
  by_cases h : settings.history_max_size = 0
  · refine ⟨[], ?_, by simp⟩
    simp [_panel_run_save_recent_programs_list, h]
  · exact ⟨_, save_eq settings model c h, by simp⟩

/-- C5: starting from the empty history with maximum `n ≥ 1`, recording `n + 1` pairwise
distinct commands `c1, cs` in successive sessions leaves exactly the commands `cs` stored
(most recent first) and not the oldest one `c1`, with the reverse setting on or off. -/
theorem C5_overflow_evicts_oldest (n : Nat) (r : Bool) (c1 : String) (cs : List String)
    (hn : 1 ≤ n) (hlen : cs.length = n) (hnd : (c1 :: cs).Nodup) :
    ∃ stored, record_sessions ⟨[], n, r⟩ (c1 :: cs) = some ⟨stored, n, r⟩ ∧
      stored = cs.reverse ∧ c1 ∉ stored ∧ ∀ x, x ∈ stored ↔ x ∈ cs := by
  refine ⟨cs.reverse, ?_, rfl, ?_, fun x => List.mem_reverse⟩
  · rw [record_sessions_fresh n r (by omega) (c1 :: cs) [] hnd (by simp) (by simp)]
    have e : ((c1 :: cs).reverse ++ []).take n = cs.reverse := by
      rw [List.append_nil, List.reverse_cons, List.take_append_eq_append_take,
        List.take_of_length_le (by simp [hlen])]
      simp [hlen]
    rw [e]
  · rw [List.mem_reverse]
    exact (List.nodup_cons.mp hnd).1

/-- C5 at maximum 2 with commands `a`, `b`, `c` and the reverse setting on. -/
theorem C5_overflow_evicts_oldest_witness :
    1 ≤ 2 ∧ (["b", "c"] : List String).length = 2 ∧ ("a" :: ["b", "c"]).Nodup ∧
    ∃ stored, record_sessions ⟨[], 2, true⟩ ("a" :: ["b", "c"]) = some ⟨stored, 2, true⟩ ∧
      stored = (["b", "c"] : List String).reverse ∧ "a" ∉ stored ∧
      ∀ x, x ∈ stored ↔ x ∈ (["b", "c"] : List String) :=
  ⟨by decide, by decide, by decide,
    C5_overflow_evicts_oldest 2 true "a" ["b", "c"] (by decide) (by decide) (by decide)⟩

/-- C6: for every stored history `S`, maximum `n` and reverse setting,
`_panel_run_get_recent_programs_list` returns the first `min n |S|` entries of `S` in
stored order when the setting is off and the same entries reversed when it is on. -/
theorem C6_get_returns_first_entries (S : List String) (n : Nat) :
    _panel_run_get_recent_programs_list ⟨S, n, false⟩ = S.take (min n S.length) ∧
    _panel_run_get_recent_programs_list ⟨S, n, true⟩ = (S.take (min n S.length)).reverse ∧
    (S.take (min n S.length)).length = min n S.length := by
  have e : S.take (min n S.length) = S.take n := by
    rcases Nat.le_total n S.length with h | h
    · rw [Nat.min_eq_left h]
    · rw [Nat.min_eq_right h, List.take_length, List.take_of_length_le h]
  refine ⟨?_, ?_, by simp⟩
  · rw [get_eq, e]; rfl
  · rw [get_eq, e]; rfl

/-! ## Command matching: claims -/

/-- C7: for every command string `T`, `fuzzy_command_match (T, T)` reports a match with
the fuzzy flag false, whatever the flag held before; so it does for `firefox`. -/
theorem C7_equal_strings_match_exactly (T : String) (f0 : Bool) :
    fuzzy_command_match (some T) (some T) f0 = (true, false) ∧
    fuzzy_command_match (some "firefox") (some "firefox") f0 = (true, false) :=
  ⟨fuzzy_command_match_self T f0, fuzzy_command_match_self "firefox" f0⟩

/-- C8 as stated fails: `firefox<TAB>--new-window` and `/usr/bin/firefox` are different
strings whose first whitespace-delimited tokens, `firefox` and `/usr/bin/firefox`, have the
same basename, and `fuzzy_command_match` reports no match, because it cuts the command at
spaces only. -/
theorem C8_counterexample :
    ("firefox\t--new-window" : String) ≠ "/usr/bin/firefox" ∧
    first_whitespace_token "firefox\t--new-window" = some "firefox" ∧
    first_whitespace_token "/usr/bin/firefox" = some "/usr/bin/firefox" ∧
    g_path_get_basename "firefox" = g_path_get_basename "/usr/bin/firefox" ∧
    fuzzy_command_match (some "firefox\t--new-window") (some "/usr/bin/firefox") false
      = (false, false) := by
  decide

/-- C8 amended: for every pair of different non-empty strings `T` and `E` such that the
texts before their first space character have equal path basenames,
`fuzzy_command_match (T, E)` reports a match with the fuzzy flag true. -/
theorem C8_basename_match_is_fuzzy (T E : String) (f0 : Bool) (hne : T ≠ E)
    (hT : T ≠ "") (hE : E ≠ "")
    (hb : g_path_get_basename (text_before_first_space T) =
      g_path_get_basename (text_before_first_space E)) :
    fuzzy_command_match (some T) (some E) f0 = (true, true) := by
  rw [fuzzy_command_match_ne T E f0 hne]
  simp [hT, hE, hb]

/-- C8 amended at `firefox --new-window` and `/usr/bin/firefox`. -/
theorem C8_basename_match_is_fuzzy_witness :
    ("firefox --new-window" : String) ≠ "/usr/bin/firefox" ∧
    ("firefox --new-window" : String) ≠ "" ∧ ("/usr/bin/firefox" : String) ≠ "" ∧
    g_path_get_basename (text_before_first_space "firefox --new-window") =
      g_path_get_basename (text_before_first_space "/usr/bin/firefox") ∧
    fuzzy_command_match (some "firefox --new-window") (some "/usr/bin/firefox") false
      = (true, true) :=
  ⟨by decide, by decide, by decide, by decide,
    C8_basename_match_is_fuzzy "firefox --new-window" "/usr/bin/firefox" false
      (by decide) (by decide) (by decide) (by decide)⟩

/-- C10 as stated fails: with the text `firefox` and the rows `Firefox` (exec `firefox`)
and `Firefox Web Browser` (exec `/usr/bin/firefox`) in this order, the first row whose
exec string matches exactly or by basename is `Firefox`, yet
`panel_run_dialog_find_command_idle` ends with the icon and name of the second row: the
later basename match replaced the earlier exact match. -/
theorem C10_counterexample :
    first_exec_match "firefox"
      [⟨some "firefox", some "Firefox", 0, 0, none, some "firefox", false⟩,
       ⟨some "firefox-esr", some "Firefox Web Browser", 0, 0, none,
         some "/usr/bin/firefox", false⟩]
      = some ⟨some "firefox", some "Firefox", 0, 0, none, some "firefox", false⟩ ∧
    (panel_run_dialog_find_command_idle (fun h _ => h.isSome) "firefox"
      ⟨[⟨some "firefox", some "Firefox", 0, 0, none, some "firefox", false⟩,
        ⟨some "firefox-esr", some "Firefox Web Browser", 0, 0, none,
          some "/usr/bin/firefox", false⟩], none, none, []⟩).item_name
      = some "Firefox Web Browser" ∧
    (panel_run_dialog_find_command_idle (fun h _ => h.isSome) "firefox"
      ⟨[⟨some "firefox", some "Firefox", 0, 0, none, some "firefox", false⟩,
        ⟨some "firefox-esr", some "Firefox Web Browser", 0, 0, none,
          some "/usr/bin/firefox", false⟩], none, none, []⟩).set_icon_arg
      = some "firefox-esr" := by
  decide

/-- C10 amended: for every non-empty program list and every text, among the rows that have
an exec string and an icon, `panel_run_dialog_find_command_idle` selects the first row whose
exec string differs from the text and matches it by basename, and no later row replaces
it; when there is no such row it selects the last row whose exec string equals the text;
when there is none either, nothing is selected. The icon and name of the selected row
become the icon handed to `panel_run_dialog_set_icon` and `item_name`. With an empty
program list the icon is reset and `item_name` is left as it was. -/
theorem C10_selected_match (strstrcase : Option String → String → Bool) (text : String)
    (row : ProgramRow) (rows : List ProgramRow) (name0 : Option String)
    (icon0 : Option GIcon) (map0 : KeyMap) :
    ((panel_run_dialog_find_command_idle strstrcase text
        ⟨row :: rows, name0, icon0, map0⟩).set_icon_arg,
     (panel_run_dialog_find_command_idle strstrcase text
        ⟨row :: rows, name0, icon0, map0⟩).item_name) =
      (match selected_row text (row :: rows) with
      | some r => (r.gicon, r.name)
      | none => (none, none)) ∧
    panel_run_dialog_find_command_idle strstrcase text ⟨[], name0, icon0, map0⟩ =
      ⟨[], name0, none, map0⟩ := by
  have h := find_command_loop_selected strstrcase text (row :: rows)
    ⟨false, none, none, 0, []⟩ rfl
  exact ⟨by simpa [panel_run_dialog_find_command_idle] using h, rfl⟩

/-! ### Lemmas on visibility -/

/-- The outcome of the first `if` of the loop body: whether `fuzzy_command_match` ran and
matched, and the value of `fuzzy` afterwards. -/
theorem find_command_step_match (text : String) (st : FindState) (row : ProgramRow) :
    (if !st.fuzzy && row.exec.isSome && row.gicon.isSome then
        fuzzy_command_match (some text) row.exec st.fuzzy else (false, st.fuzzy)) =
      (!st.fuzzy && row.selectable && row.exec_match text,
       st.fuzzy || (row.selectable && row.basename_match text)) := by
  cases hf : st.fuzzy
  · cases he : row.exec with
    | none => simp [ProgramRow.selectable, ProgramRow.exec_match, he]
    | some e =>
      cases hi : row.gicon with
      | none => simp [ProgramRow.selectable, hi]
      | some i =>
        rcases fuzzy_command_match_cases text e false with ⟨_, hm⟩ | ⟨_, hm⟩ | ⟨_, hm⟩ <;>
          simp [ProgramRow.selectable, ProgramRow.exec_match, ProgramRow.basename_match,
            he, hi, hm]
  · simp

theorem find_command_step_visible (strstrcase : Option String → String → Bool) (text : String)
    (st : FindState) (row : ProgramRow) :
    (find_command_step strstrcase text st row).2.visible =
      ((!st.fuzzy && row.selectable && row.exec_match text) ||
        row.substring_match strstrcase text) := by
  unfold find_command_step
  simp only [find_command_step_match]
  simp only [ProgramRow.substring_match]
  split_ifs <;> simp_all

theorem find_command_step_fuzzy (strstrcase : Option String → String → Bool) (text : String)
    (st : FindState) (row : ProgramRow) :
    (find_command_step strstrcase text st row).1.fuzzy =
      (st.fuzzy || (row.selectable && row.basename_match text)) := by
  have h := (find_command_step_found strstrcase text st row _ rfl).1
  rw [h, find_command_step_match]

theorem find_command_loop_length (strstrcase : Option String → String → Bool) (text : String)
    (rows : List ProgramRow) (st : FindState) :
    (find_command_loop strstrcase text st rows).2.length = rows.length := by
  induction rows generalizing st with
  | nil => simp [find_command_loop]
  | cons row rest ih => simp [find_command_loop, ih]

/-- The visible flag of row `k` after the loop, started in any state. -/
theorem find_command_loop_visible (strstrcase : Option String → String → Bool) (text : String)
    (rows : List ProgramRow) (st : FindState) (k : Nat) :
    ((find_command_loop strstrcase text st rows).2[k]?).map ProgramRow.visible =
      (rows[k]?).map (fun r =>
        (!(st.fuzzy || fuzzy_found text (rows.take k)) && r.selectable && r.exec_match text) ||
          r.substring_match strstrcase text) := by
  induction rows generalizing st k with
  | nil => simp [find_command_loop]
  | cons row rest ih =>
    unfold find_command_loop
    rcases k with _ | k
    · simp [find_command_step_visible, fuzzy_found]
    · simp only [List.getElem?_cons_succ, List.take_succ_cons]
      rw [ih, find_command_step_fuzzy]
      simp [fuzzy_found, Bool.or_assoc]

/-! ### Lemmas on the accelerators -/

theorem accel_modifier_lt : ∀ i < 10,
    (accelerator_key_mapping.getD i ⟨0, 0, 0⟩).modifier = GDK_MOD1_MASK := by
  decide

theorem accel_bindings_insert : ∀ n < 10,
    (accel_bindings n).insert (accel_key n) n = accel_bindings (n + 1) := by
  decide

theorem accel_bindings_lookup : ∀ n < 11, ∀ v < n,
    (accel_bindings n).lookup (accel_key v) = some v := by
  decide

theorem accel_bindings_nodup : ∀ n < 11, ((accel_bindings n).map Prod.fst).Nodup := by
  decide

theorem accel_bindings_length (n : Nat) : (accel_bindings n).length = n := by
  simp [accel_bindings]

theorem mem_accel_bindings (n : Nat) (b : Nat × Nat) (h : b ∈ accel_bindings n) :
    b.2 < n ∧ b.1 = accel_key b.2 := by
  simp only [accel_bindings, List.mem_reverse, List.mem_map, List.mem_range] at h
  obtain ⟨i, hi, rfl⟩ := h
  exact ⟨hi, rfl⟩

theorem lookup_accel_bindings (n key i : Nat)
    (h : (accel_bindings n).lookup key = some i) : i < n ∧ key = accel_key i := by
  unfold KeyMap.lookup at h
  cases hf : List.find? (fun b => decide (b.1 = key)) (accel_bindings n) with
  | none => simp [hf] at h
  | some b =>
    simp only [hf, Option.map_some', Option.some.injEq] at h
    have hm := mem_accel_bindings n b (List.mem_of_find?_eq_some hf)
    have hk := List.find?_some hf
    simp only [decide_eq_true_eq] at hk
    subst h
    exact ⟨hm.1, by rw [← hk, hm.2]⟩

/-- What one pass of the loop body does to the counter, the hash table and the accelerator
columns of the row. -/
theorem find_command_step_accel (strstrcase : Option String → String → Bool) (text : String)
    (st : FindState) (row : ProgramRow) :
    ((find_command_step strstrcase text st row).2.visible = true ∧
        st.visible_program_idx < 10 →
      (find_command_step strstrcase text st row).1.visible_program_idx =
          st.visible_program_idx + 1 ∧
      (find_command_step strstrcase text st row).1.map =
          st.map.insert (accel_key st.visible_program_idx) st.visible_program_idx ∧
      (find_command_step strstrcase text st row).2.accelerator_mask = GDK_MOD1_MASK ∧
      (find_command_step strstrcase text st row).2.accelerator_key_value =
          accel_key st.visible_program_idx) ∧
    (¬ ((find_command_step strstrcase text st row).2.visible = true ∧
        st.visible_program_idx < 10) →
      (find_command_step strstrcase text st row).1.visible_program_idx =
          st.visible_program_idx ∧
      (find_command_step strstrcase text st row).1.map = st.map ∧
      (find_command_step strstrcase text st row).2.accelerator_mask = 0 ∧
      (find_command_step strstrcase text st row).2.accelerator_key_value = 0) := by
  have hlen : accelerator_key_mapping.length = 10 := rfl
  have hmod := accel_modifier_lt st.visible_program_idx
  unfold find_command_step
  simp only [hlen]
  split_ifs <;> simp_all [accel_key]

/-- The counter and the hash table after the loop, when the table holds the first
`visible_program_idx` slots at the start. -/
theorem find_command_loop_map (strstrcase : Option String → String → Bool) (text : String)
    (rows : List ProgramRow) (st : FindState) (hidx : st.visible_program_idx ≤ 10)
    (hmap : st.map = accel_bindings st.visible_program_idx) :
    (find_command_loop strstrcase text st rows).1.visible_program_idx =
      min 10 (st.visible_program_idx +
        (visible_rows (find_command_loop strstrcase text st rows).2).length) ∧
    (find_command_loop strstrcase text st rows).1.map =
      accel_bindings (find_command_loop strstrcase text st rows).1.visible_program_idx := by
  induction rows generalizing st with
  | nil => simp [find_command_loop, visible_rows, hmap, hidx]
  | cons row rest ih =>
    obtain ⟨h1, h2⟩ := find_command_step_accel strstrcase text st row
    unfold find_command_loop
    simp only [visible_rows, List.filter_cons]
    by_cases hc : (find_command_step strstrcase text st row).2.visible = true ∧
        st.visible_program_idx < 10
    · obtain ⟨a1, a2, _, _⟩ := h1 hc
      have hm : (find_command_step strstrcase text st row).1.map =
          accel_bindings (find_command_step strstrcase text st row).1.visible_program_idx := by
        rw [a2, a1, hmap, accel_bindings_insert _ hc.2]
      obtain ⟨i1, i2⟩ := ih _ (by omega) hm
      refine ⟨?_, i2⟩
      rw [i1, a1]
      simp only [visible_rows, hc.1, if_true, List.length_cons]
      congr 1
      omega
    · obtain ⟨a1, a2, _, _⟩ := h2 hc
      have hm : (find_command_step strstrcase text st row).1.map =
          accel_bindings (find_command_step strstrcase text st row).1.visible_program_idx := by
        rw [a2, a1, hmap]
      obtain ⟨i1, i2⟩ := ih _ (by omega) hm
      refine ⟨?_, i2⟩
      rw [i1, a1]
      by_cases hv : (find_command_step strstrcase text st row).2.visible = true
      · have hlt : ¬ st.visible_program_idx < 10 := fun h => hc ⟨hv, h⟩
        simp only [visible_rows, hv, if_true, List.length_cons]
        omega
      · simp only [visible_rows, hv]
        rfl

/-- The accelerator columns of row `k` after the loop: the slot of its index among the
visible rows when that is below 10, and 0 otherwise. -/
theorem find_command_loop_accel (strstrcase : Option String → String → Bool) (text : String)
    (rows : List ProgramRow) (st : FindState) (hidx : st.visible_program_idx ≤ 10)
    (k : Nat) (r : ProgramRow)
    (hr : (find_command_loop strstrcase text st rows).2[k]? = some r) :
    (r.visible = true ∧ st.visible_program_idx +
        (visible_rows ((find_command_loop strstrcase text st rows).2.take k)).length < 10 →
      r.accelerator_mask = GDK_MOD1_MASK ∧
      r.accelerator_key_value = accel_key (st.visible_program_idx +
        (visible_rows ((find_command_loop strstrcase text st rows).2.take k)).length)) ∧
    (¬ (r.visible = true ∧ st.visible_program_idx +
        (visible_rows ((find_command_loop strstrcase text st rows).2.take k)).length < 10) →
      r.accelerator_mask = 0 ∧ r.accelerator_key_value = 0) := by
  induction rows generalizing st k with
  | nil => simp [find_command_loop] at hr
  | cons row rest ih =>
    obtain ⟨h1, h2⟩ := find_command_step_accel strstrcase text st row
    unfold find_command_loop at hr ⊢
    rcases k with _ | k
    · simp only [List.getElem?_cons_zero, Option.some.injEq] at hr
      subst hr
      simp only [List.take_zero, visible_rows, List.filter_nil, List.length_nil, Nat.add_zero]
      constructor
      · intro hc
        obtain ⟨_, _, a3, a4⟩ := h1 hc
        exact ⟨a3, a4⟩
      · intro hc
        obtain ⟨_, _, a3, a4⟩ := h2 hc
        exact ⟨a3, a4⟩
    · simp only [List.getElem?_cons_succ] at hr
      simp only [List.take_succ_cons, visible_rows, List.filter_cons]
      by_cases hc : (find_command_step strstrcase text st row).2.visible = true ∧
          st.visible_program_idx < 10
      · obtain ⟨a1, _, _, _⟩ := h1 hc
        have := ih (find_command_step strstrcase text st row).1 (by omega) k hr
        simp only [visible_rows, a1, Nat.add_assoc, Nat.add_comm 1] at this
        simp only [hc.1, if_true, List.length_cons]
        exact this
      · obtain ⟨a1, _, _, _⟩ := h2 hc
        have := ih (find_command_step strstrcase text st row).1 (by omega) k hr
        simp only [visible_rows, a1] at this
        by_cases hv : (find_command_step strstrcase text st row).2.visible = true
        · have hlt : ¬ st.visible_program_idx < 10 := fun h => hc ⟨hv, h⟩
          simp only [hv, if_true, List.length_cons]
          constructor
          · intro hh; omega
          · intro _
            exact this.2 (by omega)
        · simp only [hv]
          exact this

/-- The loop that shows every row: all rows end up visible, and the hash table holds the
first `min 10 (i + n)` slots when it held the first `i` at the start. -/
theorem show_all_loop_spec (rows : List ProgramRow) (i : Nat) (hi : i ≤ 10) :
    (show_all_loop i (accel_bindings i) rows).1.2 =
      accel_bindings (min 10 (i + rows.length)) ∧
    visible_rows (show_all_loop i (accel_bindings i) rows).2 =
      (show_all_loop i (accel_bindings i) rows).2 ∧
    (show_all_loop i (accel_bindings i) rows).2.length = rows.length := by
  have hlen : accelerator_key_mapping.length = 10 := rfl
  induction rows generalizing i with
  | nil => simp [show_all_loop, visible_rows, hi]
  | cons row rest ih =>
    unfold show_all_loop
    simp only [hlen]
    by_cases hc : i < 10
    · have hins := accel_bindings_insert i hc
      simp only [accel_key] at hins
      simp only [hc, if_true, hins]
      obtain ⟨i1, i2, i3⟩ := ih (i + 1) (by omega)
      refine ⟨?_, ?_, ?_⟩
      · rw [i1]
        congr 2
        simp only [List.length_cons]
        omega
      · simp only [visible_rows, List.filter_cons, if_true]
        simp only [visible_rows] at i2
        rw [i2]
      · simp [i3]
    · simp only [hc, if_false]
      obtain ⟨i1, i2, i3⟩ := ih i hi
      refine ⟨?_, ?_, ?_⟩
      · rw [i1]
        congr 1
        simp only [List.length_cons]
        omega
      · simp only [visible_rows, List.filter_cons, if_true]
        simp only [visible_rows] at i2
        rw [i2]
      · simp [i3]

/-- The loop that appends the applications, with the same outcome. -/
theorem add_items_loop_spec (entries : List MenuEntry) (i : Nat) (hi : i ≤ 10) :
    (add_items_loop i (accel_bindings i) entries).1.2 =
      accel_bindings (min 10 (i + entries.length)) ∧
    visible_rows (add_items_loop i (accel_bindings i) entries).2 =
      (add_items_loop i (accel_bindings i) entries).2 ∧
    (add_items_loop i (accel_bindings i) entries).2.length = entries.length := by
  have hlen : accelerator_key_mapping.length = 10 := rfl
  induction entries generalizing i with
  | nil => simp [add_items_loop, visible_rows, hi]
  | cons entry rest ih =>
    unfold add_items_loop
    simp only [hlen]
    by_cases hc : i < 10
    · have hins := accel_bindings_insert i hc
      simp only [accel_key] at hins
      simp only [hc, if_true, hins]
      obtain ⟨i1, i2, i3⟩ := ih (i + 1) (by omega)
      refine ⟨?_, ?_, ?_⟩
      · rw [i1]
        congr 2
        simp only [List.length_cons]
        omega
      · simp only [visible_rows, List.filter_cons, if_true]
        simp only [visible_rows] at i2
        rw [i2]
      · simp [i3]
    · simp only [hc, if_false]
      obtain ⟨i1, i2, i3⟩ := ih i hi
      refine ⟨?_, ?_, ?_⟩
      · rw [i1]
        congr 1
        simp only [List.length_cons]
        omega
      · simp only [visible_rows, List.filter_cons, if_true]
        simp only [visible_rows] at i2
        rw [i2]
      · simp [i3]

/-- A hash table that holds the first `min 10 n` slots, over `n` displayed rows, has all
its values in range. -/
theorem accel_bindings_in_range (rows : List ProgramRow) (name0 : Option String)
    (icon0 : Option GIcon) :
    accel_map_in_range
      ⟨rows, name0, icon0, accel_bindings (min 10 (visible_rows rows).length)⟩ := by
  intro b hb
  have := (mem_accel_bindings _ b hb).1
  simp only at this ⊢
  omega

/-- The hash table after `panel_run_dialog_find_command_idle`, for a dialog whose table is
empty whenever its list store is. -/
theorem find_command_idle_map (strstrcase : Option String → String → Bool) (text : String)
    (dialog : Dialog)
    (h : dialog.program_list_store = [] → dialog.accelerator_keys_to_tree_iter_map = []) :
    (panel_run_dialog_find_command_idle strstrcase text
        dialog).accelerator_keys_to_tree_iter_map =
      accel_bindings (min 10 (visible_rows (panel_run_dialog_find_command_idle strstrcase text
        dialog).program_list_store).length) := by
  obtain ⟨rows, name0, icon0, map0⟩ := dialog
  cases rows with
  | nil =>
    simp only [forall_const] at h
    simp [panel_run_dialog_find_command_idle, h, visible_rows, accel_bindings]
  | cons row rest =>
    obtain ⟨h1, h2⟩ := find_command_loop_map strstrcase text (row :: rest)
      ⟨false, none, none, 0, []⟩ (by simp) rfl
    simp only [panel_run_dialog_find_command_idle]
    rw [h2, h1]
    simp

theorem find_command_idle_in_range_of_empty (strstrcase : Option String → String → Bool)
    (text : String) (dialog : Dialog)
    (h : dialog.program_list_store = [] → dialog.accelerator_keys_to_tree_iter_map = []) :
    accel_map_in_range (panel_run_dialog_find_command_idle strstrcase text dialog) := by
  have hmap := find_command_idle_map strstrcase text dialog h
  intro b hb
  rw [hmap] at hb
  have := (mem_accel_bindings _ b hb).1
  omega

theorem find_command_idle_in_range (strstrcase : Option String → String → Bool)
    (text : String) (dialog : Dialog) (h : accel_map_in_range dialog) :
    accel_map_in_range (panel_run_dialog_find_command_idle strstrcase text dialog) := by
  apply find_command_idle_in_range_of_empty
  intro he
  cases hm : dialog.accelerator_keys_to_tree_iter_map with
  | nil => rfl
  | cons b m =>
    have := h b (by rw [hm]; exact List.mem_cons_self _ _)
    simp [he, visible_rows] at this

theorem add_items_idle_in_range (collate : String → String → Int)
    (root : Option MenuDirectory) (dialog : Dialog) :
    accel_map_in_range (panel_run_dialog_add_items_idle collate root dialog) := by
  obtain ⟨h1, h2, h3⟩ := add_items_loop_spec (stripped_applications collate root) 0 (by omega)
  have e : accel_bindings 0 = [] := rfl
  rw [e] at h1 h2 h3
  intro b hb
  simp only [panel_run_dialog_add_items_idle] at hb ⊢
  rw [h1] at hb
  rw [h2, h3]
  have := (mem_accel_bindings _ b hb).1
  omega

theorem combobox_changed_in_range (enable_program_list use_program_list : Bool)
    (text : String) (dialog : Dialog) (h : accel_map_in_range dialog) :
    accel_map_in_range
      (combobox_changed enable_program_list use_program_list text dialog) := by
  unfold combobox_changed
  simp only []
  generalize hd1 : (if use_program_list = true then dialog
    else { dialog with item_name := none }) = d1
  have hd : accel_map_in_range d1 := by
    rw [← hd1]
    cases use_program_list
    · exact h
    · exact h
  split_ifs with c1 c2
  · obtain ⟨h1, h2, h3⟩ := show_all_loop_spec d1.program_list_store 0 (by omega)
    have e : accel_bindings 0 = [] := rfl
    rw [e] at h1 h2 h3
    intro b hb
    simp only at hb ⊢
    rw [h1] at hb
    rw [h2, h3]
    have := (mem_accel_bindings _ b hb).1
    omega
  · exact hd
  · exact hd

theorem combobox_changed_blank_in_range (use_program_list : Bool) (text : String)
    (dialog : Dialog) (hblank : text.data.dropWhile g_ascii_isspace = []) :
    accel_map_in_range (combobox_changed true use_program_list text dialog) := by
  unfold combobox_changed
  simp only [hblank, if_true]
  generalize (if use_program_list = true then dialog
    else { dialog with item_name := none }) = d1
  obtain ⟨h1, h2, h3⟩ := show_all_loop_spec d1.program_list_store 0 (by omega)
  have e : accel_bindings 0 = [] := rfl
  rw [e] at h1 h2 h3
  intro b hb
  simp only at hb ⊢
  rw [h1] at hb
  rw [h2, h3]
  have := (mem_accel_bindings _ b hb).1
  omega

theorem lookup_mem (m : KeyMap) (key i : Nat) (h : m.lookup key = some i) :
    (key, i) ∈ m := by
  unfold KeyMap.lookup at h
  cases hf : List.find? (fun b => decide (b.1 = key)) m with
  | none => simp [hf] at h
  | some b =>
    simp only [hf, Option.map_some', Option.some.injEq] at h
    have hm := List.mem_of_find?_eq_some hf
    have hk := List.find?_some hf
    simp only [decide_eq_true_eq] at hk
    have : b = (key, i) := Prod.ext hk h
    exact this ▸ hm

/-! ### Lemmas on the application index -/

/-- The stripping loop, started after a kept entry `a`, is the greedy removal of entries
that repeat the name of the last kept one. -/
theorem strip_duplicates_destutter (a : MenuEntry) (l : List MenuEntry) :
    a :: strip_duplicates a.display_name l =
      List.destutter' (fun x y => ¬ same_display_name x y) a l := by
  induction l generalizing a with
  | nil => simp [strip_duplicates]
  | cons b l ih =>
    unfold strip_duplicates
    by_cases h : same_display_name a b
    · rw [List.destutter'_cons_neg _ (by simpa using h), ← ih a]
      obtain ⟨h1, h2⟩ := h
      obtain ⟨p, hp⟩ := Option.isSome_iff_exists.mp h1
      simp [hp, ← h2]
    · rw [List.destutter'_cons_pos _ h, ← ih b]
      cases ha : a.display_name with
      | none => rfl
      | some p =>
        cases hb : b.display_name with
        | none => rfl
        | some n =>
          have hne : ¬ n = p := by
            intro e
            exact h ⟨by simp [ha], by rw [ha, hb, e]⟩
          simp [hne, hb]

theorem strip_duplicates_none (l : List MenuEntry) :
    strip_duplicates none l = List.destutter (fun x y => ¬ same_display_name x y) l := by
  cases l with
  | nil => rfl
  | cons a l =>
    rw [List.destutter_cons', ← strip_duplicates_destutter]
    simp [strip_duplicates]

theorem splitBy_loop_done (R : MenuEntry → MenuEntry → Bool) (l : List MenuEntry)
    (a : MenuEntry) (g : List MenuEntry) (gs : List (List MenuEntry)) :
    List.splitBy.loop R l a g gs = gs.reverse ++ List.splitBy.loop R l a g [] := by
  induction l generalizing a g gs with
  | nil => simp [List.splitBy.loop]
  | cons b l ih =>
    unfold List.splitBy.loop
    cases R a b
    · simp only []
      rw [ih b [] ((a :: g).reverse :: gs), ih b [] [(a :: g).reverse]]
      simp
    · simp only []
      rw [ih]

/-- The first entries of the runs that `List.splitBy` assembles, when the run in progress
holds `g` (reversed) and `a`. -/
theorem splitBy_loop_heads (l : List MenuEntry) (a : MenuEntry) (g : List MenuEntry) :
    (List.splitBy.loop (fun x y => decide (same_display_name x y)) l a g []).filterMap
        List.head? =
      (g.reverse ++ [a]).head?.toList ++ strip_duplicates a.display_name l := by
  induction l generalizing a g with
  | nil =>
    simp only [List.splitBy.loop, strip_duplicates, List.reverse_cons, List.reverse_nil,
      List.nil_append, List.append_nil, List.filterMap_cons, List.filterMap_nil]
    cases (g.reverse ++ [a]).head? <;> rfl
  | cons b l ih =>
    unfold List.splitBy.loop
    by_cases h : same_display_name a b
    · simp only [h, decide_True]
      rw [ih b (a :: g)]
      obtain ⟨h1, h2⟩ := h
      obtain ⟨p, hp⟩ := Option.isSome_iff_exists.mp h1
      have hs : strip_duplicates a.display_name (b :: l) = strip_duplicates b.display_name l := by
        rw [← h2]
        simp [strip_duplicates, hp, ← h2]
      rw [hs]
      cases hg : g.reverse <;> simp [hg]
    · simp only [h, decide_False]
      rw [splitBy_loop_done, List.filterMap_append, ih b []]
      have hs : strip_duplicates a.display_name (b :: l) =
          b :: strip_duplicates b.display_name l := by
        have := strip_duplicates_destutter a (b :: l)
        rw [List.destutter'_cons_pos _ h, ← strip_duplicates_destutter] at this
        exact List.tail_eq_of_cons_eq this
      rw [hs]
      simp only [List.reverse_cons, List.reverse_nil, List.nil_append, List.filterMap_cons,
        List.filterMap_nil, List.head?_cons, Option.toList_some, List.singleton_append]
      cases (g.reverse ++ [a]).head? <;> rfl

theorem strip_duplicates_runs (l : List MenuEntry) :
    strip_duplicates none l =
      (l.splitBy (fun x y => decide (same_display_name x y))).filterMap List.head? := by
  cases l with
  | nil => rfl
  | cons a l =>
    unfold List.splitBy
    rw [splitBy_loop_heads]
    simp [strip_duplicates]

mutual
theorem from_alias_eq (a : MenuAlias) (list : List MenuEntry) :
    get_all_applications_from_alias a list = list ++ a.reachable_entries := by
  cases a with
  | entry e => simp [get_all_applications_from_alias, MenuAlias.reachable_entries]
  | directory d =>
    simp [get_all_applications_from_alias, MenuAlias.reachable_entries, from_dir_eq d list]
  | other => simp [get_all_applications_from_alias, MenuAlias.reachable_entries]
theorem from_item_eq (i : MenuItem) (list : List MenuEntry) :
    get_all_applications_from_item i list = list ++ i.reachable_entries := by
  cases i with
  | entry e => simp [get_all_applications_from_item, MenuItem.reachable_entries]
  | directory d =>
    simp [get_all_applications_from_item, MenuItem.reachable_entries, from_dir_eq d list]
  | alias_item a =>
    simp [get_all_applications_from_item, MenuItem.reachable_entries, from_alias_eq a list]
  | separator => simp [get_all_applications_from_item, MenuItem.reachable_entries]
  | header => simp [get_all_applications_from_item, MenuItem.reachable_entries]
theorem from_dir_eq (d : MenuDirectory) (list : List MenuEntry) :
    get_all_applications_from_dir d list = list ++ d.reachable_entries := by
  cases d with
  | nil => simp [get_all_applications_from_dir, MenuDirectory.reachable_entries]
  | cons item rest =>
    simp [get_all_applications_from_dir, MenuDirectory.reachable_entries,
      from_item_eq item list, from_dir_eq rest]
end

theorem get_all_applications_perm (collate : String → String → Int) (root : MenuDirectory) :
    (get_all_applications collate (some root)).Perm root.reachable_entries := by
  simp only [get_all_applications, g_slist_sort]
  have h := List.perm_insertionSort (fun a b => compare_applications collate a b ≤ 0)
    (get_all_applications_from_dir root [])
  have e := from_dir_eq root []
  rw [List.nil_append] at e
  exact h.trans (e ▸ List.Perm.refl _)

theorem get_all_applications_sorted_by_name (collate : String → String → Int)
    (htotal : ∀ a b, collate a b ≤ 0 ∨ collate b a ≤ 0)
    (htrans : ∀ a b c, collate a b ≤ 0 → collate b c ≤ 0 → collate a c ≤ 0)
    (root : Option MenuDirectory) :
    List.Sorted (fun a b : MenuEntry => collate a.name b.name ≤ 0)
      (get_all_applications collate root) := by
  haveI : IsTotal MenuEntry (fun a b => compare_applications collate a b ≤ 0) :=
    ⟨fun a b => htotal a.name b.name⟩
  haveI : IsTrans MenuEntry (fun a b => compare_applications collate a b ≤ 0) :=
    ⟨fun a b c => htrans a.name b.name c.name⟩
  cases root with
  | none => simp [get_all_applications]
  | some d =>
    exact List.sorted_insertionSort (fun a b => compare_applications collate a b ≤ 0) _

theorem visible_rows_take_lt (out : List ProgramRow) (k : Nat) (r : ProgramRow)
    (hr : out[k]? = some r) (hv : r.visible = true) :
    (visible_rows (out.take k)).length < (visible_rows out).length := by
  induction out generalizing k with
  | nil => simp at hr
  | cons a out ih =>
    rcases k with _ | k
    · simp only [List.getElem?_cons_zero, Option.some.injEq] at hr
      subst hr
      simp [visible_rows, hv]
    · simp only [List.getElem?_cons_succ] at hr
      have := ih k hr
      simp only [visible_rows] at this
      simp only [visible_rows, List.take_succ_cons, List.filter_cons]
      split <;> simp <;> omega

/-- The accelerator columns of row `k` after `panel_run_dialog_find_command_idle`. -/
theorem find_command_idle_accel (strstrcase : Option String → String → Bool) (text : String)
    (dialog : Dialog) (k : Nat) (r : ProgramRow)
    (hr : (panel_run_dialog_find_command_idle strstrcase text
      dialog).program_list_store[k]? = some r) :
    (r.visible = true ∧ (visible_rows ((panel_run_dialog_find_command_idle strstrcase text
          dialog).program_list_store.take k)).length < 10 →
      r.accelerator_mask = GDK_MOD1_MASK ∧
      r.accelerator_key_value = accel_key (visible_rows
        ((panel_run_dialog_find_command_idle strstrcase text
          dialog).program_list_store.take k)).length) ∧
    (¬ (r.visible = true ∧ (visible_rows ((panel_run_dialog_find_command_idle strstrcase
          text dialog).program_list_store.take k)).length < 10) →
      r.accelerator_mask = 0 ∧ r.accelerator_key_value = 0) := by
  obtain ⟨rows, name0, icon0, map0⟩ := dialog
  cases rows with
  | nil => simp [panel_run_dialog_find_command_idle] at hr
  | cons row rest =>
    have hacc := find_command_loop_accel strstrcase text (row :: rest)
      ⟨false, none, none, 0, []⟩ (Nat.zero_le _) k r hr
    simp only [Nat.zero_add] at hacc
    exact hacc

/-! ## Visibility and accelerators: claims -/

/-- C11 as stated fails: with the text `gedit notes.txt` the row `Text Editor` (exec
`/usr/bin/gedit`) matches by basename, so by the three rules it should be visible; listed
after the row `gedit` (exec `gedit %U`), which matches by basename too,
`panel_run_dialog_find_command_idle` hides it, and listed alone it shows it: whether it is
visible depends on the rows before it. -/
theorem C11_counterexample :
    ProgramRow.three_rule_match panel_g_utf8_strstrcase "gedit notes.txt"
      ⟨some "accessories-text-editor", some "Text Editor", 0, 0, none,
        some "/usr/bin/gedit", false⟩ = true ∧
    (panel_run_dialog_find_command_idle panel_g_utf8_strstrcase "gedit notes.txt"
      ⟨[⟨some "gedit", some "gedit", 0, 0, none, some "gedit %U", false⟩,
        ⟨some "accessories-text-editor", some "Text Editor", 0, 0, none,
          some "/usr/bin/gedit", false⟩], none, none, []⟩).program_list_store.map
        ProgramRow.visible = [true, false] ∧
    (panel_run_dialog_find_command_idle panel_g_utf8_strstrcase "gedit notes.txt"
      ⟨[⟨some "accessories-text-editor", some "Text Editor", 0, 0, none,
          some "/usr/bin/gedit", false⟩], none, none, []⟩).program_list_store.map
        ProgramRow.visible = [true] := by
  decide

/-- C11 amended: after `panel_run_dialog_find_command_idle` runs for text `T`, row `k` of the
program list is visible if and only if `T` is found (by `panel_g_utf8_strstrcase`) in its
exec string, its name or its comment, or the row has an exec string and an icon, its exec
string equals `T` or matches it by basename, and no row before it that has an exec string
and an icon matched `T` by basename only. The substring rule does not depend on the rows
before; the other two rules do. -/
theorem C11_visible_rows (strstrcase : Option String → String → Bool) (text : String)
    (dialog : Dialog) (k : Nat) :
    ((panel_run_dialog_find_command_idle strstrcase text dialog).program_list_store[k]?).map
        ProgramRow.visible =
      (dialog.program_list_store[k]?).map (fun row =>
        (!fuzzy_found text (dialog.program_list_store.take k) && row.selectable &&
            row.exec_match text) ||
          row.substring_match strstrcase text) := by
  obtain ⟨rows, name0, icon0, map0⟩ := dialog
  cases rows with
  | nil => simp [panel_run_dialog_find_command_idle]
  | cons row rest =>
    have h := find_command_loop_visible strstrcase text (row :: rest)
      ⟨false, none, none, 0, []⟩ k
    simpa [panel_run_dialog_find_command_idle] using h

/-- C12: after `panel_run_dialog_find_command_idle`, in a dialog whose accelerator map is
empty whenever its program list is: the row whose index among the visible rows is `i < 10`
carries the modifier Alt and the key of slot `i` (the keys 1, ..., 9, 0 in this order) and
the map sends that key to `i`; every other row, hidden or visible at index 10 or later,
carries modifier 0 and key 0; every binding of the map is one of these, and the map has
exactly `min 10 n` bindings with distinct keys, `n` being the number of visible rows.
With twelve visible matches the first ten rows carry Alt+1 ... Alt+9, Alt+0 and rows eleven
and twelve carry nothing. -/
theorem C12_accelerators_of_visible_rows (strstrcase : Option String → String → Bool)
    (text : String) (dialog : Dialog)
    (h : dialog.program_list_store = [] → dialog.accelerator_keys_to_tree_iter_map = []) :
    (∀ k r, (panel_run_dialog_find_command_idle strstrcase text
          dialog).program_list_store[k]? = some r →
      (r.visible = true ∧ (visible_rows ((panel_run_dialog_find_command_idle strstrcase text
            dialog).program_list_store.take k)).length < 10 →
        r.accelerator_mask = GDK_MOD1_MASK ∧
        r.accelerator_key_value = accel_key (visible_rows
          ((panel_run_dialog_find_command_idle strstrcase text
            dialog).program_list_store.take k)).length ∧
        (panel_run_dialog_find_command_idle strstrcase text
            dialog).accelerator_keys_to_tree_iter_map.lookup
          (accel_key (visible_rows ((panel_run_dialog_find_command_idle strstrcase text
            dialog).program_list_store.take k)).length) =
          some (visible_rows ((panel_run_dialog_find_command_idle strstrcase text
            dialog).program_list_store.take k)).length) ∧
      (¬ (r.visible = true ∧ (visible_rows ((panel_run_dialog_find_command_idle strstrcase
            text dialog).program_list_store.take k)).length < 10) →
        r.accelerator_mask = 0 ∧ r.accelerator_key_value = 0)) ∧
    (∀ key i, (panel_run_dialog_find_command_idle strstrcase text
          dialog).accelerator_keys_to_tree_iter_map.lookup key = some i →
      i < min 10 (visible_rows (panel_run_dialog_find_command_idle strstrcase text
          dialog).program_list_store).length ∧ key = accel_key i) ∧
    (panel_run_dialog_find_command_idle strstrcase text
        dialog).accelerator_keys_to_tree_iter_map.length =
      min 10 (visible_rows (panel_run_dialog_find_command_idle strstrcase text
        dialog).program_list_store).length ∧
    ((panel_run_dialog_find_command_idle strstrcase text
        dialog).accelerator_keys_to_tree_iter_map.map Prod.fst).Nodup ∧
    (List.range 10).map accel_key =
      [GDK_KEY_1, GDK_KEY_2, GDK_KEY_3, GDK_KEY_4, GDK_KEY_5, GDK_KEY_6, GDK_KEY_7,
        GDK_KEY_8, GDK_KEY_9, GDK_KEY_0] ∧
    (panel_run_dialog_find_command_idle panel_g_utf8_strstrcase "term"
        ⟨twelve_matches, none, none, []⟩).program_list_store.map
        (fun r => (r.visible, r.accelerator_mask, r.accelerator_key_value)) =
      [(true, GDK_MOD1_MASK, GDK_KEY_1), (true, GDK_MOD1_MASK, GDK_KEY_2),
       (true, GDK_MOD1_MASK, GDK_KEY_3), (true, GDK_MOD1_MASK, GDK_KEY_4),
       (true, GDK_MOD1_MASK, GDK_KEY_5), (true, GDK_MOD1_MASK, GDK_KEY_6),
       (true, GDK_MOD1_MASK, GDK_KEY_7), (true, GDK_MOD1_MASK, GDK_KEY_8),
       (true, GDK_MOD1_MASK, GDK_KEY_9), (true, GDK_MOD1_MASK, GDK_KEY_0),
       (true, 0, 0), (true, 0, 0)] := by
  have hmap := find_command_idle_map strstrcase text dialog h
  have hle : min 10 (visible_rows (panel_run_dialog_find_command_idle strstrcase text
      dialog).program_list_store).length < 11 := by omega
  refine ⟨?_, ?_, ?_, ?_, by decide, by decide⟩
  · intro k r hr
    have hacc := find_command_idle_accel strstrcase text dialog k r hr
    refine ⟨fun hc => ⟨(hacc.1 hc).1, (hacc.1 hc).2, ?_⟩, hacc.2⟩
    have hlt := visible_rows_take_lt _ k r hr hc.1
    rw [hmap]
    exact accel_bindings_lookup _ hle _ (by omega)
  · intro key i hk
    rw [hmap] at hk
    exact lookup_accel_bindings _ key i hk
  · rw [hmap, accel_bindings_length]
  · rw [hmap]
    exact accel_bindings_nodup _ hle

/-- C12 on the twelve matches: the map gets `min 10 12` bindings. -/
theorem C12_accelerators_of_visible_rows_witness :
    ((Dialog.mk twelve_matches none none []).program_list_store = [] →
      (Dialog.mk twelve_matches none none []).accelerator_keys_to_tree_iter_map = []) ∧
    (panel_run_dialog_find_command_idle panel_g_utf8_strstrcase "term"
        (Dialog.mk twelve_matches none none [])).accelerator_keys_to_tree_iter_map.length =
      min 10 (visible_rows (panel_run_dialog_find_command_idle panel_g_utf8_strstrcase "term"
        (Dialog.mk twelve_matches none none [])).program_list_store).length :=
  ⟨fun _ => rfl,
    (C12_accelerators_of_visible_rows panel_g_utf8_strstrcase "term"
      (Dialog.mk twelve_matches none none []) (fun _ => rfl)).2.2.1⟩

/-- C13: `panel_run_dialog_accelerator_key_pressed` leaves the cursor where it is when the
key is not in the accelerator map and otherwise puts it on the displayed row whose index is
the mapped value. In a dialog whose mapped values are all smaller than the number of
displayed rows that row exists. Every dialog is in such a state after
`panel_run_dialog_add_items_idle`, after `panel_run_dialog_find_command_idle` on a list
store that is not empty, and after the blank-text branch of `combobox_changed` with the
program list enabled; on the paths that leave the map alone (an empty list store, a
disabled program list, text that is not blank) the two functions keep a dialog in such a
state. -/
theorem C13_accelerator_selects_existing_row (collate : String → String → Int)
    (root : Option MenuDirectory) (strstrcase : Option String → String → Bool)
    (text : String) (enable_program_list use_program_list : Bool) (dialog : Dialog)
    (cursor : Option Nat) (keyval : Nat) (hinv : accel_map_in_range dialog) :
    (dialog.accelerator_keys_to_tree_iter_map.lookup keyval = none →
      panel_run_dialog_accelerator_key_pressed dialog cursor keyval = cursor) ∧
    (∀ i, dialog.accelerator_keys_to_tree_iter_map.lookup keyval = some i →
      panel_run_dialog_accelerator_key_pressed dialog cursor keyval = some i ∧
      i < (visible_rows dialog.program_list_store).length) ∧
    accel_map_in_range (panel_run_dialog_add_items_idle collate root dialog) ∧
    accel_map_in_range (panel_run_dialog_find_command_idle strstrcase text dialog) ∧
    accel_map_in_range
      (combobox_changed enable_program_list use_program_list text dialog) ∧
    (∀ other : Dialog, other.program_list_store ≠ [] →
      accel_map_in_range (panel_run_dialog_find_command_idle strstrcase text other)) ∧
    (∀ (other : Dialog) (blank : String), blank.data.dropWhile g_ascii_isspace = [] →
      accel_map_in_range (combobox_changed true use_program_list blank other)) := by
  refine ⟨?_, ?_, add_items_idle_in_range collate root dialog,
    find_command_idle_in_range strstrcase text dialog hinv,
    combobox_changed_in_range enable_program_list use_program_list text dialog hinv,
    fun other hne => find_command_idle_in_range_of_empty strstrcase text other
      (fun he => absurd he hne),
    fun other blank hblank => combobox_changed_blank_in_range use_program_list blank other
      hblank⟩
  · intro hnone
    simp [panel_run_dialog_accelerator_key_pressed, hnone]
  · intro i hsome
    refine ⟨by simp [panel_run_dialog_accelerator_key_pressed, hsome], ?_⟩
    exact hinv (keyval, i) (lookup_mem _ keyval i hsome)

/-- C13 on a dialog with two displayed rows and Alt+2 bound to the second. -/
theorem C13_accelerator_selects_existing_row_witness :
    accel_map_in_range
      ⟨[⟨none, some "Calculator", 8, 0x31, none, some "mate-calc", true⟩,
        ⟨none, some "Terminal", 8, 0x32, none, some "mate-terminal", true⟩],
        none, none, [(0x32, 1), (0x31, 0)]⟩ ∧
    panel_run_dialog_accelerator_key_pressed
      ⟨[⟨none, some "Calculator", 8, 0x31, none, some "mate-calc", true⟩,
        ⟨none, some "Terminal", 8, 0x32, none, some "mate-terminal", true⟩],
        none, none, [(0x32, 1), (0x31, 0)]⟩ none 0x32 = some 1 :=
  ⟨by decide,
    ((C13_accelerator_selects_existing_row codepoint_collate none panel_g_utf8_strstrcase
      "calc" true false
      ⟨[⟨none, some "Calculator", 8, 0x31, none, some "mate-calc", true⟩,
        ⟨none, some "Terminal", 8, 0x32, none, some "mate-terminal", true⟩],
        none, none, [(0x32, 1), (0x31, 0)]⟩ none 0x32 (by decide)).2.1 1 (by decide)).1⟩

/-! ## Application index: claims -/

/-- C14 fails on the code: the menu holds `Document Viewer` and `PDF Viewer`, both with the
display name `Atril`, and `Engrampa`. `get_all_applications` sorts by the name
(`g_app_info_get_name`), which puts `Engrampa` between the two, while the duplicate
stripping compares the display names of neighbours: both `Atril` entries stay in the
list. -/
theorem C14_duplicate_display_name_survives :
    stripped_applications codepoint_collate
      (some (MenuDirectory.cons
        (MenuItem.entry ⟨"PDF Viewer", some "Atril", none, some "atril %U", some "atril"⟩)
        (MenuDirectory.cons
          (MenuItem.entry ⟨"Engrampa", some "Engrampa", none, some "engrampa %U",
            some "engrampa"⟩)
          (MenuDirectory.cons
            (MenuItem.entry ⟨"Document Viewer", some "Atril", none, some "atril",
              some "atril"⟩)
            MenuDirectory.nil)))) =
      [⟨"Document Viewer", some "Atril", none, some "atril", some "atril"⟩,
       ⟨"Engrampa", some "Engrampa", none, some "engrampa %U", some "engrampa"⟩,
       ⟨"PDF Viewer", some "Atril", none, some "atril %U", some "atril"⟩] ∧
    ((panel_run_dialog_add_items_idle codepoint_collate
      (some (MenuDirectory.cons
        (MenuItem.entry ⟨"PDF Viewer", some "Atril", none, some "atril %U", some "atril"⟩)
        (MenuDirectory.cons
          (MenuItem.entry ⟨"Engrampa", some "Engrampa", none, some "engrampa %U",
            some "engrampa"⟩)
          (MenuDirectory.cons
            (MenuItem.entry ⟨"Document Viewer", some "Atril", none, some "atril",
              some "atril"⟩)
            MenuDirectory.nil))))
      ⟨[], none, none, []⟩).program_list_store.map ProgramRow.name).count (some "Atril")
      = 2 := by
  decide

/-- C15: the duplicate-stripping loop of `panel_run_dialog_add_items_idle` maps every list
to the first entries of its maximal runs of neighbours with the same display name that is
not `NULL` (the runs as `List.splitBy` cuts them); equally, it is the greedy removal of
entries that repeat the name of the last kept entry. The result is a sublist of the
input, no two neighbours of it share a display name that is not `NULL`, and stripping it
again changes nothing. -/
theorem C15_strip_duplicates_keeps_run_heads (l : List MenuEntry) :
    strip_duplicates none l =
      (l.splitBy (fun x y => decide (same_display_name x y))).filterMap List.head? ∧
    strip_duplicates none l = List.destutter (fun x y => ¬ same_display_name x y) l ∧
    (strip_duplicates none l).Sublist l ∧
    List.Chain' (fun x y => ¬ same_display_name x y) (strip_duplicates none l) ∧
    strip_duplicates none (strip_duplicates none l) = strip_duplicates none l := by
  refine ⟨strip_duplicates_runs l, strip_duplicates_none l, ?_, ?_, ?_⟩
  · rw [strip_duplicates_none]
    exact List.destutter_sublist _ l
  · rw [strip_duplicates_none]
    exact List.destutter_is_chain' _ l
  · rw [strip_duplicates_none, strip_duplicates_none]
    exact List.destutter_idem _ _

/-- C16 fails on the code: `compare_applications` collates the names
(`g_app_info_get_name`), not the display names. For the entries `Files` (display name
`Nautilus`) and `Image Viewer` (display name `Eye of MATE`) `get_all_applications` returns
`Files` first, and the display names of the result are out of collation order. -/
theorem C16_sorted_by_name_not_display_name :
    get_all_applications codepoint_collate
      (some (MenuDirectory.cons
        (MenuItem.entry ⟨"Image Viewer", some "Eye of MATE", none, some "eom %U",
          some "eom"⟩)
        (MenuDirectory.cons
          (MenuItem.entry ⟨"Files", some "Nautilus", none, some "nautilus", some "folder"⟩)
          MenuDirectory.nil))) =
      [⟨"Files", some "Nautilus", none, some "nautilus", some "folder"⟩,
       ⟨"Image Viewer", some "Eye of MATE", none, some "eom %U", some "eom"⟩] ∧
    compare_applications codepoint_collate
      ⟨"Files", some "Nautilus", none, some "nautilus", some "folder"⟩
      ⟨"Image Viewer", some "Eye of MATE", none, some "eom %U", some "eom"⟩ ≤ 0 ∧
    ¬ codepoint_collate "Nautilus" "Eye of MATE" ≤ 0 := by
  decide

/-- C17: on every menu tree `get_all_applications_from_dir (directory, list)` returns
`list` followed by the application entries reachable from the directory, depth first and
left to right: an entry item and an alias to an entry add that entry, a directory item and
an alias to a directory add what is reachable from the directory, and separators, headers
and aliases to anything else add nothing. The function is total: the recursion follows
the structure of the finite tree. -/
theorem C17_from_dir_appends_reachable (directory : MenuDirectory) (list : List MenuEntry) :
    get_all_applications_from_dir directory list = list ++ directory.reachable_entries ∧
    (∀ e d, (MenuDirectory.cons (MenuItem.entry e) d).reachable_entries =
      e :: d.reachable_entries) ∧
    (∀ e d, (MenuDirectory.cons (MenuItem.alias_item (MenuAlias.entry e)) d).reachable_entries =
      e :: d.reachable_entries) ∧
    (∀ sub d, (MenuDirectory.cons (MenuItem.directory sub) d).reachable_entries =
      sub.reachable_entries ++ d.reachable_entries) ∧
    (∀ sub d,
      (MenuDirectory.cons (MenuItem.alias_item (MenuAlias.directory sub)) d).reachable_entries =
      sub.reachable_entries ++ d.reachable_entries) ∧
    (∀ d, (MenuDirectory.cons MenuItem.separator d).reachable_entries = d.reachable_entries ∧
      (MenuDirectory.cons MenuItem.header d).reachable_entries = d.reachable_entries ∧
      (MenuDirectory.cons (MenuItem.alias_item MenuAlias.other) d).reachable_entries =
        d.reachable_entries) := by
  refine ⟨from_dir_eq directory list, ?_, ?_, ?_, ?_, ?_⟩ <;>
    intros <;>
    simp [MenuDirectory.reachable_entries, MenuItem.reachable_entries,
      MenuAlias.reachable_entries]

/-! ## Running a command: lemmas and claims -/

/-- The events of `panel_run_dialog_execute` for a command that is not blank and converts
to the locale encoding. -/
theorem execute_events (env : RunEnv) (settings : Settings) (model : List String)
    (text disk : String) (hcmd : g_strchug text ≠ "")
    (hdisk : env.g_locale_from_utf8 (g_strchug text) = some disk) :
    panel_run_dialog_execute env settings model text =
      if env.g_path_is_absolute disk = true ∨ env.g_uri_parse_scheme disk = none then
        if (panel_run_dialog_launch_command env disk).1 = true then
          ⟨RunEvent.launch_command disk :: (panel_run_dialog_launch_command env disk).2 ++
              [RunEvent.save_history (g_strchug text), RunEvent.destroy_dialog],
            _panel_run_save_recent_programs_list settings model (g_strchug text), true⟩
        else if env.panel_show_uri (g_strchug text) = true then
          ⟨RunEvent.launch_command disk :: (panel_run_dialog_launch_command env disk).2 ++
              [RunEvent.show_uri (g_strchug text), RunEvent.save_history (g_strchug text),
                RunEvent.destroy_dialog],
            _panel_run_save_recent_programs_list settings model (g_strchug text), true⟩
        else
          ⟨RunEvent.launch_command disk :: (panel_run_dialog_launch_command env disk).2 ++
              [RunEvent.show_uri (g_strchug text)], none, false⟩
      else if env.panel_show_uri (g_strchug text) = true then
        ⟨[RunEvent.show_uri (g_strchug text), RunEvent.save_history (g_strchug text),
            RunEvent.destroy_dialog],
          _panel_run_save_recent_programs_list settings model (g_strchug text), true⟩
      else ⟨[RunEvent.show_uri (g_strchug text)], none, false⟩ := by
  unfold panel_run_dialog_execute
  simp only [hcmd, if_false, hdisk]
  cases habs : env.g_path_is_absolute disk <;> cases hs : env.g_uri_parse_scheme disk <;>
    cases hl : (panel_run_dialog_launch_command env disk).1 <;>
    cases hu : env.panel_show_uri (g_strchug text) <;> simp

/-- The events of `panel_run_dialog_launch_command` never include a call of the URI
handler, a history update or the destruction of the dialog. -/
theorem launch_command_events (env : RunEnv) (disk : String) (e : RunEvent)
    (he : e ∈ (panel_run_dialog_launch_command env disk).2) :
    (∃ argv, e = RunEvent.spawn argv) ∨ e = RunEvent.child_watch ∨
      e = RunEvent.error_dialog "cannot_spawn_command" := by
  unfold panel_run_dialog_launch_command at he
  simp only [] at he
  split_ifs at he <;> simp at he <;> rcases he with h | h <;> simp [h]

/-- C18: for a text that is not blank and converts to the locale encoding `disk`,
`panel_run_dialog_execute` calls `panel_run_dialog_launch_command` (which resolves and
spawns) if and only if `disk` is an absolute path or has no URI scheme; for a `disk` with a
scheme that is not an absolute path it only hands the command to the URI handler (and, when
that succeeds, records it and closes); and whenever the launch is attempted and does not
succeed the command is handed to the URI handler, while after a launch that succeeds it is
not. -/
theorem C18_launch_attempt_and_fallback (env : RunEnv) (settings : Settings)
    (model : List String) (text disk : String) (hcmd : g_strchug text ≠ "")
    (hdisk : env.g_locale_from_utf8 (g_strchug text) = some disk) :
    (RunEvent.launch_command disk ∈ (panel_run_dialog_execute env settings model text).events ↔
      (env.g_path_is_absolute disk = true ∨ env.g_uri_parse_scheme disk = none)) ∧
    (env.g_path_is_absolute disk = false → env.g_uri_parse_scheme disk ≠ none →
      (panel_run_dialog_execute env settings model text).events =
        RunEvent.show_uri (g_strchug text) ::
          (if env.panel_show_uri (g_strchug text) = true then
            [RunEvent.save_history (g_strchug text), RunEvent.destroy_dialog] else [])) ∧
    ((env.g_path_is_absolute disk = true ∨ env.g_uri_parse_scheme disk = none) →
      (panel_run_dialog_launch_command env disk).1 = false →
      RunEvent.show_uri (g_strchug text) ∈
        (panel_run_dialog_execute env settings model text).events) ∧
    ((env.g_path_is_absolute disk = true ∨ env.g_uri_parse_scheme disk = none) →
      (panel_run_dialog_launch_command env disk).1 = true →
      RunEvent.show_uri (g_strchug text) ∉
        (panel_run_dialog_execute env settings model text).events) := by
  rw [execute_events env settings model text disk hcmd hdisk]
  refine ⟨?_, ?_, ?_, ?_⟩
  · constructor
    · intro hmem
      by_contra hno
      rw [if_neg hno] at hmem
      split_ifs at hmem <;> simp at hmem
    · intro hyes
      rw [if_pos hyes]
      split_ifs <;> simp
  · intro habs hs
    have hno : ¬ (env.g_path_is_absolute disk = true ∨ env.g_uri_parse_scheme disk = none) := by
      simp [habs, hs]
    rw [if_neg hno]
    split_ifs <;> rfl
  · intro hyes hfail
    rw [if_pos hyes]
    simp only [hfail, Bool.false_eq_true, if_false]
    split_ifs <;> simp
  · intro hyes hok hmem
    rw [if_pos hyes, if_pos hok] at hmem
    simp only [List.cons_append, List.mem_cons, List.mem_append, List.mem_singleton,
      List.mem_nil_iff, or_false] at hmem
    rcases hmem with h | h | h | h
    · exact RunEvent.noConfusion h
    · rcases launch_command_events env disk _ h with ⟨a, ha⟩ | ha | ha <;>
        exact RunEvent.noConfusion ha
    · exact RunEvent.noConfusion h
    · exact RunEvent.noConfusion h

/-- C18 on the text `  mate-calc` in the sample environment where spawning fails and
showing succeeds. -/
theorem C18_launch_attempt_and_fallback_witness :
    g_strchug "  mate-calc" ≠ "" ∧
    (sample_env false true).g_locale_from_utf8 (g_strchug "  mate-calc") = some "mate-calc" ∧
    (RunEvent.launch_command "mate-calc" ∈
        (panel_run_dialog_execute (sample_env false true) ⟨[], 10, false⟩ []
          "  mate-calc").events ↔
      ((sample_env false true).g_path_is_absolute "mate-calc" = true ∨
        (sample_env false true).g_uri_parse_scheme "mate-calc" = none)) :=
  ⟨by decide, by decide,
    (C18_launch_attempt_and_fallback (sample_env false true) ⟨[], 10, false⟩ []
      "  mate-calc" "mate-calc" (by decide) (by decide)).1⟩

theorem replace_leading_tilde_other (home_path arg : String)
    (hno : ∀ rest, arg.data ≠ '~' :: '/' :: rest) :
    replace_leading_tilde home_path arg = arg := by
  unfold replace_leading_tilde
  split
  · rename_i rest heq
    exact absurd heq (hno rest)
  · rfl

theorem replace_leading_tilde_home (home_path arg : String) (rest : List Char)
    (heq : arg.data = '~' :: '/' :: rest) :
    replace_leading_tilde home_path arg = home_path ++ String.mk rest := by
  unfold replace_leading_tilde
  rw [heq]
  rfl

/-- What `command_is_executable` does with a command that parses to a vector with a first
argument: it resolves the first argument after the replacement loop, tests the path found,
and on success hands back the whole vector after the replacement loop. -/
theorem command_is_executable_parsed (env : RunEnv) (command argv0 : String)
    (others : List String) (h : env.g_shell_parse_argv command = some (argv0 :: others)) :
    (command_is_executable env command).resolved =
      some (replace_leading_tilde env.home_path argv0) ∧
    (command_is_executable env command).tested =
      env.g_find_program_in_path (replace_leading_tilde env.home_path argv0) ∧
    ((command_is_executable env command).result = true ↔
      ∃ path, env.g_find_program_in_path (replace_leading_tilde env.home_path argv0) =
          some path ∧
        env.is_executable path = true ∧ env.is_regular path = true) ∧
    ((command_is_executable env command).result = true →
      (command_is_executable env command).argv =
        (argv0 :: others).map (replace_leading_tilde env.home_path)) := by
  unfold command_is_executable
  simp only [h, expand_argv, List.map_cons]
  cases hf : env.g_find_program_in_path (replace_leading_tilde env.home_path argv0) with
  | none => simp
  | some path =>
    cases he : env.is_executable path <;> cases hr : env.is_regular path <;> simp [he, hr]

/-- C19: the loop of `command_is_executable` keeps the number of arguments, leaves an
argument that does not start with `~/` as it is and turns an argument `~/rest` into the
home path (the home directory with `/` at its end) followed by `rest`; this happens before
the first argument is resolved: for the command `~/bin/foo`, parsed as the single argument
`~/bin/foo`, the argument given to `g_find_program_in_path` is the home path followed by
`bin/foo`, the path tested with `g_file_test` is what that call returns (the same path when
the call returns its argument, as it does for an absolute path), and the result is `TRUE`
exactly when that path is executable and regular. For every command and every vector
`g_shell_parse_argv` gives for it: when `command_is_executable` returns `TRUE`, the vector
it hands back has as many arguments as the parsed one, argument `i` is the parsed argument
`i` when that does not start with `~/` and the home path followed by `rest` when it is
`~/rest`; whatever the result, the argument resolved against the search path is the first
argument after this replacement, the path tested is what the resolution returns, and the
result is `TRUE` exactly when that path exists, is executable and is regular; a parse
error and an empty vector give `FALSE`. With the words `~/bin/foo ~/notes.txt -o ~x/~/y`
the program resolved is `/home/user/bin/foo` and the vector spawned is
`/home/user/bin/foo /home/user/notes.txt -o ~x/~/y`. -/
theorem C19_tilde_is_expanded_before_resolution (env : RunEnv)
    (hparse : env.g_shell_parse_argv "~/bin/foo" = some ["~/bin/foo"]) :
    (∀ argv, (expand_argv env.home_path argv).length = argv.length) ∧
    (∀ arg, (∀ rest, arg.data ≠ '~' :: '/' :: rest) →
      replace_leading_tilde env.home_path arg = arg) ∧
    (∀ arg rest, arg.data = '~' :: '/' :: rest →
      replace_leading_tilde env.home_path arg = env.home_path ++ String.mk rest) ∧
    (∀ (argv : List String) (i : Nat), (expand_argv env.home_path argv)[i]? =
      (argv[i]?).map (replace_leading_tilde env.home_path)) ∧
    (command_is_executable env "~/bin/foo").resolved = some (env.home_path ++ "bin/foo") ∧
    (command_is_executable env "~/bin/foo").tested =
      env.g_find_program_in_path (env.home_path ++ "bin/foo") ∧
    (env.g_find_program_in_path (env.home_path ++ "bin/foo") =
        some (env.home_path ++ "bin/foo") →
      (command_is_executable env "~/bin/foo").tested = some (env.home_path ++ "bin/foo") ∧
      (command_is_executable env "~/bin/foo").result =
        (env.is_executable (env.home_path ++ "bin/foo") &&
          env.is_regular (env.home_path ++ "bin/foo"))) ∧
    (∀ (command : String) (parsed : List String),
      env.g_shell_parse_argv command = some parsed →
      (command_is_executable env command).result = true →
      (command_is_executable env command).argv.length = parsed.length ∧
      ∀ (i : Nat) (arg : String), parsed[i]? = some arg →
        ((∀ rest, arg.data ≠ '~' :: '/' :: rest) →
          (command_is_executable env command).argv[i]? = some arg) ∧
        (∀ rest, arg.data = '~' :: '/' :: rest →
          (command_is_executable env command).argv[i]? =
            some (env.home_path ++ String.mk rest))) ∧
    (∀ command argv0 others, env.g_shell_parse_argv command = some (argv0 :: others) →
      ((∀ rest, argv0.data ≠ '~' :: '/' :: rest) →
        (command_is_executable env command).resolved = some argv0 ∧
        (command_is_executable env command).tested = env.g_find_program_in_path argv0) ∧
      (∀ rest, argv0.data = '~' :: '/' :: rest →
        (command_is_executable env command).resolved =
          some (env.home_path ++ String.mk rest) ∧
        (command_is_executable env command).tested =
          env.g_find_program_in_path (env.home_path ++ String.mk rest)) ∧
      ((command_is_executable env command).result = true ↔
        ∃ path, (command_is_executable env command).tested = some path ∧
          env.is_executable path = true ∧ env.is_regular path = true)) ∧
    (∀ command, env.g_shell_parse_argv command = none ∨
        env.g_shell_parse_argv command = some [] →
      (command_is_executable env command).result = false ∧
      (command_is_executable env command).resolved = none) ∧
    command_is_executable sample_words_env "~/bin/foo ~/notes.txt -o ~x/~/y" =
      ⟨true, ["/home/user/bin/foo", "/home/user/notes.txt", "-o", "~x/~/y"],
        some "/home/user/bin/foo", some "/home/user/bin/foo"⟩ ∧
    panel_run_dialog_launch_command sample_words_env "~/bin/foo ~/notes.txt -o ~x/~/y" =
      (true, [RunEvent.spawn ["/home/user/bin/foo", "/home/user/notes.txt", "-o", "~x/~/y"],
        RunEvent.child_watch]) := by
  have hrep : replace_leading_tilde env.home_path "~/bin/foo" = env.home_path ++ "bin/foo" :=
    rfl
  refine ⟨fun argv => by simp [expand_argv], ?_, ?_, fun argv i => by simp [expand_argv],
    ?_, ?_, ?_, ?_, ?_, ?_, by decide, by decide⟩
  · intro arg hno
    exact replace_leading_tilde_other _ _ hno
  · intro arg rest heq
    exact replace_leading_tilde_home _ _ _ heq
  · unfold command_is_executable
    simp only [hparse, expand_argv, List.map_cons, List.map_nil, hrep]
    cases env.g_find_program_in_path (env.home_path ++ "bin/foo") with
    | none => rfl
    | some path => simp only []; split_ifs <;> rfl
  · unfold command_is_executable
    simp only [hparse, expand_argv, List.map_cons, List.map_nil, hrep]
    cases env.g_find_program_in_path (env.home_path ++ "bin/foo") with
    | none => rfl
    | some path => simp only []; split_ifs <;> rfl
  · intro hfind
    unfold command_is_executable
    simp only [hparse, expand_argv, List.map_cons, List.map_nil, hrep, hfind]
    cases env.is_executable (env.home_path ++ "bin/foo") <;>
      cases env.is_regular (env.home_path ++ "bin/foo") <;> simp
  · intro command parsed hp hres
    cases parsed with
    | nil =>
      unfold command_is_executable at hres
      simp [hp, expand_argv] at hres
    | cons argv0 others =>
      rw [(command_is_executable_parsed env command argv0 others hp).2.2.2 hres]
      refine ⟨by simp, ?_⟩
      intro i arg hi
      have hget : ((argv0 :: others).map (replace_leading_tilde env.home_path))[i]? =
          some (replace_leading_tilde env.home_path arg) := by
        rw [List.getElem?_map, hi]
        rfl
      refine ⟨fun hno => ?_, fun rest heq => ?_⟩
      · rw [hget, replace_leading_tilde_other _ _ hno]
      · rw [hget, replace_leading_tilde_home _ _ _ heq]
  · intro command argv0 others hp
    obtain ⟨h1, h2, h3, _⟩ := command_is_executable_parsed env command argv0 others hp
    refine ⟨fun hno => ?_, fun rest heq => ?_, ?_⟩
    · rw [h1, h2, replace_leading_tilde_other _ _ hno]
      exact ⟨rfl, rfl⟩
    · rw [h1, h2, replace_leading_tilde_home _ _ _ heq]
      exact ⟨rfl, rfl⟩
    · rw [h2]
      exact h3
  · intro command hp
    unfold command_is_executable
    rcases hp with hp | hp
    · simp [hp]
    · simp [hp, expand_argv]

/-- C19 in the sample environment: `~/bin/foo` is resolved as `/home/user/bin/foo`. -/
theorem C19_tilde_is_expanded_before_resolution_witness :
    (sample_env true true).g_shell_parse_argv "~/bin/foo" = some ["~/bin/foo"] ∧
    (command_is_executable (sample_env true true) "~/bin/foo").resolved =
      some ((sample_env true true).home_path ++ "bin/foo") :=
  ⟨rfl, (C19_tilde_is_expanded_before_resolution (sample_env true true) rfl).2.2.2.2.1⟩

/-- C20 as stated fails: in the sample environment `/usr/bin/foo` resolves to an executable,
spawning it fails and the URI handler then shows it; `panel_run_dialog_execute` records the
command in the history and destroys the dialog. -/
theorem C20_counterexample :
    (command_is_executable (sample_env false true) "/usr/bin/foo").result = true ∧
    (sample_env false true).g_spawn_async ["/usr/bin/foo"] = false ∧
    panel_run_dialog_execute (sample_env false true) ⟨["ls"], 10, false⟩ ["ls"]
        "/usr/bin/foo" =
      ⟨[RunEvent.launch_command "/usr/bin/foo", RunEvent.spawn ["/usr/bin/foo"],
        RunEvent.error_dialog "cannot_spawn_command", RunEvent.show_uri "/usr/bin/foo",
        RunEvent.save_history "/usr/bin/foo", RunEvent.destroy_dialog],
       some ["/usr/bin/foo", "ls"], true⟩ := by
  decide

/-- C20 amended: in `panel_run_dialog_execute`, whenever the text resolves to an executable
and spawning it fails, the error dialog `cannot_spawn_command` is shown and the command is
then handed to the URI handler; the history is updated and the dialog closed if and only
if the handler succeeds, so both stay as they are when the handler fails too. -/
theorem C20_spawn_failure_falls_back_to_uri (env : RunEnv) (settings : Settings)
    (model : List String) (text disk : String) (hcmd : g_strchug text ≠ "")
    (hdisk : env.g_locale_from_utf8 (g_strchug text) = some disk)
    (hlaunch : env.g_path_is_absolute disk = true ∨ env.g_uri_parse_scheme disk = none)
    (hexec : (command_is_executable env disk).result = true)
    (hspawn : env.g_spawn_async
      (if env.terminal_checkbox = true then
        env.mate_desktop_prepend_terminal_to_vector (command_is_executable env disk).argv
      else (command_is_executable env disk).argv) = false) :
    RunEvent.error_dialog "cannot_spawn_command" ∈
      (panel_run_dialog_execute env settings model text).events ∧
    RunEvent.show_uri (g_strchug text) ∈
      (panel_run_dialog_execute env settings model text).events ∧
    (RunEvent.save_history (g_strchug text) ∈
        (panel_run_dialog_execute env settings model text).events ↔
      env.panel_show_uri (g_strchug text) = true) ∧
    (panel_run_dialog_execute env settings model text).destroyed =
      env.panel_show_uri (g_strchug text) ∧
    (panel_run_dialog_execute env settings model text).history_written =
      (if env.panel_show_uri (g_strchug text) = true then
        _panel_run_save_recent_programs_list settings model (g_strchug text) else none) := by
  have hl : panel_run_dialog_launch_command env disk =
      (false, [RunEvent.spawn (if env.terminal_checkbox = true then
        env.mate_desktop_prepend_terminal_to_vector (command_is_executable env disk).argv
      else (command_is_executable env disk).argv),
        RunEvent.error_dialog "cannot_spawn_command"]) := by
    unfold panel_run_dialog_launch_command
    simp [hexec, hspawn]
  rw [execute_events env settings model text disk hcmd hdisk, if_pos hlaunch, hl]
  cases hu : env.panel_show_uri (g_strchug text) <;> simp

/-- C20 amended in the sample environment where spawning and showing both fail: the dialog
stays open. -/
theorem C20_spawn_failure_falls_back_to_uri_witness :
    g_strchug "/usr/bin/foo" ≠ "" ∧
    (sample_env false false).g_locale_from_utf8 (g_strchug "/usr/bin/foo") =
      some "/usr/bin/foo" ∧
    ((sample_env false false).g_path_is_absolute "/usr/bin/foo" = true ∨
      (sample_env false false).g_uri_parse_scheme "/usr/bin/foo" = none) ∧
    (command_is_executable (sample_env false false) "/usr/bin/foo").result = true ∧
    (sample_env false false).g_spawn_async ["/usr/bin/foo"] = false ∧
    (panel_run_dialog_execute (sample_env false false) ⟨["ls"], 10, false⟩ ["ls"]
      "/usr/bin/foo").destroyed = false :=
  ⟨by decide, by decide, by decide, by decide, by decide,
    (C20_spawn_failure_falls_back_to_uri (sample_env false false) ⟨["ls"], 10, false⟩ ["ls"]
      "/usr/bin/foo" "/usr/bin/foo" (by decide) (by decide) (by decide) (by decide)
      (by decide)).2.2.2.1⟩

/-! ## Recording and matching: further claims -/

/-- C21: `panel_run_dialog_execute` records the command in the history and destroys the
dialog if and only if the command was launched with success or the URI handler showed it
with success; with a blank text it does nothing at all, and when the conversion to the
locale encoding fails, or launching and showing both fail, the history is not written and
the dialog stays. -/
theorem C21_recorded_iff_launched_or_shown (env : RunEnv) (settings : Settings)
    (model : List String) (text : String) :
    (g_strchug text = "" →
      panel_run_dialog_execute env settings model text = ⟨[], none, false⟩) ∧
    (g_strchug text ≠ "" → env.g_locale_from_utf8 (g_strchug text) = none →
      (panel_run_dialog_execute env settings model text).destroyed = false ∧
      (panel_run_dialog_execute env settings model text).history_written = none ∧
      RunEvent.save_history (g_strchug text) ∉
        (panel_run_dialog_execute env settings model text).events) ∧
    (∀ disk, g_strchug text ≠ "" → env.g_locale_from_utf8 (g_strchug text) = some disk →
      ((panel_run_dialog_execute env settings model text).destroyed = true ↔
        (((env.g_path_is_absolute disk = true ∨ env.g_uri_parse_scheme disk = none) ∧
            (panel_run_dialog_launch_command env disk).1 = true) ∨
          env.panel_show_uri (g_strchug text) = true)) ∧
      (RunEvent.save_history (g_strchug text) ∈
          (panel_run_dialog_execute env settings model text).events ↔
        (((env.g_path_is_absolute disk = true ∨ env.g_uri_parse_scheme disk = none) ∧
            (panel_run_dialog_launch_command env disk).1 = true) ∨
          env.panel_show_uri (g_strchug text) = true)) ∧
      (panel_run_dialog_execute env settings model text).history_written =
        (if ((env.g_path_is_absolute disk = true ∨ env.g_uri_parse_scheme disk = none) ∧
            (panel_run_dialog_launch_command env disk).1 = true) ∨
          env.panel_show_uri (g_strchug text) = true
        then _panel_run_save_recent_programs_list settings model (g_strchug text)
        else none)) := by
  refine ⟨?_, ?_, ?_⟩
  · intro h
    simp [panel_run_dialog_execute, h]
  · intro h hnone
    simp [panel_run_dialog_execute, h, hnone]
  · intro disk hcmd hdisk
    have hno : ∀ e ∈ (panel_run_dialog_launch_command env disk).2,
        e ≠ RunEvent.save_history (g_strchug text) := by
      intro e he heq
      rcases launch_command_events env disk e he with ⟨a, ha⟩ | ha | ha <;>
        exact RunEvent.noConfusion (ha.symm.trans heq)
    have hnot : RunEvent.save_history (g_strchug text) ∉
        (panel_run_dialog_launch_command env disk).2 := fun hm => hno _ hm rfl
    rw [execute_events env settings model text disk hcmd hdisk]
    by_cases hl : env.g_path_is_absolute disk = true ∨ env.g_uri_parse_scheme disk = none
    · rw [if_pos hl]
      cases hr : (panel_run_dialog_launch_command env disk).1 <;>
        cases hu : env.panel_show_uri (g_strchug text) <;> simp [hl, hnot]
    · rw [if_neg hl]
      cases hu : env.panel_show_uri (g_strchug text) <;> simp [hl]

/-- C28: on command strings that are not `NULL`, `fuzzy_command_match` is reflexive,
symmetric (both orders give the same result and the same fuzzy flag, whatever the flag
held before) and transitive, and the fuzzy flag is set exactly when the strings match and
are not equal. -/
theorem C28_fuzzy_match_is_equivalence :
    (∀ (a : String) (f0 : Bool), (fuzzy_command_match (some a) (some a) f0).1 = true) ∧
    (∀ (a b : String) (f0 f1 : Bool),
      fuzzy_command_match (some a) (some b) f0 = fuzzy_command_match (some b) (some a) f1) ∧
    (∀ (a b c : String) (f0 f1 f2 : Bool),
      (fuzzy_command_match (some a) (some b) f0).1 = true →
      (fuzzy_command_match (some b) (some c) f1).1 = true →
      (fuzzy_command_match (some a) (some c) f2).1 = true) ∧
    (∀ (a b : String) (f0 : Bool),
      (fuzzy_command_match (some a) (some b) f0).2 = true ↔
        ((fuzzy_command_match (some a) (some b) f0).1 = true ∧ a ≠ b)) := by
  refine ⟨?_, ?_, ?_, ?_⟩
  · intro a f0
    rw [fuzzy_command_match_self]
  · intro a b f0 f1
    by_cases h : a = b
    · subst h
      rw [fuzzy_command_match_self, fuzzy_command_match_self]
    · rw [fuzzy_command_match_ne a b f0 h, fuzzy_command_match_ne b a f1 (fun e => h e.symm)]
      by_cases ha : a = "" <;> by_cases hb : b = "" <;> simp [ha, hb, eq_comm]
  · intro a b c f0 f1 f2 hab hbc
    by_cases hac : a = c
    · subst hac
      rw [fuzzy_command_match_self]
    · by_cases h1 : a = b
      · subst h1
        rw [fuzzy_command_match_ne a c f1 hac] at hbc
        rw [fuzzy_command_match_ne a c f2 hac]
        exact hbc
      · by_cases h2 : b = c
        · subst h2
          rw [fuzzy_command_match_ne a b f0 h1] at hab
          rw [fuzzy_command_match_ne a b f2 h1]
          exact hab
        · rw [fuzzy_command_match_ne a b f0 h1] at hab
          rw [fuzzy_command_match_ne b c f1 h2] at hbc
          rw [fuzzy_command_match_ne a c f2 hac]
          by_cases ea : a = "" <;> by_cases eb : b = "" <;> by_cases ec : c = "" <;>
            simp [ea, eb, ec] at hab hbc ⊢
          split_ifs at hab hbc with p q
          simp_all
  · intro a b f0
    rcases fuzzy_command_match_cases a b f0 with ⟨h, _⟩ | ⟨h, hm⟩ | ⟨h, hm⟩
    · subst h
      simp [fuzzy_command_match_self]
    · simp [hm, h]
    · simp [hm]

/-- C29: for every stored history `S`, maximum `n ≥ 1` and command `c`, loading `S` with
`_panel_run_get_recent_programs_list` and recording `c` with
`_panel_run_save_recent_programs_list` stores the same list with the reverse setting on
and off: `c` first, then the entries of the first `n` of `S` other than `c`, cut to `n`. -/
theorem C29_stored_history_ignores_reverse (S : List String) (n : Nat) (c : String)
    (hn : 1 ≤ n) :
    _panel_run_save_recent_programs_list ⟨S, n, true⟩
        (_panel_run_get_recent_programs_list ⟨S, n, true⟩) c =
      _panel_run_save_recent_programs_list ⟨S, n, false⟩
        (_panel_run_get_recent_programs_list ⟨S, n, false⟩) c ∧
    _panel_run_save_recent_programs_list ⟨S, n, false⟩
        (_panel_run_get_recent_programs_list ⟨S, n, false⟩) c =
      some ((c :: (S.take n).filter (fun x => x ≠ c)).take n) ∧
    record_session ⟨S, n, true⟩ c =
      some ⟨(c :: (S.take n).filter (fun x => x ≠ c)).take n, n, true⟩ ∧
    record_session ⟨S, n, false⟩ c =
      some ⟨(c :: (S.take n).filter (fun x => x ≠ c)).take n, n, false⟩ := by
  have hne : n ≠ 0 := by omega
  have e1 : _panel_run_save_recent_programs_list ⟨S, n, true⟩
        (_panel_run_get_recent_programs_list ⟨S, n, true⟩) c =
      some ((c :: (S.take n).filter (fun x => x ≠ c)).take n) := by
    rw [save_eq _ _ c hne, get_eq]
    simp [List.filter_reverse]
  have e2 : _panel_run_save_recent_programs_list ⟨S, n, false⟩
        (_panel_run_get_recent_programs_list ⟨S, n, false⟩) c =
      some ((c :: (S.take n).filter (fun x => x ≠ c)).take n) := by
    rw [save_eq _ _ c hne, get_eq]
    simp
  refine ⟨e1.trans e2.symm, e2, ?_, ?_⟩
  · rw [record_session_eq ⟨S, n, true⟩ c hne]
  · rw [record_session_eq ⟨S, n, false⟩ c hne]

/-- C29 on the history `a b c` with maximum 3 and the command `b`. -/
theorem C29_stored_history_ignores_reverse_witness :
    1 ≤ 3 ∧
    _panel_run_save_recent_programs_list ⟨["a", "b", "c"], 3, true⟩
        (_panel_run_get_recent_programs_list ⟨["a", "b", "c"], 3, true⟩) "b" =
      _panel_run_save_recent_programs_list ⟨["a", "b", "c"], 3, false⟩
        (_panel_run_get_recent_programs_list ⟨["a", "b", "c"], 3, false⟩) "b" :=
  ⟨by decide, (C29_stored_history_ignores_reverse ["a", "b", "c"] 3 "b" (by decide)).1⟩

/-! ## Field codes: lemmas and claims -/

/-- A string that one round of the loop leaves as it is keeps the loop running. -/
theorem remove_parameters_loop_stuck (str : List Char)
    (h : remove_parameters_step str = some str) (fuel : Nat) :
    remove_parameters_loop fuel str = none := by
  induction fuel with
  | zero => rfl
  | succ fuel ih => simp [remove_parameters_loop, h, ih]

theorem without_field_codes_cons (a : Char) (t : List Char) (ha : a ≠ '%') :
    without_field_codes (a :: t) = a :: without_field_codes t := by
  cases t with
  | nil => simp [without_field_codes]
  | cons b t => simp [without_field_codes, ha]

theorem codes_well_formed_cons (a : Char) (t : List Char) (ha : a ≠ '%') :
    codes_well_formed (a :: t) = codes_well_formed t := by
  conv_lhs => unfold codes_well_formed
  rw [if_neg ha]

theorem without_field_codes_append (pre l : List Char) (hpre : ∀ c ∈ pre, c ≠ '%') :
    without_field_codes (pre ++ l) = pre ++ without_field_codes l := by
  induction pre with
  | nil => rfl
  | cons a pre ih =>
    rw [List.cons_append, without_field_codes_cons _ _ (hpre a (List.mem_cons_self _ _)),
      ih (fun c hc => hpre c (List.mem_cons_of_mem _ hc)), List.cons_append]

theorem codes_well_formed_append (pre l : List Char) (hpre : ∀ c ∈ pre, c ≠ '%') :
    codes_well_formed (pre ++ l) = codes_well_formed l := by
  induction pre with
  | nil => rfl
  | cons a pre ih =>
    rw [List.cons_append, codes_well_formed_cons _ _ (hpre a (List.mem_cons_self _ _)),
      ih (fun c hc => hpre c (List.mem_cons_of_mem _ hc))]

theorem takeWhile_not_percent (str : List Char) :
    ∀ c ∈ str.takeWhile (fun c => c ≠ '%'), c ≠ '%' := by
  intro c hc
  have := List.mem_takeWhile_imp hc
  simpa using this

theorem dropWhile_not_percent (str : List Char) :
    str.dropWhile (fun c => c ≠ '%') = [] ∨
      ∃ after, str.dropWhile (fun c => c ≠ '%') = '%' :: after := by
  induction str with
  | nil => exact Or.inl rfl
  | cons a t ih =>
    by_cases ha : a = '%'
    · right
      exact ⟨t, by rw [ha]; rfl⟩
    · have e : (a :: t).dropWhile (fun c => c ≠ '%') = t.dropWhile (fun c => c ≠ '%') := by
        rw [List.dropWhile_cons]
        simp [ha]
      rw [e]
      exact ih

theorem remove_parameters_step_none (str : List Char)
    (hd : str.dropWhile (fun c => c ≠ '%') = []) : remove_parameters_step str = none := by
  unfold remove_parameters_step
  rw [hd]

theorem remove_parameters_step_code (str : List Char) (c : Char) (rest : List Char)
    (hd : str.dropWhile (fun c => c ≠ '%') = '%' :: c :: rest) (hc : c ≠ '%')
    (hcode : is_field_code c = true) :
    remove_parameters_step str = some (str.takeWhile (fun c => c ≠ '%') ++ rest) := by
  unfold remove_parameters_step
  rw [hd]
  simp only [hc, if_false, hcode, if_true]

theorem is_field_code_ne_percent (c : Char) (h : is_field_code c = true) : c ≠ '%' := by
  intro e
  subst e
  exact absurd h (by decide)

/-- With enough rounds the loop ends on a string whose codes are well formed, and returns
the string without the codes. -/
theorem remove_parameters_loop_well_formed (fuel : Nat) (str : List Char)
    (hwf : codes_well_formed str = true) (hfuel : str.length < fuel) :
    remove_parameters_loop fuel str = some (without_field_codes str) := by
  induction fuel generalizing str with
  | zero => omega
  | succ fuel ih =>
    have hsplit := List.takeWhile_append_dropWhile (fun c => decide (c ≠ '%')) str
    have hpre := takeWhile_not_percent str
    unfold remove_parameters_loop
    rcases dropWhile_not_percent str with hd | ⟨after, hd⟩
    · have hstep := remove_parameters_step_none str hd
      rw [hstep]
      simp only []
      rw [hd, List.append_nil] at hsplit
      have := without_field_codes_append (str.takeWhile (fun c => c ≠ '%')) [] hpre
      rw [List.append_nil, hsplit] at this
      rw [this]
      simp [without_field_codes]
    · rw [hd] at hsplit
      have hwf2 : codes_well_formed ('%' :: after) = true := by
        rw [← codes_well_formed_append _ _ hpre, hsplit]
        exact hwf
      cases after with
      | nil => simp [codes_well_formed] at hwf2
      | cons c rest =>
        simp only [codes_well_formed, if_true, Bool.and_eq_true] at hwf2
        have hc := is_field_code_ne_percent c hwf2.1
        have hstep := remove_parameters_step_code str c rest hd hc hwf2.1
        rw [hstep]
        simp only []
        have hlen : (str.takeWhile (fun c => c ≠ '%') ++ rest).length < fuel := by
          have := congrArg List.length hsplit
          simp only [List.length_append, List.length_cons] at this ⊢
          omega
        rw [ih _ (by rw [codes_well_formed_append _ _ hpre]; exact hwf2.2) hlen,
          without_field_codes_append _ _ hpre]
        conv_rhs => rw [← hsplit, without_field_codes_append _ _ hpre]
        simp [without_field_codes, hwf2.1]

theorem without_field_codes_no_percent (n : Nat) (str : List Char) (hn : str.length ≤ n)
    (hwf : codes_well_formed str = true) : '%' ∉ without_field_codes str := by
  induction n generalizing str with
  | zero =>
    have : str = [] := List.length_eq_zero.mp (by omega)
    simp [this, without_field_codes]
  | succ n ih =>
    cases str with
    | nil => simp [without_field_codes]
    | cons a t =>
      by_cases ha : a = '%'
      · subst ha
        cases t with
        | nil => simp [codes_well_formed] at hwf
        | cons c rest =>
          simp only [codes_well_formed, if_true, Bool.and_eq_true] at hwf
          simp only [without_field_codes, hwf.1, Bool.and_self, if_true, decide_True]
          simp only [List.length_cons] at hn
          cases n with
          | zero => omega
          | succ m =>
            have h1 : '%' ∉ without_field_codes rest := by
              by_cases hr : rest.length ≤ m
              · have := ih rest (by omega) hwf.2
                exact this
              · omega
            exact h1
      · rw [without_field_codes_cons _ _ ha]
        rw [codes_well_formed_cons _ _ ha] at hwf
        simp only [List.length_cons] at hn
        have := ih t (by omega) hwf
        simp only [List.mem_cons, not_or]
        exact ⟨fun e => ha e.symm, this⟩

theorem remove_parameters_loop_no_percent (fuel : Nat) (str : List Char)
    (h : '%' ∉ str) : remove_parameters_loop (fuel + 1) str = some str := by
  have hd : str.dropWhile (fun c => c ≠ '%') = [] := by
    rw [List.dropWhile_eq_nil_iff]
    intro c hc
    have : c ≠ '%' := fun e => h (e ▸ hc)
    simpa using this
  simp only [remove_parameters_loop, remove_parameters_step_none str hd]

/-- C24 fails on the code: `remove_parameters` never returns on the Exec strings
`echo 100%%` and `date +%s`. In the first the `%%` is cut to `%`, after which (as in the
second from the start) the `%` found by `strstr` is followed by no field code, the
`default` label only leaves the `switch`, and the loop finds the same `%` again, however
many rounds it is given. -/
theorem C24_remove_parameters_loops_forever (fuel : Nat) :
    remove_parameters fuel "echo 100%%" = none ∧
    remove_parameters fuel "date +%s" = none ∧
    remove_parameters_step "echo 100%%".data = some "echo 100%".data ∧
    remove_parameters_step "echo 100%".data = some "echo 100%".data ∧
    remove_parameters_step "date +%s".data = some "date +%s".data := by
  have h1 : remove_parameters_step "echo 100%%".data = some "echo 100%".data := by decide
  have h2 : remove_parameters_step "echo 100%".data = some "echo 100%".data := by decide
  have h3 : remove_parameters_step "date +%s".data = some "date +%s".data := by decide
  refine ⟨?_, ?_, h1, h2, h3⟩
  · cases fuel with
    | zero => rfl
    | succ fuel =>
      simp only [remove_parameters, remove_parameters_loop, h1]
      rw [remove_parameters_loop_stuck _ h2]
      rfl
  · simp only [remove_parameters]
    rw [remove_parameters_loop_stuck _ h3]
    rfl

/-- C25: for every Exec string in which each `%` is immediately followed by one of the
field-code letters `U F N D f u d n m i c k v`, `remove_parameters` returns (given more
loop rounds than the string has characters) the string with exactly those two-character
codes deleted and every other character kept in order; the result contains no `%`, and
`remove_parameters` applied to the result returns it unchanged. -/
theorem C25_remove_parameters_deletes_codes (exec : String) (fuel : Nat)
    (hwf : codes_well_formed exec.data = true) (hfuel : exec.length < fuel) :
    remove_parameters fuel exec = some (String.mk (without_field_codes exec.data)) ∧
    '%' ∉ without_field_codes exec.data ∧
    remove_parameters fuel (String.mk (without_field_codes exec.data)) =
      some (String.mk (without_field_codes exec.data)) := by
  have hno := without_field_codes_no_percent exec.data.length exec.data (Nat.le_refl _) hwf
  refine ⟨?_, hno, ?_⟩
  · simp only [remove_parameters]
    rw [remove_parameters_loop_well_formed fuel exec.data hwf hfuel]
    rfl
  · obtain ⟨k, rfl⟩ : ∃ k, fuel = k + 1 := ⟨fuel - 1, by omega⟩
    simp only [remove_parameters]
    rw [remove_parameters_loop_no_percent k _ hno]
    rfl

/-- C25 on the Exec string `atril %U`: the result is `atril ` with the space kept. -/
theorem C25_remove_parameters_deletes_codes_witness :
    codes_well_formed "atril %U".data = true ∧ "atril %U".length < 9 ∧
    remove_parameters 9 "atril %U" = some "atril " :=
  ⟨by decide, by decide,
    (C25_remove_parameters_deletes_codes "atril %U" 9 (by decide) (by decide)).1⟩

/-! ## Appending a file name: lemmas and claims -/

theorem quote_string_loop_eq (g_shell_quote : String → String) (s : String)
    (l : List Char) :
    quote_string_loop g_shell_quote s l =
      if l.all quote_string_plain = true then s else g_shell_quote s := by
  induction l with
  | nil => rfl
  | cons p rest ih =>
    unfold quote_string_loop
    by_cases hp : quote_string_plain p = true
    · rw [if_pos hp, ih]
      simp [hp]
    · rw [if_neg hp]
      simp [hp]

/-- The test of the code lets pass exactly the ASCII letters, the digits and `-_./=:`. -/
theorem quote_string_plain_eq (c : Char) : quote_string_plain c = spec_plain_char c := by
  have hle : ∀ n : UInt32, (n ≤ c.val) = (n.toNat ≤ c.val.toNat) := fun _ => rfl
  have hge : ∀ n : UInt32, (c.val ≤ n) = (c.val.toNat ≤ n.toNat) := fun _ => rfl
  have e1 : 'a'.val.toNat = 97 := rfl
  have e2 : 'z'.val.toNat = 122 := rfl
  have e3 : 'A'.val.toNat = 65 := rfl
  have e4 : 'Z'.val.toNat = 90 := rfl
  have e5 : '0'.val.toNat = 48 := rfl
  have e6 : '9'.val.toNat = 57 := rfl
  have f1 : (97 : UInt32).toNat = 97 := rfl
  have f2 : (122 : UInt32).toNat = 122 := rfl
  have f3 : (65 : UInt32).toNat = 65 := rfl
  have f4 : (90 : UInt32).toNat = 90 := rfl
  have f5 : (48 : UInt32).toNat = 48 := rfl
  have f6 : (57 : UInt32).toNat = 57 := rfl
  simp only [quote_string_plain, spec_plain_char, Char.isAlpha, Char.isUpper, Char.isLower,
    Char.isDigit, Char.toNat, ge_iff_le, hle, hge, e1, e2, e3, e4, e5, e6, f1, f2, f3, f4,
    f5, f6]
  congr 2
  exact Bool.or_comm _ _

/-- C30: `panel_run_dialog_append_file_utf8` leaves the entry text as it is when the file
name is `NULL`, empty or begins with `-`; otherwise the new text is the quoted file name
when the entry was empty, and the old text, one space and the quoted file name when it was
not. The quoted file name is the name itself when all its characters are ASCII letters,
digits or one of `- _ . / = :`, and `g_shell_quote` of the name otherwise. -/
theorem C30_append_file_quotes_when_needed (g_shell_quote : String → String)
    (file text : String) :
    panel_run_dialog_append_file_utf8 g_shell_quote none text = text ∧
    panel_run_dialog_append_file_utf8 g_shell_quote (some "") text = text ∧
    (file.data.head? = some '-' →
      panel_run_dialog_append_file_utf8 g_shell_quote (some file) text = text) ∧
    (file ≠ "" → file.data.head? ≠ some '-' →
      panel_run_dialog_append_file_utf8 g_shell_quote (some file) text =
        (if text = "" then quote_string g_shell_quote file
         else text ++ " " ++ quote_string g_shell_quote file)) ∧
    quote_string g_shell_quote file =
      (if ∀ c ∈ file.data, spec_plain_char c = true then file else g_shell_quote file) ∧
    panel_run_dialog_append_file_utf8 PanelRunDialog.g_shell_quote (some "/tmp/a.txt")
      "gedit" = "gedit /tmp/a.txt" ∧
    panel_run_dialog_append_file_utf8 PanelRunDialog.g_shell_quote (some "my file") "" =
      String.mk ([Char.ofNat 39] ++ "my file".data ++ [Char.ofNat 39]) := by
  refine ⟨rfl, rfl, ?_, ?_, ?_, by decide, by decide⟩
  · intro h
    simp [panel_run_dialog_append_file_utf8, h]
  · intro h1 h2
    simp only [panel_run_dialog_append_file_utf8, h1, h2, decide_False, Bool.or_self,
      Bool.false_eq_true, if_false]
    by_cases ht : text = "" <;> simp [ht]
  · unfold quote_string
    rw [quote_string_loop_eq]
    simp only [List.all_eq_true, quote_string_plain_eq]


/-! ## Completion: lemmas and claims -/

/-- What a call of `panel_run_dialog_update_completion` that gets past its early return
does to the cache: the key is in the cache afterwards, the directory is listed exactly
when the key was not there before, and no key is dropped. -/
theorem update_completion_cache (env : CompletionEnv) (dialog : CompletionState)
    (text : String) (step : CompletionStep)
    (h : panel_run_dialog_update_completion env dialog text = some step) :
    (∀ k ∈ dialog.dir_hash, k ∈ step.state.dir_hash) ∧
    (∀ l, step.listed = some l →
      l.2.1 = completion_dirpfx text ∧ l.2.2 = completion_pfx text ∧
      completion_key l.2.1 l.2.2 ∉ dialog.dir_hash ∧
      completion_key l.2.1 l.2.2 ∈ step.state.dir_hash) ∧
    (completion_pfx text ≠ '/' → completion_pfx text ≠ '.' →
      (step.listed.isSome = true ↔
        completion_key (completion_dirpfx text) (completion_pfx text) ∉ dialog.dir_hash) ∧
      completion_key (completion_dirpfx text) (completion_pfx text) ∈
        step.state.dir_hash) := by
  unfold panel_run_dialog_update_completion at h
  by_cases ha : completion_assertion text = true
  · simp only [ha, Bool.not_true, Bool.false_eq_true, if_false] at h
    by_cases hp : (completion_pfx text = '/' || completion_pfx text = '.') = true
    · rw [if_pos hp] at h
      simp only [Option.some.injEq] at h
      subst h
      refine ⟨fun k hk => hk, fun l hl => Option.noConfusion hl, ?_⟩
      intro h1 h2
      simp [h1, h2] at hp
    · rw [if_neg hp] at h
      by_cases hf : completion_key (completion_dirpfx text) (completion_pfx text) ∈
          dialog.dir_hash
      · simp only [hf, decide_True, if_true] at h
        split_ifs at h <;> simp only [Option.some.injEq] at h <;> subst h <;>
          simp [hf]
      · simp only [hf, decide_False, Bool.false_eq_true, if_false] at h
        split_ifs at h <;> simp only [Option.some.injEq] at h <;> subst h <;>
          simp [hf] <;> exact fun k hk => Or.inr hk
  · simp [ha] at h

/-- The keys of the directories listed in a session are pairwise different and none of
them was in the cache at the start. -/
theorem session_listings_keys (env : CompletionEnv) (texts : List String)
    (dialog : CompletionState) :
    ((session_listings env dialog texts).map
        (fun l => completion_key l.2.1 l.2.2)).Nodup ∧
    ∀ l ∈ session_listings env dialog texts,
      completion_key l.2.1 l.2.2 ∉ dialog.dir_hash := by
  induction texts generalizing dialog with
  | nil => simp [session_listings]
  | cons text rest ih =>
    unfold session_listings
    cases hstep : panel_run_dialog_update_completion env dialog text with
    | none => simp
    | some step =>
      obtain ⟨hmono, hlisted, _⟩ := update_completion_cache env dialog text step hstep
      obtain ⟨ih1, ih2⟩ := ih step.state
      simp only []
      cases hl : step.listed with
      | none =>
        simp only [Option.toList_none, List.nil_append]
        exact ⟨ih1, fun l hmem hin => ih2 l hmem (hmono _ hin)⟩
      | some l0 =>
        obtain ⟨_, _, hnot, hin⟩ := hlisted l0 hl
        simp only [Option.toList_some, List.singleton_append, List.map_cons,
          List.nodup_cons, List.mem_map, List.mem_cons]
        refine ⟨⟨?_, ih1⟩, ?_⟩
        · rintro ⟨l, hmem, heq⟩
          exact ih2 l hmem (heq ▸ hin)
        · rintro l (rfl | hmem)
          · exact hnot
          · exact fun hk => ih2 l hmem (hmono _ hk)

theorem completion_key_injective (d1 d2 : String) (p1 p2 : Char)
    (h : completion_key d1 p1 = completion_key d2 p2) : d1 = d2 ∧ p1 = p2 := by
  unfold completion_key at h
  have hdata : d1.data ++ ['/', p1] = d2.data ++ ['/', p2] := by
    injection h
  have := List.append_inj' hdata rfl
  obtain ⟨e1, e2⟩ := this
  refine ⟨?_, by simpa using e2⟩
  cases d1
  cases d2
  simp only at e1
  rw [e1]

/-- C22: within one session, for every sequence of calls of
`panel_run_dialog_update_completion`, the keys of the directories that `fill_files_from`
lists are pairwise different (and were not cached before): a call that gets past the
early return lists the directory exactly when its key `(dirprefix, prefix)` is not yet in
`dir_hash`, and puts the key there, so a later call with the same key lists nothing; and
different pairs of directory part and character give different keys. In the sample
session the texts `b`, `ba`, `bo`, `n` cause two listings, for `b` and for `n`. -/
theorem C22_directory_listed_once_per_key (env : CompletionEnv) (dialog : CompletionState)
    (texts : List String) :
    ((session_listings env dialog texts).map
        (fun l => completion_key l.2.1 l.2.2)).Nodup ∧
    (∀ l ∈ session_listings env dialog texts,
      completion_key l.2.1 l.2.2 ∉ dialog.dir_hash) ∧
    (∀ text step, panel_run_dialog_update_completion env dialog text = some step →
      completion_pfx text ≠ '/' → completion_pfx text ≠ '.' →
      (step.listed.isSome = true ↔
        completion_key (completion_dirpfx text) (completion_pfx text) ∉ dialog.dir_hash) ∧
      completion_key (completion_dirpfx text) (completion_pfx text) ∈
        step.state.dir_hash ∧
      ∀ next later, panel_run_dialog_update_completion env step.state next = some later →
        completion_key (completion_dirpfx next) (completion_pfx next) =
          completion_key (completion_dirpfx text) (completion_pfx text) →
        later.listed = none) ∧
    (∀ (d1 d2 : String) (p1 p2 : Char),
      completion_key d1 p1 = completion_key d2 p2 → d1 = d2 ∧ p1 = p2) ∧
    session_listings sample_completion_env
        ⟨[], ["/usr/bin/bash", "/usr/bin/bc"], [], none⟩ ["b", "ba", "bo", "n"] =
      [("/home/user", "", 'b'), ("/home/user", "", 'n')] := by
  refine ⟨(session_listings_keys env texts dialog).1, (session_listings_keys env texts dialog).2,
    ?_, completion_key_injective, by decide⟩
  intro text step hstep h1 h2
  obtain ⟨_, _, h3⟩ := update_completion_cache env dialog text step hstep
  refine ⟨(h3 h1 h2).1, (h3 h1 h2).2, ?_⟩
  intro next later hlater hkey
  obtain ⟨_, hl, _⟩ := update_completion_cache env step.state next later hlater
  cases hlisted : later.listed with
  | none => rfl
  | some l =>
    obtain ⟨e1, e2, hnot, _⟩ := hl l hlisted
    rw [e1, e2, hkey] at hnot
    exact absurd (h3 h1 h2).2 hnot

theorem fill_executables_loop_eq (env : CompletionEnv) (existing_items : List String)
    (pfx : Char) (rest list : List String) :
    fill_executables_loop env existing_items pfx rest list =
      if ((rest.filter (fun filename =>
            decide ((g_path_get_basename filename).data.head? = some pfx) &&
              env.is_regular filename && env.is_executable filename)).map
          g_path_get_basename).any (fun b => decide (b ∈ existing_items)) = true
      then []
      else ((rest.filter (fun filename =>
            decide ((g_path_get_basename filename).data.head? = some pfx) &&
              env.is_regular filename && env.is_executable filename)).map
          g_path_get_basename).reverse ++ list := by
  induction rest generalizing list with
  | nil => simp [fill_executables_loop]
  | cons filename rest ih =>
    unfold fill_executables_loop
    by_cases hq : (decide ((g_path_get_basename filename).data.head? = some pfx) &&
        env.is_regular filename && env.is_executable filename) = true
    · rw [if_pos hq]
      by_cases hin : g_path_get_basename filename ∈ existing_items
      · simp [hq, hin]
      · rw [if_neg hin, ih]
        simp [hq, hin]
    · rw [if_neg hq, ih]
      simp [hq]

/-- C23: `fill_executables (possible, existing, c)` returns the basenames of the files
of `possible` that are regular, executable and whose basename starts with `c` (last found
first), unless one of those basenames occurs in `existing`, in which case it returns the
empty list; so no item of its result is in `existing`. -/
theorem C23_fill_executables_discards_on_collision (env : CompletionEnv)
    (possible existing : List String) (c : Char) :
    fill_executables env possible existing c =
      (if ∃ b ∈ (possible.filter (fun filename =>
            decide ((g_path_get_basename filename).data.head? = some c) &&
              env.is_regular filename && env.is_executable filename)).map
          g_path_get_basename, b ∈ existing
      then []
      else ((possible.filter (fun filename =>
            decide ((g_path_get_basename filename).data.head? = some c) &&
              env.is_regular filename && env.is_executable filename)).map
          g_path_get_basename).reverse) ∧
    (∀ x ∈ fill_executables env possible existing c, x ∉ existing) ∧
    fill_executables sample_completion_env ["/usr/bin/bash", "/usr/bin/bc", "/bin/ls"] []
      'b' = ["bc", "bash"] ∧
    fill_executables sample_completion_env ["/usr/bin/bash", "/usr/bin/bc", "/bin/ls"]
      ["bc"] 'b' = [] := by
  have heq : fill_executables env possible existing c =
      (if ∃ b ∈ (possible.filter (fun filename =>
            decide ((g_path_get_basename filename).data.head? = some c) &&
              env.is_regular filename && env.is_executable filename)).map
          g_path_get_basename, b ∈ existing
      then []
      else ((possible.filter (fun filename =>
            decide ((g_path_get_basename filename).data.head? = some c) &&
              env.is_regular filename && env.is_executable filename)).map
          g_path_get_basename).reverse) := by
    unfold fill_executables
    rw [fill_executables_loop_eq]
    simp only [List.any_eq_true, decide_eq_true_eq, List.append_nil]
  refine ⟨heq, ?_, by decide, by decide⟩
  intro x hx hin
  rw [heq] at hx
  split_ifs at hx with hc
  · simp at hx
  · exact hc ⟨x, List.mem_reverse.mp hx, hin⟩

theorem dropWhile_head_not (p : Char → Bool) (l : List Char) (c : Char) (rest : List Char)
    (h : l.dropWhile p = c :: rest) : p c = false := by
  induction l with
  | nil => simp at h
  | cons a t ih =>
    rw [List.dropWhile_cons] at h
    by_cases ha : p a = true
    · rw [if_pos ha] at h
      exact ih h
    · rw [if_neg ha] at h
      injection h with h1 _
      rw [← h1]
      simpa using ha

theorem typed_text_assertion (typed_text : List Char) (text : String)
    (h : (match typed_text.dropWhile g_ascii_isspace with
        | [] => ((false, none) : Bool × Option String)
        | c :: rest => (false, some (String.mk (c :: rest)))).2 = some text) :
    completion_assertion text = true := by
  split at h
  · simp at h
  · rename_i c rest hd
    simp only [Option.some.injEq] at h
    subst h
    have := dropWhile_head_not _ _ c rest hd
    simp [completion_assertion, this]

/-- C27: every text that `entry_event` hands to `panel_run_dialog_update_completion` is
not empty and does not start with ASCII white space, for every entry content, selection
and key event: the assertion at the start of the callee holds and the call is made with
success. -/
theorem C27_completion_assertion_holds (enable_autocompletion : Bool) (entry : EntryState)
    (event : GdkEventKey) (text : String)
    (h : (entry_event enable_autocompletion entry event).2 = some text) :
    completion_assertion text = true ∧ text ≠ "" ∧
    (∀ c rest, text.data = c :: rest → g_ascii_isspace c = false) ∧
    ∀ (env : CompletionEnv) (dialog : CompletionState),
      (panel_run_dialog_update_completion env dialog text).isSome = true := by
  have hassert : completion_assertion text = true := by
    unfold entry_event at h
    split_ifs at h
    all_goals exact typed_text_assertion _ text h
  refine ⟨hassert, ?_, ?_, ?_⟩
  · intro e
    subst e
    exact absurd hassert (by decide)
  · intro c rest hd
    simpa [completion_assertion, hd] using hassert
  · intro env dialog
    unfold panel_run_dialog_update_completion
    simp only [hassert, Bool.not_true, Bool.false_eq_true, if_false]
    split_ifs <;> rfl

/-- C27 on the entry ` ` (a space, cursor at the end) and the typed letter `b`. -/
theorem C27_completion_assertion_holds_witness :
    (entry_event true ⟨" ", 1, 1, false⟩ ⟨true, 0x62, 1, "b"⟩).2 = some "b" ∧
    completion_assertion "b" = true :=
  ⟨by decide,
    (C27_completion_assertion_holds true ⟨" ", 1, 1, false⟩ ⟨true, 0x62, 1, "b"⟩ "b"
      (by decide)).1⟩

/-! ## Presenting the dialog: claims -/

theorem add_items_loop_rows (entries : List MenuEntry) (i : Nat) (map : KeyMap) (k : Nat)
    (r : ProgramRow) (hr : (add_items_loop i map entries).2[k]? = some r) :
    r.accelerator_key_value = if i + k < 10 then accel_key (i + k) else 0 := by
  induction entries generalizing i map k with
  | nil => simp [add_items_loop] at hr
  | cons entry rest ih =>
    have hlen : accelerator_key_mapping.length = 10 := rfl
    unfold add_items_loop at hr
    rw [hlen] at hr
    by_cases hi : i < 10
    · rw [if_pos hi] at hr
      cases k with
      | zero =>
        simp only [List.getElem?_cons_zero, Option.some.injEq] at hr
        subst hr
        simp [hi, accel_key]
      | succ k =>
        simp only [List.getElem?_cons_succ] at hr
        have := ih _ _ _ hr
        rw [this]
        simp only [Nat.add_assoc, Nat.add_comm 1]
    · rw [if_neg hi] at hr
      cases k with
      | zero =>
        simp only [List.getElem?_cons_zero, Option.some.injEq] at hr
        subst hr
        simp [hi]
      | succ k =>
        simp only [List.getElem?_cons_succ] at hr
        have := ih _ _ _ hr
        rw [this, if_neg (by omega), if_neg (by omega)]

theorem show_all_loop_rows (rows : List ProgramRow) (i : Nat) (map : KeyMap) (k : Nat)
    (r : ProgramRow) (hr : (show_all_loop i map rows).2[k]? = some r) :
    r.accelerator_key_value = if i + k < 10 then accel_key (i + k) else 0 := by
  induction rows generalizing i map k with
  | nil => simp [show_all_loop] at hr
  | cons row rest ih =>
    have hlen : accelerator_key_mapping.length = 10 := rfl
    unfold show_all_loop at hr
    rw [hlen] at hr
    by_cases hi : i < 10
    · rw [if_pos hi] at hr
      cases k with
      | zero =>
        simp only [List.getElem?_cons_zero, Option.some.injEq] at hr
        subst hr
        simp [hi, accel_key]
      | succ k =>
        simp only [List.getElem?_cons_succ] at hr
        have := ih _ _ _ hr
        rw [this]
        simp only [Nat.add_assoc, Nat.add_comm 1]
    · rw [if_neg hi] at hr
      cases k with
      | zero =>
        simp only [List.getElem?_cons_zero, Option.some.injEq] at hr
        subst hr
        simp [hi]
      | succ k =>
        simp only [List.getElem?_cons_succ] at hr
        have := ih _ _ _ hr
        rw [this, if_neg (by omega), if_neg (by omega)]

theorem visible_rows_take_all (rows : List ProgramRow) (h : visible_rows rows = rows)
    (k : Nat) (hk : k ≤ rows.length) : (visible_rows (rows.take k)).length = k := by
  unfold visible_rows at *
  rw [List.filter_eq_self] at h
  have : (rows.take k).filter (fun r => r.visible) = rows.take k := by
    rw [List.filter_eq_self]
    intro a ha
    exact h a (List.mem_of_mem_take ha)
  rw [this, List.length_take]
  omega

/-- A dialog whose rows are all displayed, carry the keys of the table in their order and
whose map binds the keys of the first ten rows is in agreement. -/
theorem accelerators_agree_of_shown (dialog : Dialog)
    (hvis : visible_rows dialog.program_list_store = dialog.program_list_store)
    (hmap : dialog.accelerator_keys_to_tree_iter_map =
      accel_bindings (min 10 dialog.program_list_store.length))
    (hrows : ∀ k r, dialog.program_list_store[k]? = some r →
      r.accelerator_key_value = if k < 10 then accel_key k else 0) :
    accelerators_agree dialog := by
  intro k hne
  have hr : dialog.program_list_store[k.1]? = some (dialog.program_list_store.get k) := by
    simp
  have hkey := hrows _ _ hr
  have hk : k.1 < 10 := by
    by_contra hc
    rw [if_neg hc] at hkey
    exact hne hkey
  rw [if_pos hk] at hkey
  refine ⟨?_, ?_⟩
  · have hv := hvis
    unfold visible_rows at hv
    rw [List.filter_eq_self] at hv
    exact hv _ (List.get_mem _ _ _)
  · rw [hmap, hkey, visible_rows_take_all _ hvis _ (Nat.le_of_lt k.2)]
    exact accel_bindings_lookup _ (by omega) _ (by have := k.2; omega)

theorem add_items_idle_agree (collate : String → String → Int) (root : Option MenuDirectory)
    (dialog : Dialog) :
    accelerators_agree (panel_run_dialog_add_items_idle collate root dialog) := by
  have hs := add_items_loop_spec (stripped_applications collate root) 0 (by omega)
  have h0 : accel_bindings 0 = [] := rfl
  rw [h0] at hs
  apply accelerators_agree_of_shown
  · exact hs.2.1
  · simp only [panel_run_dialog_add_items_idle]
    rw [hs.1, hs.2.2, Nat.zero_add]
  · intro k r hr
    have := add_items_loop_rows _ 0 [] k r hr
    simpa using this

theorem find_command_idle_agree (strstrcase : Option String → String → Bool) (text : String)
    (dialog : Dialog) :
    accelerators_agree (panel_run_dialog_find_command_idle strstrcase text dialog) := by
  by_cases hs : dialog.program_list_store = []
  · intro k
    have hlen : (panel_run_dialog_find_command_idle strstrcase text
        dialog).program_list_store.length = 0 := by
      unfold panel_run_dialog_find_command_idle
      rw [hs]
      rfl
    exact absurd k.2 (by omega)
  · have hmap := find_command_idle_map strstrcase text dialog (fun h => absurd h hs)
    intro k hne
    have hr : (panel_run_dialog_find_command_idle strstrcase text
        dialog).program_list_store[k.1]? =
        some ((panel_run_dialog_find_command_idle strstrcase text
          dialog).program_list_store.get k) := by
      simp
    have hacc := find_command_idle_accel strstrcase text dialog _ _ hr
    by_cases hc : ((panel_run_dialog_find_command_idle strstrcase text
        dialog).program_list_store.get k).visible = true ∧
        (visible_rows ((panel_run_dialog_find_command_idle strstrcase text
          dialog).program_list_store.take k)).length < 10
    · refine ⟨hc.1, ?_⟩
      have hlt := visible_rows_take_lt _ _ _ hr hc.1
      rw [hmap, (hacc.1 hc).2]
      exact accel_bindings_lookup _ (by omega) _ (by omega)
    · exact absurd (hacc.2 hc).2 hne

theorem show_all_agree (dialog : Dialog) :
    accelerators_agree
      { dialog with program_list_store := (show_all_loop 0 [] dialog.program_list_store).2,
                    accelerator_keys_to_tree_iter_map :=
                      (show_all_loop 0 [] dialog.program_list_store).1.2 } := by
  have hs := show_all_loop_spec dialog.program_list_store 0 (by omega)
  have h0 : accel_bindings 0 = [] := rfl
  rw [h0] at hs
  apply accelerators_agree_of_shown
  · exact hs.2.1
  · show (show_all_loop 0 [] _).1.2 = accel_bindings (min 10 (show_all_loop 0 [] _).2.length)
    rw [hs.1, hs.2.2, Nat.zero_add]
  · intro k r hr
    have := show_all_loop_rows _ 0 [] k r hr
    simpa using this

theorem combobox_changed_agree (enable_program_list use_program_list : Bool) (text : String)
    (dialog : Dialog) (h : accelerators_agree dialog) :
    accelerators_agree (combobox_changed enable_program_list use_program_list text dialog) := by
  cases use_program_list <;> simp only [combobox_changed, Bool.false_eq_true, if_false,
    if_true] <;> split_ifs <;> first | exact h | exact show_all_agree _

/-- C26 fails in the code: `panel_run_dialog_add_items_idle`,
`panel_run_dialog_find_command_idle` and `combobox_changed` leave the accelerator columns
and the accelerator map in agreement, and so does the first presentation, but
`panel_run_dialog_present` on the open dialog binds the map to a new empty table and
leaves the rows as they are: the agreement is lost as soon as some row displays a key.
With the one application `MATE Terminal` the row displays Alt+1 and is bound to it after
the list is filled; after the dialog is presented again the row still displays Alt+1, the
map is empty and `panel_run_dialog_accelerator_key_pressed` leaves the cursor alone. -/
theorem C26_present_empties_accelerator_map :
    (∀ collate root dialog,
      accelerators_agree (panel_run_dialog_add_items_idle collate root dialog)) ∧
    (∀ strstrcase text dialog,
      accelerators_agree (panel_run_dialog_find_command_idle strstrcase text dialog)) ∧
    (∀ enable_program_list use_program_list text dialog, accelerators_agree dialog →
      accelerators_agree
        (combobox_changed enable_program_list use_program_list text dialog)) ∧
    (∀ disable_command_line, ∀ dialog ∈ panel_run_dialog_present disable_command_line none,
      accelerators_agree dialog) ∧
    (∀ disable_command_line dialog,
      panel_run_dialog_present disable_command_line (some dialog) =
        some { dialog with accelerator_keys_to_tree_iter_map := [] } ∧
      (accelerators_agree { dialog with accelerator_keys_to_tree_iter_map := [] } ↔
        ∀ r ∈ dialog.program_list_store, r.accelerator_key_value = 0)) ∧
    panel_run_dialog_present false none = some ⟨[], none, none, []⟩ ∧
    panel_run_dialog_add_items_idle codepoint_collate (some terminal_menu)
        ⟨[], none, none, []⟩ =
      ⟨[⟨some "utilities-terminal", some "MATE Terminal", GDK_MOD1_MASK, GDK_KEY_1,
          some "Use the command line", some "mate-terminal", true⟩], none, none,
        [(GDK_KEY_1, 0)]⟩ ∧
    panel_run_dialog_accelerator_key_pressed
        (panel_run_dialog_add_items_idle codepoint_collate (some terminal_menu)
          ⟨[], none, none, []⟩) none GDK_KEY_1 = some 0 ∧
    panel_run_dialog_present false
        (some (panel_run_dialog_add_items_idle codepoint_collate (some terminal_menu)
          ⟨[], none, none, []⟩)) =
      some ⟨[⟨some "utilities-terminal", some "MATE Terminal", GDK_MOD1_MASK, GDK_KEY_1,
          some "Use the command line", some "mate-terminal", true⟩], none, none, []⟩ ∧
    ¬ accelerators_agree
      ⟨[⟨some "utilities-terminal", some "MATE Terminal", GDK_MOD1_MASK, GDK_KEY_1,
          some "Use the command line", some "mate-terminal", true⟩], none, none, []⟩ ∧
    panel_run_dialog_accelerator_key_pressed
      ⟨[⟨some "utilities-terminal", some "MATE Terminal", GDK_MOD1_MASK, GDK_KEY_1,
          some "Use the command line", some "mate-terminal", true⟩], none, none, []⟩
      none GDK_KEY_1 = none := by
  refine ⟨add_items_idle_agree, find_command_idle_agree, combobox_changed_agree, ?_, ?_,
    rfl, by decide, by decide, by decide, by decide, by decide⟩
  · intro disable_command_line dialog hd
    cases disable_command_line
    · simp only [panel_run_dialog_present, Bool.false_eq_true, if_false,
        Option.mem_def, Option.some.injEq] at hd
      subst hd
      intro k
      exact k.elim0
    · simp [panel_run_dialog_present] at hd
  · intro disable_command_line dialog
    refine ⟨rfl, ?_, ?_⟩
    · intro h r hr
      obtain ⟨k, hk⟩ := List.get_of_mem hr
      by_contra hne
      have := (h k (by rw [hk]; exact hne)).2
      simp [KeyMap.lookup] at this
    · intro h k hne
      exact absurd (h _ (List.get_mem _ _ _)) hne

end PanelRunDialog
